import Mathlib

/-!
# color.h — a verification development

A shallow embedding of `src/c/color.h` (RGB/HSL/hex conversion, blending,
complement, lighten/darken, gradient and ANSI emission) together with theorems
about it.

## Arithmetic model

* C `int` values are modelled by `ℤ`; the only place where the width of `int`
  matters is the conversion of a floating value to `int`, which is undefined
  behaviour outside the `int` range (`Fp.toInt` returns `none` there).
* C `float` is IEEE-754 binary32 and C `double` is binary64, every operation
  being rounded to nearest, ties to even, in the format of its operands
  (`FLT_EVAL_METHOD == 0`, no fused multiply-add).  A floating value is `Fp`:
  a finite rational, an infinity or a NaN.  The two zeros are identified: the
  sign of a zero can only be observed through a division by that zero, and every
  zero divisor this program can form (`len - 1` converted from `int`, and the
  sums `max + min`, `2 - max - min` cancelling exactly) is `+0`.
* Functions in which a conversion to `int` or an array read may be undefined
  return `Option`.
-/

namespace ColorH

/-! ## Floating-point values -/

/-- A value of a C floating type: a finite number, an infinity (`neg = true`
for minus infinity) or a NaN. -/
inductive Fp where
  | fin (q : ℚ)
  | inf (neg : Bool)
  | nan
  deriving DecidableEq

/-- A binary floating-point format: `prec` significand bits, largest exponent `emax`
(smallest normal exponent `1 - emax`). -/
structure Fmt where
  prec : ℕ
  emax : ℤ
  deriving DecidableEq

/-- The format of C `float`. -/
def binary32 : Fmt := ⟨24, 127⟩

/-- The format of C `double`. -/
def binary64 : Fmt := ⟨53, 1023⟩

/-- The power `2 ^ z` of an integer exponent, as a rational. -/
def pow2 (z : ℤ) : ℚ :=
  if 0 ≤ z then ((2 ^ z.toNat : ℕ) : ℚ) else 1 / ((2 ^ (-z).toNat : ℕ) : ℚ)

/-- Helper for `natLog2`: at most `fuel` halvings. -/
def log2Aux : ℕ → ℕ → ℕ
  | 0, _ => 0
  | fuel + 1, n => if n < 2 then 0 else log2Aux fuel (n / 2) + 1

/-- The position of the highest set bit of `n` (`0` for `n = 0`). -/
def natLog2 (n : ℕ) : ℕ := log2Aux n n

/-- The binary exponent of a nonzero rational: `2 ^ ilog2 q ≤ |q| < 2 ^ (ilog2 q + 1)`. -/
def ilog2 (q : ℚ) : ℤ :=
  let k : ℤ := (natLog2 q.num.natAbs : ℤ) - (natLog2 q.den : ℤ)
  if pow2 k ≤ |q| then k else k - 1

/-- Rounding of a rational to the nearest integer, ties to even. -/
def rne (q : ℚ) : ℤ :=
  let f := ⌊q⌋
  if q - f < 1 / 2 then f
  else if 1 / 2 < q - f then f + 1
  else if f % 2 = 0 then f else f + 1

/-- The unit in the last place used to round `q ≠ 0` in format `f`
(subnormal numbers share the unit of the smallest normal exponent). -/
def Fmt.ulp (f : Fmt) (q : ℚ) : ℚ :=
  pow2 (max (ilog2 q) (1 - f.emax) - ((f.prec : ℤ) - 1))

/-- Rounding to nearest-even in format `f`, exponent range unbounded above. -/
def Fmt.rnd (f : Fmt) (q : ℚ) : ℚ :=
  if q = 0 then 0 else (rne (q / f.ulp q) : ℚ) * f.ulp q

/-- The correctly rounded result of an exact value `q` in format `f`:
overflow gives an infinity. -/
def Fmt.round (f : Fmt) (q : ℚ) : Fp :=
  let r := f.rnd q
  if pow2 (f.emax + 1) ≤ |r| then Fp.inf (decide (r < 0)) else Fp.fin r

namespace Fp

/-- Unary minus. -/
def neg : Fp → Fp
  | fin q => fin (-q)
  | inf s => inf (!s)
  | nan => nan

/-- IEEE addition in format `f`. -/
def add (f : Fmt) : Fp → Fp → Fp
  | nan, _ => nan
  | _, nan => nan
  | inf a, inf b => if a = b then inf a else nan
  | inf a, fin _ => inf a
  | fin _, inf b => inf b
  | fin a, fin b => f.round (a + b)

/-- IEEE subtraction in format `f`. -/
def sub (f : Fmt) (x y : Fp) : Fp := add f x (neg y)

/-- IEEE multiplication in format `f`. -/
def mul (f : Fmt) : Fp → Fp → Fp
  | nan, _ => nan
  | _, nan => nan
  | inf a, inf b => inf (a != b)
  | inf a, fin q => if q = 0 then nan else inf (a != decide (q < 0))
  | fin q, inf b => if q = 0 then nan else inf (decide (q < 0) != b)
  | fin a, fin b => f.round (a * b)

/-- IEEE division in format `f`; a zero divisor is `+0`. -/
def div (f : Fmt) : Fp → Fp → Fp
  | nan, _ => nan
  | _, nan => nan
  | inf _, inf _ => nan
  | inf a, fin q => inf (a != decide (q < 0))
  | fin _, inf _ => fin 0
  | fin a, fin b =>
    if b = 0 then (if a = 0 then nan else inf (decide (a < 0))) else f.round (a / b)

/-- The C comparison `x < y` (false when an operand is a NaN). -/
def lt : Fp → Fp → Bool
  | fin a, fin b => decide (a < b)
  | fin _, inf b => !b
  | inf a, fin _ => a
  | inf a, inf b => a && !b
  | _, _ => false

/-- The C comparison `x > y`. -/
def gt (x y : Fp) : Bool := lt y x

/-- The C comparison `x == y` (false when an operand is a NaN). -/
def eq : Fp → Fp → Bool
  | fin a, fin b => decide (a = b)
  | inf a, inf b => decide (a = b)
  | _, _ => false

/-- Conversion of an `int` to format `f`. -/
def ofInt (f : Fmt) (n : ℤ) : Fp := f.round (n : ℚ)

/-- Conversion of a floating value to another format `f` (exact when widening). -/
def cast (f : Fmt) : Fp → Fp
  | fin q => f.round q
  | x => x

end Fp

/-- The smallest `int`. -/
def INT_MIN : ℤ := -2147483648

/-- The largest `int`. -/
def INT_MAX : ℤ := 2147483647

/-- Truncation of a rational toward zero. -/
def truncQ (q : ℚ) : ℤ := if 0 ≤ q then ⌊q⌋ else -⌊-q⌋

/-- Conversion of a floating value to `int`: truncation toward zero, undefined
(`none`) for a NaN, an infinity or a value whose truncation is not an `int`. -/
def Fp.toInt : Fp → Option ℤ
  | Fp.fin q => if INT_MIN ≤ truncQ q ∧ truncQ q ≤ INT_MAX then some (truncQ q) else none
  | _ => none

/-! ### Operations of `float` and `double` -/

/-- The `float` constant or value `q`. -/
abbrev flt (q : ℚ) : Fp := Fp.fin q

/-- Addition of `float`. -/
def fadd (x y : Fp) : Fp := Fp.add binary32 x y
/-- Subtraction of `float`. -/
def fsub (x y : Fp) : Fp := Fp.sub binary32 x y
/-- Multiplication of `float`. -/
def fmul (x y : Fp) : Fp := Fp.mul binary32 x y
/-- Division of `float`. -/
def fdiv (x y : Fp) : Fp := Fp.div binary32 x y
/-- Conversion `int` to `float`. -/
def i2f (n : ℤ) : Fp := Fp.ofInt binary32 n
/-- Addition of `double`. -/
def dadd (x y : Fp) : Fp := Fp.add binary64 x y
/-- Subtraction of `double`. -/
def dsub (x y : Fp) : Fp := Fp.sub binary64 x y
/-- Conversion `double` to `float`. -/
def d2f (x : Fp) : Fp := Fp.cast binary32 x
/-- Conversion `float` to `double`: every `float` is a `double`, the value is
unchanged. -/
def f2d (x : Fp) : Fp := x

/-! ## The data model -/

/-- The struct `RGB`: three `int` channels. -/
structure RGB where
  r : ℤ
  g : ℤ
  b : ℤ
  deriving DecidableEq

/-- The struct `HSL`: hue, saturation and lightness as `float`. -/
structure HSL where
  h : Fp
  s : Fp
  l : Fp
  deriving DecidableEq

/-- An RGB is valid when each channel lies in `[0, 255]`. -/
def RGB.valid (c : RGB) : Prop :=
  0 ≤ c.r ∧ c.r ≤ 255 ∧ 0 ≤ c.g ∧ c.g ≤ 255 ∧ 0 ≤ c.b ∧ c.b ≤ 255

instance (c : RGB) : Decidable c.valid := by
  unfold RGB.valid; infer_instance

/-! ## Helpers of color.h -/

/-- The function `_fmax`: `(a > b) ? a : b`. -/
def _fmax (a b : Fp) : Fp := if Fp.gt a b then a else b

/-- The function `_fmin`: `(a < b) ? a : b`. -/
def _fmin (a b : Fp) : Fp := if Fp.lt a b then a else b

/-- The function `_fmod`: `x - y * (int)(x / y)`. -/
def _fmod (x y : Fp) : Option Fp :=
  (Fp.toInt (fdiv x y)).map fun k => fsub x (fmul y (i2f k))

/-- The function `_fabs`: `(x > 0) ? x : -x`. -/
def _fabs (x : Fp) : Fp := if Fp.gt x (flt 0) then x else Fp.neg x

/-- The function `_clamp`. -/
def _clamp (value min max : ℤ) : ℤ :=
  if value < min then min else if value > max then max else value

/-- The function `_clamp_float`. -/
def _clamp_float (value min max : Fp) : Fp :=
  if Fp.lt value min then min else if Fp.gt value max then max else value

/-! ## Hexadecimal parsing -/

/-- The C classification `isspace` in the "C" locale. -/
def isspace (c : Char) : Bool :=
  c.toNat = 32 || (9 ≤ c.toNat && c.toNat ≤ 13)

/-- The value of a base-16 digit, `none` for any other character. -/
def hexDigitVal (c : Char) : Option ℕ :=
  if 48 ≤ c.toNat ∧ c.toNat ≤ 57 then some (c.toNat - 48)
  else if 97 ≤ c.toNat ∧ c.toNat ≤ 102 then some (c.toNat - 87)
  else if 65 ≤ c.toNat ∧ c.toNat ≤ 70 then some (c.toNat - 55)
  else none

/-- The digit loop of `strtol` in base 16: accumulates digits up to the first
character that is not one. -/
def strtolDigits : ℕ → List Char → ℕ
  | acc, [] => acc
  | acc, c :: cs =>
    match hexDigitVal c with
    | some d => strtolDigits (16 * acc + d) cs
    | none => acc

/-- The optional prefix `0x` or `0X` that `strtol` accepts in base 16 is dropped. -/
def strtolPrefix (s : List Char) : List Char :=
  match s with
  | '0' :: x :: t => if x = 'x' ∨ x = 'X' then t else s
  | _ => s

/-- The library call `strtol(s, NULL, 16)` for a `long` of `longBits` bits:
leading white space, an optional sign, an optional `0x`/`0X`, then the digits;
a value outside the range of `long` saturates. -/
def strtol16 (longBits : ℕ) (s : List Char) : ℤ :=
  let s1 := s.dropWhile isspace
  let neg := s1.head? = some '-'
  let s2 := if s1.head? = some '-' ∨ s1.head? = some '+' then s1.tail else s1
  let s3 := strtolPrefix s2
  let v : ℤ := (strtolDigits 0 s3 : ℤ)
  if neg then max (-v) (-(2 ^ (longBits - 1))) else min v (2 ^ (longBits - 1) - 1)

/-- The function `_hex_to_rgb`, returning the colour it stores through its
pointer argument; `hex` is the string up to its terminating NUL. -/
def _hex_to_rgb (longBits : ℕ) (hex : List Char) : RGB :=
  let hex := if hex.head? = some '#' then hex.tail else hex
  let hex_color : ℕ := (strtol16 longBits hex % 2 ^ 32).toNat
  ⟨((hex_color >>> 16) &&& 0xFF : ℕ), ((hex_color >>> 8) &&& 0xFF : ℕ), (hex_color &&& 0xFF : ℕ)⟩

/-- The function `hex_to_rgb`. -/
def hex_to_rgb (longBits : ℕ) (hex : List Char) : RGB := _hex_to_rgb longBits hex

/-! ## Colour manipulation -/

/-- The function `newRGB`. -/
def newRGB (r g b : ℤ) : RGB := ⟨_clamp r 0 255, _clamp g 0 255, _clamp b 0 255⟩

/-- The function `rgb_to_hsl`. -/
def rgb_to_hsl (rgb : RGB) : HSL :=
  let r := fdiv (i2f rgb.r) (flt 255)
  let g := fdiv (i2f rgb.g) (flt 255)
  let b := fdiv (i2f rgb.b) (flt 255)
  let max := _fmax (_fmax r g) b
  let min := _fmin (_fmin r g) b
  let l := fdiv (fadd max min) (flt 2)
  if Fp.eq max min then
    ⟨fmul (flt 0) (flt 360), flt 0, l⟩
  else
    let d := fsub max min
    let s :=
      if Fp.gt l (flt (1 / 2)) then fdiv d (fsub (fsub (flt 2) max) min)
      else fdiv d (fadd max min)
    let h :=
      if Fp.eq max r then
        fadd (fdiv (fsub g b) d) (if Fp.lt g b then flt 6 else flt 0)
      else if Fp.eq max g then fadd (fdiv (fsub b r) d) (flt 2)
      else fadd (fdiv (fsub r g) d) (flt 4)
    let h := fdiv h (flt 6)
    ⟨fmul h (flt 360), s, l⟩

/-- The function `hsl_to_rgb`; `none` when a conversion to `int` is undefined. -/
def hsl_to_rgb (hsl : HSL) : Option RGB :=
  let h := fdiv hsl.h (flt 60)
  let s := hsl.s
  let l := hsl.l
  let c := fmul (fsub (flt 1) (_fabs (fsub (fmul (flt 2) l) (flt 1)))) s
  (_fmod h (flt 2)).bind fun hm =>
  let x := fmul c (fsub (flt 1) (_fabs (fsub hm (flt 1))))
  let m := fsub l (fdiv c (flt 2))
  let rgb : Fp × Fp × Fp :=
    if Fp.lt h (flt 1) then (c, x, flt 0)
    else if Fp.lt h (flt 2) then (x, c, flt 0)
    else if Fp.lt h (flt 3) then (flt 0, c, x)
    else if Fp.lt h (flt 4) then (flt 0, x, c)
    else if Fp.lt h (flt 5) then (x, flt 0, c)
    else (c, flt 0, x)
  (Fp.toInt (fmul (fadd rgb.1 m) (flt 255))).bind fun ri =>
  (Fp.toInt (fmul (fadd rgb.2.1 m) (flt 255))).bind fun gi =>
  (Fp.toInt (fmul (fadd rgb.2.2 m) (flt 255))).bind fun bi =>
  some ⟨_clamp ri 0 255, _clamp gi 0 255, _clamp bi 0 255⟩

/-- One channel of `blend_colors`: `(int)(a * m + b * ratio + 0.5)`, the sum of
the two `float` products being widened to `double` before `0.5` is added. -/
def blendChannel (a b : ℤ) (m ratio : Fp) : Option ℤ :=
  Fp.toInt (dadd (f2d (fadd (fmul (i2f a) m) (fmul (i2f b) ratio))) (flt (1 / 2)))

/-- The body of `blend_colors` after its range check: `m = 1.0 - ratio` is
computed in `double` and stored in a `float`, then the three channels. -/
def blendInterp (c1 c2 : RGB) (ratio : Fp) : Option RGB :=
  let m := d2f (dsub (flt 1) (f2d ratio))
  (blendChannel c1.r c2.r m ratio).bind fun r =>
  (blendChannel c1.g c2.g m ratio).bind fun g =>
  (blendChannel c1.b c2.b m ratio).bind fun b =>
  some ⟨r, g, b⟩

/-- The function `blend_colors`; the comparisons with `0.0` and `1.0` are made
in `double`. -/
def blend_colors (c1 c2 : RGB) (ratio : Fp) : Option RGB :=
  if Fp.lt (f2d ratio) (flt 0) || Fp.gt (f2d ratio) (flt 1) then some ⟨0, 0, 0⟩
  else blendInterp c1 c2 ratio

/-- The function `complementary_color`. -/
def complementary_color (c : RGB) : Option RGB :=
  let hsl := rgb_to_hsl c
  (_fmod (fadd hsl.h (flt 180)) (flt 360)).bind fun h => hsl_to_rgb ⟨h, hsl.s, hsl.l⟩

/-- The function `lighten_color`. -/
def lighten_color (c : RGB) (amount : Fp) : Option RGB :=
  let hsl := rgb_to_hsl c
  hsl_to_rgb ⟨hsl.h, hsl.s, _clamp_float (fadd hsl.l amount) (flt 0) (flt 1)⟩

/-- The function `darken_color`. -/
def darken_color (c : RGB) (amount : Fp) : Option RGB := lighten_color c (Fp.neg amount)

/-! ## Output -/

/-- What a call has written: the bytes sent to standard output and those sent
to the standard error stream. -/
structure Sink where
  out : String
  err : String
  deriving DecidableEq

/-- The text printed by `printf("\x1b[38;2;%d;%d;%dm", r, g, b)`. -/
def sgrTrueColor (r g b : ℤ) : String :=
  "\x1b[38;2;" ++ toString r ++ ";" ++ toString g ++ ";" ++ toString b ++ "m"

/-- The text printed by `printf("\x1b[0m")`. -/
def sgrReset : String := "\x1b[0m"

/-- One channel of a gradient colour: `(int)((1 - f) * s + f * e)`. -/
def gradChannel (f : Fp) (s e : ℤ) : Option ℤ :=
  Fp.toInt (fadd (fmul (fsub (flt 1) f) (i2f s)) (fmul f (i2f e)))

/-- The array read `colors[i]`, undefined outside the array. -/
def readStop (colors : List RGB) (i : ℤ) : Option RGB :=
  if 0 ≤ i then colors.get? i.toNat else none

/-- The loop of `c_gradf` from index `i` on, `rest` being the characters of the
text from that index; the result is what the loop prints. -/
def gradLoop (colors : List RGB) (color_count len : ℤ) : ℕ → List Char → Option String
  | _, [] => some ""
  | i, ch :: rest =>
    let t := fdiv (i2f i) (i2f (len - 1))
    let p := fmul t (i2f (color_count - 1))
    (Fp.toInt p).bind fun seg =>
    let f := fsub p (i2f seg)
    (readStop colors seg).bind fun s =>
    (readStop colors (seg + 1)).bind fun e =>
    (gradChannel f s.r e.r).bind fun r =>
    (gradChannel f s.g e.g).bind fun g =>
    (gradChannel f s.b e.b).bind fun b =>
    (gradLoop colors color_count len (i + 1) rest).map fun tail =>
    sgrTrueColor r g b ++ String.singleton ch ++ tail

/-- The function `c_gradf` applied to the array `colors`, the count
`color_count` and the already formatted `text`. -/
def c_gradf (colors : List RGB) (color_count : ℤ) (text : List Char) : Option Sink :=
  if color_count < 2 then
    some ⟨"", "Error: At least two colors are required for a gradient.\n"⟩
  else
    (gradLoop colors color_count text.length 0 text).map fun body =>
    ⟨body ++ sgrReset, ""⟩

/-- The segment index of character `i` in `c_gradf`:
`seg = (int)(t * (color_count - 1))` with `t = (float)i / (len - 1)`. -/
def gradSeg (color_count len : ℤ) (i : ℕ) : Option ℤ :=
  Fp.toInt (fmul (fdiv (i2f i) (i2f (len - 1))) (i2f (color_count - 1)))

/-- The body of the loop of `c_gradf` at index `i`: the colour in which
character `i` is printed. -/
def gradColor (colors : List RGB) (color_count len : ℤ) (i : ℕ) : Option RGB :=
  let t := fdiv (i2f i) (i2f (len - 1))
  let p := fmul t (i2f (color_count - 1))
  (Fp.toInt p).bind fun seg =>
  let f := fsub p (i2f seg)
  (readStop colors seg).bind fun s =>
  (readStop colors (seg + 1)).bind fun e =>
  (gradChannel f s.r e.r).bind fun r =>
  (gradChannel f s.g e.g).bind fun g =>
  (gradChannel f s.b e.b).bind fun b =>
  some ⟨r, g, b⟩

/-- The function `c_rgbf` applied to the colour and the already formatted text:
the three calls `printf("\x1b[38;2;%d;%d;%dm", ...)`, `vprintf` and
`printf("\x1b[0m")` in turn. -/
def c_rgbf (color : RGB) (text : String) : Sink :=
  ⟨sgrTrueColor color.r color.g color.b ++ text ++ sgrReset, ""⟩

/-! ## Definitions used to state the properties -/

/-- Saturation of an integer into `[0, 255]`, as the specification words it:
`0` below `0`, `255` above `255`, the value itself otherwise. -/
def saturate255 (v : ℤ) : ℤ := if v < 0 then 0 else if 255 < v then 255 else v

/-- The numeric value of a string of hexadecimal digits, most significant
digit first. -/
def hexValue (s : List Char) : ℕ :=
  s.foldl (fun acc c => 16 * acc + (hexDigitVal c).getD 0) 0

/-- Bits `lo .. lo + 7` of a natural number. -/
def byteAt (v lo : ℕ) : ℕ := v / 2 ^ lo % 256

/-- The ratio is below `0` or above `1` (an infinity is, a NaN is not). -/
def Fp.outsideUnit : Fp → Prop
  | Fp.fin q => q < 0 ∨ 1 < q
  | Fp.inf _ => True
  | Fp.nan => False

/-- The ratio lies in `[0, 1]`. -/
def Fp.inUnit : Fp → Prop
  | Fp.fin q => 0 ≤ q ∧ q ≤ 1
  | _ => False

/-- The amount is at least `1` (the infinity `+inf` is, a NaN is not). -/
def Fp.geOne : Fp → Prop
  | Fp.fin q => 1 ≤ q
  | Fp.inf s => s = false
  | Fp.nan => False

/-- The amount is at most `-1` (the infinity `-inf` is, a NaN is not). -/
def Fp.leNegOne : Fp → Prop
  | Fp.fin q => q ≤ -1
  | Fp.inf s => s = true
  | Fp.nan => False

/-- The message `c_gradf` prints on the standard error stream. -/
def gradErrorMessage : String := "Error: At least two colors are required for a gradient.\n"

/-- The three channels are values of the C type `int`. -/
def RGB.isInt (c : RGB) : Prop :=
  INT_MIN ≤ c.r ∧ c.r ≤ INT_MAX ∧ INT_MIN ≤ c.g ∧ c.g ≤ INT_MAX ∧ INT_MIN ≤ c.b ∧ c.b ≤ INT_MAX

instance (c : RGB) : Decidable c.isInt := by
  unfold RGB.isInt; infer_instance

/-- The stream of a gradient with the colours `cols`: each character in text
order, preceded by the true-colour prefix of its colour. -/
def gradStream : List RGB → List Char → String
  | c :: cs, ch :: rest =>
    sgrTrueColor c.r c.g c.b ++ String.singleton ch ++ gradStream cs rest
  | _, _ => ""

/-- The nearest integer to a rational, ties rounded up. -/
def roundHalfUp (q : ℚ) : ℤ := ⌊q + 1 / 2⌋

/-- The single-precision value of `a * m + b * ratio` that `blend_colors` computes
for one channel, `m` being `1.0 - ratio` computed in `double` and stored in a
`float`; each product and the sum are rounded to `float`. -/
def blendValue (a b : ℤ) (ratio : ℚ) : ℚ :=
  binary32.rnd (binary32.rnd ((a : ℚ) * binary32.rnd (binary64.rnd (1 - ratio)))
    + binary32.rnd ((b : ℚ) * ratio))

/-- The exact linear interpolation `a * (1 - ratio) + b * ratio`. -/
def lerp (a b : ℤ) (ratio : ℚ) : ℚ := (a : ℚ) * (1 - ratio) + (b : ℚ) * ratio

/-- Clamping of a rational into `[0, 1]`. -/
def clamp01 (x : ℚ) : ℚ := max 0 (min 1 x)

/-- The red weight of the hue position `h` in `[0, 6]` (hue divided by 60 degrees). -/
def hueRed (h : ℚ) : ℚ := clamp01 (|h - 3| - 1)

/-- The green weight of the hue position `h` in `[0, 6]`. -/
def hueGreen (h : ℚ) : ℚ := clamp01 (2 - |h - 2|)

/-- The blue weight of the hue position `h` in `[0, 6]`. -/
def hueBlue (h : ℚ) : ℚ := clamp01 (2 - |h - 4|)

/-- The exact hue position (hue divided by 60 degrees) of a colour that is not a
gray, by the six-sector formula of `rgb_to_hsl` in exact arithmetic. -/
def huePos (r g b : ℤ) : ℚ :=
  let M := max (max r g) b
  let m := min (min r g) b
  if M = r then ((g : ℚ) - b) / ((M : ℚ) - m) + (if g < b then 6 else 0)
  else if M = g then ((b : ℚ) - r) / ((M : ℚ) - m) + 2
  else ((r : ℚ) - g) / ((M : ℚ) - m) + 4

/-! ## Theorems -/

/-! ## Rounding: basic facts -/

theorem pow2_eq (z : ℤ) : pow2 z = (2 : ℚ) ^ z := by
  unfold pow2
  split_ifs with h
  · have hz : z = (z.toNat : ℤ) := (Int.toNat_of_nonneg h).symm
    conv_rhs => rw [hz]
    rw [zpow_natCast]
    push_cast
    rfl
  · have hz : z = -(((-z).toNat : ℤ)) := by
      have := Int.toNat_of_nonneg (show 0 ≤ -z by omega)
      omega
    conv_rhs => rw [hz]
    rw [zpow_neg, zpow_natCast]
    push_cast
    rw [one_div]

theorem pow2_pos (z : ℤ) : 0 < pow2 z := by
  rw [pow2_eq]; positivity

theorem log2Aux_spec : ∀ fuel n : ℕ, n ≤ fuel → 0 < n →
    2 ^ log2Aux fuel n ≤ n ∧ n < 2 ^ (log2Aux fuel n + 1)
  | 0, n, h, hn => by omega
  | fuel + 1, n, h, hn => by
    unfold log2Aux
    split_ifs with h2
    · constructor
      · simpa using hn
      · simpa using h2
    · have ih := log2Aux_spec fuel (n / 2) (by omega) (by omega)
      generalize log2Aux fuel (n / 2) = k at ih
      obtain ⟨ih1, ih2⟩ := ih
      rw [pow_succ] at ih2
      constructor
      · rw [pow_succ]; omega
      · rw [pow_succ, pow_succ]; omega

theorem natLog2_spec (n : ℕ) (hn : 0 < n) :
    2 ^ natLog2 n ≤ n ∧ n < 2 ^ (natLog2 n + 1) :=
  log2Aux_spec n n le_rfl hn

theorem ilog2_spec (q : ℚ) (hq : q ≠ 0) :
    (2 : ℚ) ^ ilog2 q ≤ |q| ∧ |q| < (2 : ℚ) ^ (ilog2 q + 1) := by
  have hnum : q.num ≠ 0 := Rat.num_ne_zero.mpr hq
  have ha : 0 < q.num.natAbs := Int.natAbs_pos.mpr hnum
  have hd : 0 < q.den := q.den_pos
  obtain ⟨a1, a2⟩ := natLog2_spec _ ha
  obtain ⟨d1, d2⟩ := natLog2_spec _ hd
  have habs : |q| = (q.num.natAbs : ℚ) / (q.den : ℚ) := by
    conv_lhs => rw [← Rat.num_div_den q]
    rw [abs_div, Nat.abs_cast]
    congr 1
    rw [Nat.cast_natAbs, Int.cast_abs]
  have hdq : (0 : ℚ) < q.den := by exact_mod_cast hd
  have a1' : (2 : ℚ) ^ (natLog2 q.num.natAbs : ℤ) ≤ (q.num.natAbs : ℚ) := by
    rw [zpow_natCast]; exact_mod_cast a1
  have a2' : (q.num.natAbs : ℚ) < (2 : ℚ) ^ ((natLog2 q.num.natAbs : ℤ) + 1) := by
    rw [show ((natLog2 q.num.natAbs : ℤ) + 1) = ((natLog2 q.num.natAbs + 1 : ℕ) : ℤ) by push_cast; rfl,
      zpow_natCast]
    exact_mod_cast a2
  have d1' : (2 : ℚ) ^ (natLog2 q.den : ℤ) ≤ (q.den : ℚ) := by
    rw [zpow_natCast]; exact_mod_cast d1
  have d2' : (q.den : ℚ) < (2 : ℚ) ^ ((natLog2 q.den : ℤ) + 1) := by
    rw [show ((natLog2 q.den : ℤ) + 1) = ((natLog2 q.den + 1 : ℕ) : ℤ) by push_cast; rfl,
      zpow_natCast]
    exact_mod_cast d2
  have key : ilog2 q = if (2 : ℚ) ^ ((natLog2 q.num.natAbs : ℤ) - (natLog2 q.den : ℤ)) ≤ |q|
      then (natLog2 q.num.natAbs : ℤ) - (natLog2 q.den : ℤ)
      else (natLog2 q.num.natAbs : ℤ) - (natLog2 q.den : ℤ) - 1 := by
    unfold ilog2
    simp only [pow2_eq]
  rw [key]
  generalize (natLog2 q.num.natAbs : ℤ) = la at a1' a2'
  generalize (natLog2 q.den : ℤ) = ld at d1' d2'
  have h2 : (0 : ℚ) < 2 := by norm_num
  have h2' : (2 : ℚ) ≠ 0 := by norm_num
  split_ifs with h
  · refine ⟨h, ?_⟩
    rw [habs, div_lt_iff₀ hdq]
    calc (q.num.natAbs : ℚ) < 2 ^ (la + 1) := a2'
      _ = 2 ^ (la - ld + 1) * 2 ^ ld := by rw [← zpow_add₀ h2']; congr 1; ring
      _ ≤ 2 ^ (la - ld + 1) * q.den := by
          apply mul_le_mul_of_nonneg_left d1' (by positivity)
  · refine ⟨?_, ?_⟩
    · rw [habs, le_div_iff₀ hdq]
      calc (2 : ℚ) ^ (la - ld - 1) * q.den ≤ 2 ^ (la - ld - 1) * 2 ^ (ld + 1) := by
            apply mul_le_mul_of_nonneg_left d2'.le (by positivity)
        _ = 2 ^ la := by rw [← zpow_add₀ h2']; congr 1; ring
        _ ≤ _ := a1'
    · rw [show la - ld - 1 + 1 = la - ld by ring]
      exact not_le.mp h

theorem ilog2_lt (q : ℚ) (hq : q ≠ 0) (k : ℤ) (h : |q| < (2 : ℚ) ^ k) : ilog2 q < k := by
  have h1 := (ilog2_spec q hq).1
  have := lt_of_le_of_lt h1 h
  exact (zpow_lt_zpow_iff_right₀ (by norm_num : (1 : ℚ) < 2)).mp this

theorem le_ilog2 (q : ℚ) (hq : q ≠ 0) (k : ℤ) (h : (2 : ℚ) ^ k ≤ |q|) : k ≤ ilog2 q := by
  have h1 := (ilog2_spec q hq).2
  have := lt_of_le_of_lt h h1
  have := (zpow_lt_zpow_iff_right₀ (by norm_num : (1 : ℚ) < 2)).mp this
  omega

theorem ilog2_eq (q : ℚ) (k : ℤ) (h1 : (2 : ℚ) ^ k ≤ |q|) (h2 : |q| < (2 : ℚ) ^ (k + 1)) :
    ilog2 q = k := by
  have hq : q ≠ 0 := by
    rintro rfl
    simp at h1
    exact absurd h1 (not_le.mpr (by positivity))
  have := ilog2_lt q hq _ h2
  have := le_ilog2 q hq _ h1
  omega

/-! ### Rounding to the nearest integer -/

theorem rne_floor_le (q : ℚ) : ⌊q⌋ ≤ rne q := by
  unfold rne
  simp only
  split_ifs <;> omega

theorem rne_le_floor_add_one (q : ℚ) : rne q ≤ ⌊q⌋ + 1 := by
  unfold rne
  simp only
  split_ifs <;> omega

theorem rne_err (q : ℚ) : |(rne q : ℚ) - q| ≤ 1 / 2 := by
  have h1 := Int.floor_le q
  have h2 := Int.lt_floor_add_one q
  unfold rne
  simp only
  rw [abs_le]
  split_ifs with a b c
  · constructor <;> linarith
  · push_cast; constructor <;> linarith
  · constructor <;> linarith
  · push_cast; constructor <;> linarith

theorem rne_intCast (n : ℤ) : rne (n : ℚ) = n := by
  unfold rne
  simp

theorem rne_mono {x y : ℚ} (h : x ≤ y) : rne x ≤ rne y := by
  rcases (Int.floor_mono h).lt_or_eq with hlt | heq
  · calc rne x ≤ ⌊x⌋ + 1 := rne_le_floor_add_one x
      _ ≤ ⌊y⌋ := hlt
      _ ≤ rne y := rne_floor_le y
  · unfold rne
    simp only [heq]
    split_ifs <;> first | omega | (exfalso; linarith)

theorem rne_neg (q : ℚ) : rne (-q) = -rne q := by
  by_cases hq : (⌊q⌋ : ℚ) = q
  · rw [← hq, ← Int.cast_neg, rne_intCast, rne_intCast]
  · have h1 := Int.floor_le q
    have h2 := Int.lt_floor_add_one q
    have hlt : (⌊q⌋ : ℚ) < q := lt_of_le_of_ne h1 hq
    have hfl : ⌊-q⌋ = -⌊q⌋ - 1 := by
      rw [Int.floor_eq_iff]
      push_cast
      constructor <;> linarith
    unfold rne
    simp only [hfl]
    push_cast
    split_ifs <;> first | omega | (exfalso; linarith)

/-! ### Rounding in a format -/

theorem Fmt.ulp_eq (f : Fmt) (q : ℚ) :
    f.ulp q = (2 : ℚ) ^ (max (ilog2 q) (1 - f.emax) - ((f.prec : ℤ) - 1)) := by
  unfold Fmt.ulp
  rw [pow2_eq]

theorem Fmt.ulp_pos (f : Fmt) (q : ℚ) : 0 < f.ulp q := by
  rw [Fmt.ulp_eq]; positivity

theorem Fmt.rnd_zero (f : Fmt) : f.rnd 0 = 0 := by
  simp [Fmt.rnd]

theorem Fmt.rnd_of_ne (f : Fmt) {q : ℚ} (hq : q ≠ 0) :
    f.rnd q = (rne (q / f.ulp q) : ℚ) * f.ulp q := by
  simp [Fmt.rnd, hq]

theorem Fmt.rnd_err (f : Fmt) (q : ℚ) : |f.rnd q - q| ≤ f.ulp q / 2 := by
  by_cases hq : q = 0
  · subst hq
    rw [Fmt.rnd_zero]
    have := f.ulp_pos 0
    simp only [sub_zero, abs_zero]
    linarith
  · rw [f.rnd_of_ne hq]
    have hu := f.ulp_pos q
    have h := rne_err (q / f.ulp q)
    have e : (rne (q / f.ulp q) : ℚ) * f.ulp q - q = ((rne (q / f.ulp q) : ℚ) - q / f.ulp q) * f.ulp q := by
      field_simp
    rw [e, abs_mul, abs_of_pos hu]
    calc |(rne (q / f.ulp q) : ℚ) - q / f.ulp q| * f.ulp q ≤ 1 / 2 * f.ulp q :=
          mul_le_mul_of_nonneg_right h hu.le
      _ = f.ulp q / 2 := by ring

theorem Fmt.rnd_err_pow (f : Fmt) (q : ℚ) (k : ℤ) (hk : 1 - f.emax ≤ k)
    (h : |q| < (2 : ℚ) ^ (k + 1)) : |f.rnd q - q| ≤ (2 : ℚ) ^ (k - f.prec) := by
  by_cases hq : q = 0
  · subst hq
    rw [Fmt.rnd_zero]
    simp
    positivity
  · have h1 := f.rnd_err q
    have h2 : ilog2 q ≤ k := by
      have := ilog2_lt q hq _ h
      omega
    have h3 : f.ulp q / 2 ≤ (2 : ℚ) ^ (k - f.prec) := by
      rw [Fmt.ulp_eq]
      have : (2 : ℚ) ^ (max (ilog2 q) (1 - f.emax) - ((f.prec : ℤ) - 1)) / 2
          = (2 : ℚ) ^ (max (ilog2 q) (1 - f.emax) - (f.prec : ℤ)) := by
        rw [show max (ilog2 q) (1 - f.emax) - ((f.prec : ℤ) - 1)
          = (max (ilog2 q) (1 - f.emax) - (f.prec : ℤ)) + 1 by ring, zpow_add_one₀ (by norm_num)]
        ring
      rw [this]
      apply zpow_le_zpow_right₀ (by norm_num)
      have : max (ilog2 q) (1 - f.emax) ≤ k := max_le h2 hk
      omega
    exact h1.trans h3

theorem ilog2_neg (q : ℚ) : ilog2 (-q) = ilog2 q := by
  by_cases hq : q = 0
  · subst hq; simp
  · obtain ⟨h1, h2⟩ := ilog2_spec q hq
    exact ilog2_eq (-q) _ (by rwa [abs_neg]) (by rwa [abs_neg])

theorem Fmt.ulp_neg (f : Fmt) (q : ℚ) : f.ulp (-q) = f.ulp q := by
  unfold Fmt.ulp
  rw [ilog2_neg]

theorem Fmt.rnd_neg (f : Fmt) (q : ℚ) : f.rnd (-q) = -f.rnd q := by
  by_cases hq : q = 0
  · subst hq; simp [Fmt.rnd_zero]
  · rw [f.rnd_of_ne hq, f.rnd_of_ne (neg_ne_zero.mpr hq), Fmt.ulp_neg, neg_div, rne_neg]
    push_cast
    ring

theorem Fmt.rnd_nonneg (f : Fmt) {q : ℚ} (h : 0 ≤ q) : 0 ≤ f.rnd q := by
  by_cases hq : q = 0
  · subst hq; rw [Fmt.rnd_zero]
  · rw [f.rnd_of_ne hq]
    have hu := f.ulp_pos q
    have : 0 ≤ rne (q / f.ulp q) := by
      calc (0 : ℤ) ≤ ⌊q / f.ulp q⌋ := Int.floor_nonneg.mpr (div_nonneg h hu.le)
        _ ≤ _ := rne_floor_le _
    have : (0 : ℚ) ≤ (rne (q / f.ulp q) : ℚ) := by exact_mod_cast this
    positivity

theorem Fmt.rnd_nonpos (f : Fmt) {q : ℚ} (h : q ≤ 0) : f.rnd q ≤ 0 := by
  have := f.rnd_nonneg (neg_nonneg.mpr h)
  rw [Fmt.rnd_neg] at this
  linarith

/-- A value `m * 2 ^ j` with `|m| < 2 ^ prec` and `j` not below the smallest
exponent of the format is left unchanged by rounding. -/
theorem Fmt.rnd_rep (f : Fmt) (m j : ℤ) (hm : |m| < 2 ^ f.prec)
    (hj : 1 - f.emax - ((f.prec : ℤ) - 1) ≤ j) :
    f.rnd ((m : ℚ) * (2 : ℚ) ^ j) = (m : ℚ) * (2 : ℚ) ^ j := by
  by_cases hm0 : m = 0
  · subst hm0; simp [Fmt.rnd_zero]
  have h2 : (2 : ℚ) ≠ 0 := by norm_num
  have hq : (m : ℚ) * (2 : ℚ) ^ j ≠ 0 := by
    apply mul_ne_zero
    · exact_mod_cast hm0
    · positivity
  rw [f.rnd_of_ne hq, Fmt.ulp_eq]
  set e := max (ilog2 ((m : ℚ) * (2 : ℚ) ^ j)) (1 - f.emax) with he
  have habs : |(m : ℚ) * (2 : ℚ) ^ j| < (2 : ℚ) ^ ((f.prec : ℤ) + j) := by
    rw [abs_mul, abs_of_pos (show (0 : ℚ) < 2 ^ j by positivity), zpow_add₀ h2, zpow_natCast]
    apply mul_lt_mul_of_pos_right _ (by positivity)
    have : ((|m| : ℤ) : ℚ) < ((2 ^ f.prec : ℤ) : ℚ) := by exact_mod_cast hm
    simpa using this
  have hlog := ilog2_lt _ hq _ habs
  have hd : 0 ≤ j - (e - ((f.prec : ℤ) - 1)) := by
    have : e ≤ max ((f.prec : ℤ) + j - 1) (1 - f.emax) := max_le_max (by omega) le_rfl
    rcases max_cases ((f.prec : ℤ) + j - 1) (1 - f.emax) with ⟨h, _⟩ | ⟨h, _⟩ <;> omega
  obtain ⟨d, hd'⟩ := Int.eq_ofNat_of_zero_le hd
  have hquot : (m : ℚ) * (2 : ℚ) ^ j / (2 : ℚ) ^ (e - ((f.prec : ℤ) - 1)) = ((m * 2 ^ d : ℤ) : ℚ) := by
    rw [mul_div_assoc, ← zpow_sub₀ h2, hd', zpow_natCast]
    push_cast
    ring
  rw [hquot, rne_intCast]
  push_cast
  rw [mul_assoc, ← zpow_natCast, ← hd', ← zpow_add₀ h2]
  congr 2
  ring

/-- The quotient by the unit in the last place is below `2 ^ prec` in absolute value. -/
theorem Fmt.abs_div_ulp_lt (f : Fmt) {q : ℚ} (hq : q ≠ 0) :
    |q / f.ulp q| < (2 : ℚ) ^ (f.prec : ℤ) := by
  have hu := f.ulp_pos q
  rw [abs_div, abs_of_pos hu, div_lt_iff₀ hu, Fmt.ulp_eq, ← zpow_add₀ (by norm_num)]
  have h1 := (ilog2_spec q hq).2
  refine lt_of_lt_of_le h1 (zpow_le_zpow_right₀ (by norm_num) ?_)
  have := le_max_left (ilog2 q) (1 - f.emax)
  omega

theorem abs_rne_le (q : ℚ) (n : ℕ) (h : |q| ≤ (2 : ℚ) ^ n) : |rne q| ≤ 2 ^ n := by
  rw [abs_le] at h ⊢
  constructor
  · have := rne_mono h.1
    rw [show (-(2 : ℚ) ^ n) = (((-(2 ^ n) : ℤ)) : ℚ) by push_cast; ring, rne_intCast] at this
    exact this
  · have := rne_mono h.2
    rw [show ((2 : ℚ) ^ n) = (((2 ^ n : ℤ)) : ℚ) by push_cast; ring, rne_intCast] at this
    exact this

/-- Every rounded value is an integer of at most `prec + 1` bits times the unit
in the last place of the argument. -/
theorem Fmt.rnd_form (f : Fmt) {q : ℚ} (hq : q ≠ 0) :
    ∃ N : ℤ, |N| ≤ 2 ^ f.prec ∧
      f.rnd q = (N : ℚ) * (2 : ℚ) ^ (max (ilog2 q) (1 - f.emax) - ((f.prec : ℤ) - 1)) := by
  refine ⟨rne (q / f.ulp q), ?_, ?_⟩
  · apply abs_rne_le
    rw [← zpow_natCast]
    exact (f.abs_div_ulp_lt hq).le
  · rw [f.rnd_of_ne hq, Fmt.ulp_eq]

/-- A power of two within the exponent range is representable, whatever the precision. -/
theorem Fmt.rnd_pow2 (f : Fmt) (hp : 1 ≤ f.prec) (k : ℤ) (hk : 1 - f.emax - ((f.prec : ℤ) - 1) ≤ k) :
    f.rnd ((2 : ℚ) ^ k) = (2 : ℚ) ^ k := by
  have := f.rnd_rep 1 k (by
    rw [abs_one]
    exact one_lt_pow₀ (by norm_num) (by omega)) hk
  simpa using this

theorem Fmt.rnd_idem (f : Fmt) (hp : 1 ≤ f.prec) (q : ℚ) : f.rnd (f.rnd q) = f.rnd q := by
  by_cases hq : q = 0
  · subst hq; rw [Fmt.rnd_zero, Fmt.rnd_zero]
  obtain ⟨N, hN, hform⟩ := f.rnd_form hq
  rw [hform]
  have hj : 1 - f.emax - ((f.prec : ℤ) - 1) ≤ max (ilog2 q) (1 - f.emax) - ((f.prec : ℤ) - 1) := by
    have := le_max_right (ilog2 q) (1 - f.emax)
    omega
  rcases hN.lt_or_eq with hlt | heq
  · exact f.rnd_rep N _ hlt hj
  · -- the significand is `± 2 ^ prec`: the value is a power of two
    have h2 : (2 : ℚ) ≠ 0 := by norm_num
    rcases abs_cases N with ⟨hN1, _⟩ | ⟨hN1, _⟩
    · rw [hN1] at heq
      rw [heq]
      push_cast
      rw [← zpow_natCast, ← zpow_add₀ h2]
      exact f.rnd_pow2 hp _ (by omega)
    · have : N = -(2 ^ f.prec) := by omega
      rw [this]
      push_cast
      rw [neg_mul, Fmt.rnd_neg, ← zpow_natCast, ← zpow_add₀ h2]
      rw [f.rnd_pow2 hp _ (by omega)]

/-- Rounding is monotone on positive arguments. -/
theorem Fmt.rnd_mono_pos (f : Fmt) (hp : 1 ≤ f.prec) {x y : ℚ} (hx : 0 < x) (h : x ≤ y) :
    f.rnd x ≤ f.rnd y := by
  have hy : 0 < y := lt_of_lt_of_le hx h
  have hx0 : x ≠ 0 := hx.ne'
  have hy0 : y ≠ 0 := hy.ne'
  have h2 : (2 : ℚ) ≠ 0 := by norm_num
  have hlog : ilog2 x ≤ ilog2 y := by
    apply le_ilog2 y hy0
    calc (2 : ℚ) ^ ilog2 x ≤ |x| := (ilog2_spec x hx0).1
      _ = x := abs_of_pos hx
      _ ≤ y := h
      _ = |y| := (abs_of_pos hy).symm
  have hle : max (ilog2 x) (1 - f.emax) ≤ max (ilog2 y) (1 - f.emax) := max_le_max hlog le_rfl
  rcases hle.lt_or_eq with hlt | heq
  · -- different binades: a power of two lies between the rounded values
    have hey : max (ilog2 y) (1 - f.emax) = ilog2 y := by
      rcases max_cases (ilog2 y) (1 - f.emax) with ⟨h1, _⟩ | ⟨h1, h2⟩
      · exact h1
      · have := le_max_right (ilog2 x) (1 - f.emax)
        omega
    set ex := max (ilog2 x) (1 - f.emax) with hex
    have hxu : f.rnd x ≤ (2 : ℚ) ^ (ex + 1) := by
      rw [f.rnd_of_ne hx0]
      have hu := f.ulp_pos x
      have h1 : rne (x / f.ulp x) ≤ 2 ^ f.prec := by
        have := abs_rne_le (x / f.ulp x) f.prec (by
          rw [← zpow_natCast]; exact (f.abs_div_ulp_lt hx0).le)
        exact (abs_le.mp this).2
      have h1' : (rne (x / f.ulp x) : ℚ) ≤ (2 : ℚ) ^ (f.prec : ℤ) := by
        rw [zpow_natCast]; exact_mod_cast h1
      calc (rne (x / f.ulp x) : ℚ) * f.ulp x ≤ (2 : ℚ) ^ (f.prec : ℤ) * f.ulp x :=
            mul_le_mul_of_nonneg_right h1' hu.le
        _ = (2 : ℚ) ^ (ex + 1) := by
            rw [Fmt.ulp_eq, ← zpow_add₀ h2]; congr 1; ring
    have hyl : (2 : ℚ) ^ ilog2 y ≤ f.rnd y := by
      rw [f.rnd_of_ne hy0]
      have hu := f.ulp_pos y
      have hpow : (2 : ℚ) ^ ilog2 y / f.ulp y = (((2 ^ (f.prec - 1) : ℤ)) : ℚ) := by
        rw [Fmt.ulp_eq, hey, ← zpow_sub₀ h2]
        push_cast
        rw [← zpow_natCast]
        congr 1
        have : ((f.prec - 1 : ℕ) : ℤ) = (f.prec : ℤ) - 1 := by omega
        rw [this]; ring
      have h1 : (2 : ℤ) ^ (f.prec - 1) ≤ rne (y / f.ulp y) := by
        have := rne_mono (show (2 : ℚ) ^ ilog2 y / f.ulp y ≤ y / f.ulp y from
          div_le_div_of_nonneg_right (by
            calc (2 : ℚ) ^ ilog2 y ≤ |y| := (ilog2_spec y hy0).1
              _ = y := abs_of_pos hy) hu.le)
        rwa [hpow, rne_intCast] at this
      have h1' : (((2 ^ (f.prec - 1) : ℤ)) : ℚ) ≤ (rne (y / f.ulp y) : ℚ) := by exact_mod_cast h1
      calc (2 : ℚ) ^ ilog2 y = (((2 ^ (f.prec - 1) : ℤ)) : ℚ) * f.ulp y := by
            rw [← hpow]; field_simp
        _ ≤ (rne (y / f.ulp y) : ℚ) * f.ulp y := mul_le_mul_of_nonneg_right h1' hu.le
    calc f.rnd x ≤ (2 : ℚ) ^ (ex + 1) := hxu
      _ ≤ (2 : ℚ) ^ ilog2 y := zpow_le_zpow_right₀ (by norm_num) (by omega)
      _ ≤ f.rnd y := hyl
  · -- same binade: same unit in the last place
    have hu : f.ulp x = f.ulp y := by
      unfold Fmt.ulp; rw [heq]
    rw [f.rnd_of_ne hx0, f.rnd_of_ne hy0, hu]
    have hup := f.ulp_pos y
    apply mul_le_mul_of_nonneg_right _ hup.le
    have := rne_mono (div_le_div_of_nonneg_right h hup.le)
    exact_mod_cast this

/-- Rounding is monotone. -/
theorem Fmt.rnd_mono (f : Fmt) (hp : 1 ≤ f.prec) {x y : ℚ} (h : x ≤ y) : f.rnd x ≤ f.rnd y := by
  rcases lt_trichotomy 0 x with hx | hx | hx
  · exact f.rnd_mono_pos hp hx h
  · subst hx
    rw [Fmt.rnd_zero]
    exact f.rnd_nonneg h
  · rcases le_or_lt 0 y with hy | hy
    · exact (f.rnd_nonpos hx.le).trans (f.rnd_nonneg hy)
    · have := f.rnd_mono_pos hp (neg_pos.mpr hy) (neg_le_neg h)
      rw [Fmt.rnd_neg, Fmt.rnd_neg] at this
      linarith

theorem Fmt.rnd_le_of_le (f : Fmt) (hp : 1 ≤ f.prec) {x c : ℚ} (hc : f.rnd c = c) (h : x ≤ c) :
    f.rnd x ≤ c := by
  have := f.rnd_mono hp h
  rwa [hc] at this

theorem Fmt.le_rnd_of_le (f : Fmt) (hp : 1 ≤ f.prec) {x c : ℚ} (hc : f.rnd c = c) (h : c ≤ x) :
    c ≤ f.rnd x := by
  have := f.rnd_mono hp h
  rwa [hc] at this

theorem Fmt.abs_rnd_le (f : Fmt) (hp : 1 ≤ f.prec) {x c : ℚ} (hc : f.rnd c = c) (h : |x| ≤ c) :
    |f.rnd x| ≤ c := by
  rw [abs_le] at h ⊢
  constructor
  · have := f.rnd_mono hp h.1
    rwa [Fmt.rnd_neg, hc] at this
  · exact f.rnd_le_of_le hp hc h.2

/-! ### Finite results of `float` and `double` operations -/

theorem Fmt.round_fin (f : Fmt) (hp : 1 ≤ f.prec) (he : 1 ≤ f.emax) {q : ℚ}
    (h : |q| ≤ (2 : ℚ) ^ f.emax) : f.round q = Fp.fin (f.rnd q) := by
  have h1 : |f.rnd q| ≤ (2 : ℚ) ^ f.emax :=
    f.abs_rnd_le hp (f.rnd_pow2 hp _ (by omega)) h
  have h2 : (2 : ℚ) ^ f.emax < (2 : ℚ) ^ (f.emax + 1) :=
    zpow_lt_zpow_right₀ (by norm_num) (by omega)
  unfold Fmt.round
  simp only [pow2_eq]
  rw [if_neg]
  exact not_le.mpr (lt_of_le_of_lt h1 h2)

/-- Any value of magnitude at most `2 ^ 64` is far from the overflow threshold of
both formats. -/
theorem round32_fin {q : ℚ} (h : |q| ≤ 2 ^ 64) : binary32.round q = Fp.fin (binary32.rnd q) := by
  apply Fmt.round_fin _ (by decide) (by decide)
  refine h.trans ?_
  show (2 : ℚ) ^ 64 ≤ (2 : ℚ) ^ (127 : ℤ)
  norm_num

theorem round64_fin {q : ℚ} (h : |q| ≤ 2 ^ 64) : binary64.round q = Fp.fin (binary64.rnd q) := by
  apply Fmt.round_fin _ (by decide) (by decide)
  refine h.trans ?_
  show (2 : ℚ) ^ 64 ≤ (2 : ℚ) ^ (1023 : ℤ)
  rw [show (1023 : ℤ) = ((1023 : ℕ) : ℤ) by norm_num, zpow_natCast]
  exact pow_le_pow_right₀ (by norm_num) (by norm_num)

theorem fadd_fin {a b : ℚ} (h : |a + b| ≤ 2 ^ 64) :
    fadd (Fp.fin a) (Fp.fin b) = Fp.fin (binary32.rnd (a + b)) := by
  simp only [fadd, Fp.add]
  exact round32_fin h

theorem fsub_fin {a b : ℚ} (h : |a - b| ≤ 2 ^ 64) :
    fsub (Fp.fin a) (Fp.fin b) = Fp.fin (binary32.rnd (a - b)) := by
  simp only [fsub, Fp.sub, Fp.neg, Fp.add, ← sub_eq_add_neg]
  exact round32_fin h

theorem fmul_fin {a b : ℚ} (h : |a * b| ≤ 2 ^ 64) :
    fmul (Fp.fin a) (Fp.fin b) = Fp.fin (binary32.rnd (a * b)) := by
  simp only [fmul, Fp.mul]
  exact round32_fin h

theorem fdiv_fin {a b : ℚ} (hb : b ≠ 0) (h : |a / b| ≤ 2 ^ 64) :
    fdiv (Fp.fin a) (Fp.fin b) = Fp.fin (binary32.rnd (a / b)) := by
  simp only [fdiv, Fp.div, hb, if_false]
  exact round32_fin h

theorem dadd_fin {a b : ℚ} (h : |a + b| ≤ 2 ^ 64) :
    dadd (Fp.fin a) (Fp.fin b) = Fp.fin (binary64.rnd (a + b)) := by
  simp only [dadd, Fp.add]
  exact round64_fin h

theorem dsub_fin {a b : ℚ} (h : |a - b| ≤ 2 ^ 64) :
    dsub (Fp.fin a) (Fp.fin b) = Fp.fin (binary64.rnd (a - b)) := by
  simp only [dsub, Fp.sub, Fp.neg, Fp.add, ← sub_eq_add_neg]
  exact round64_fin h

/-- An `int` of magnitude below `2 ^ 24` converts to `float` exactly. -/
theorem rnd32_int (n : ℤ) (h : |n| < 2 ^ 24) : binary32.rnd (n : ℚ) = n := by
  have := binary32.rnd_rep n 0 h (by decide)
  simpa using this

theorem i2f_small (n : ℤ) (h : |n| < 2 ^ 24) : i2f n = Fp.fin n := by
  have h1 : |(n : ℚ)| ≤ 2 ^ 64 := by
    have : ((|n| : ℤ) : ℚ) < ((2 ^ 24 : ℤ) : ℚ) := by exact_mod_cast h
    rw [Int.cast_abs] at this
    refine this.le.trans ?_
    norm_num
  simp only [i2f, Fp.ofInt]
  rw [round32_fin h1, rnd32_int n h]

/-- An RGB channel converts to `float` exactly. -/
theorem i2f_channel (n : ℤ) (h0 : 0 ≤ n) (h1 : n ≤ 255) : i2f n = Fp.fin n :=
  i2f_small n (by rw [abs_of_nonneg h0]; omega)

theorem truncQ_intCast (n : ℤ) : truncQ (n : ℚ) = n := by
  unfold truncQ
  split_ifs
  · simp
  · rw [← Int.cast_neg, Int.floor_intCast]
    ring

theorem truncQ_of_nonneg {q : ℚ} (h : 0 ≤ q) : truncQ q = ⌊q⌋ := by
  simp [truncQ, h]

theorem toInt_fin {q : ℚ} (h1 : INT_MIN ≤ truncQ q) (h2 : truncQ q ≤ INT_MAX) :
    Fp.toInt (Fp.fin q) = some (truncQ q) := by
  simp [Fp.toInt, h1, h2]

/-! ## Clamping, parsing and guards -/

/-- C2: `newRGB` is total and each output channel is its own input channel
saturated into `[0, 255]`, whatever the other two channels are. -/
theorem newRGB_saturates (r g b : ℤ) :
    newRGB r g b = ⟨saturate255 r, saturate255 g, saturate255 b⟩ ∧
    (0 ≤ (newRGB r g b).r ∧ (newRGB r g b).r ≤ 255) ∧
    (0 ≤ (newRGB r g b).g ∧ (newRGB r g b).g ≤ 255) ∧
    (0 ≤ (newRGB r g b).b ∧ (newRGB r g b).b ≤ 255) := by
  have h : ∀ v : ℤ, _clamp v 0 255 = saturate255 v := by
    intro v
    unfold _clamp saturate255
    rfl
  have hr : ∀ v : ℤ, 0 ≤ saturate255 v ∧ saturate255 v ≤ 255 := by
    intro v
    unfold saturate255
    split_ifs <;> omega
  refine ⟨by simp only [newRGB, h], ?_, ?_, ?_⟩ <;> simp only [newRGB, h] <;> exact hr _

theorem hexDigitVal_lt (c : Char) (d : ℕ) (h : hexDigitVal c = some d) : d < 16 := by
  unfold hexDigitVal at h
  split_ifs at h <;> simp at h <;> omega

theorem hexDigitVal_not_space (c : Char) (h : (hexDigitVal c).isSome) : isspace c = false := by
  unfold hexDigitVal at h
  unfold isspace
  split_ifs at h <;> simp at h ⊢ <;> omega

theorem hexDigitVal_ne (c : Char) (h : (hexDigitVal c).isSome) (x : Char)
    (hx : hexDigitVal x = none) : c ≠ x := by
  rintro rfl
  simp [hx] at h

theorem strtolDigits_eq_fold (s : List Char) (h : ∀ c ∈ s, (hexDigitVal c).isSome) (acc : ℕ) :
    strtolDigits acc s = s.foldl (fun acc c => 16 * acc + (hexDigitVal c).getD 0) acc := by
  induction s generalizing acc with
  | nil => rfl
  | cons c cs ih =>
    obtain ⟨d, hd⟩ := Option.isSome_iff_exists.mp (h c (by simp))
    simp only [strtolDigits, hd, List.foldl_cons, Option.getD_some]
    exact ih (fun x hx => h x (by simp [hx])) _

theorem hexFold_lt (s : List Char) (acc : ℕ) :
    s.foldl (fun acc c => 16 * acc + (hexDigitVal c).getD 0) acc < (acc + 1) * 16 ^ s.length := by
  induction s generalizing acc with
  | nil => simp
  | cons c cs ih =>
    have hd : (hexDigitVal c).getD 0 < 16 := by
      cases hc : hexDigitVal c with
      | none => simp
      | some d => simpa using hexDigitVal_lt c d hc
    simp only [List.foldl_cons, List.length_cons]
    calc _ < (16 * acc + (hexDigitVal c).getD 0 + 1) * 16 ^ cs.length := ih _
      _ ≤ ((acc + 1) * 16) * 16 ^ cs.length := Nat.mul_le_mul_right _ (by omega)
      _ = (acc + 1) * 16 ^ (cs.length + 1) := by ring

theorem hexValue_lt (s : List Char) (_h : ∀ c ∈ s, (hexDigitVal c).isSome) :
    hexValue s < 16 ^ s.length := by
  simpa [hexValue] using hexFold_lt s 0

theorem hex_to_rgb_six_aux (longBits : ℕ) (hw : 32 ≤ longBits) (s : List Char)
    (hlen : s.length = 6) (hhex : ∀ c ∈ s, (hexDigitVal c).isSome) :
    hex_to_rgb longBits ('#' :: s) = hex_to_rgb longBits s ∧
    hex_to_rgb longBits s =
      ⟨(byteAt (hexValue s) 16 : ℕ), (byteAt (hexValue s) 8 : ℕ), (byteAt (hexValue s) 0 : ℕ)⟩ := by
  have hlt : hexValue s < 2 ^ 24 := by
    have := hexValue_lt s hhex
    rw [hlen] at this
    exact lt_of_lt_of_le this (by norm_num)
  have hdig := strtolDigits_eq_fold s hhex 0
  have hparse : _hex_to_rgb longBits s =
      ⟨(byteAt (hexValue s) 16 : ℕ), (byteAt (hexValue s) 8 : ℕ), (byteAt (hexValue s) 0 : ℕ)⟩ := by
    obtain ⟨a, t, rfl⟩ := List.exists_cons_of_length_eq_add_one (n := 5) hlen
    have ha : (hexDigitVal a).isSome := hhex a (by simp)
    have hlen5 : t.length = 5 := by simpa using hlen
    obtain ⟨b, t2, rfl⟩ := List.exists_cons_of_length_eq_add_one (n := 4) hlen5
    have hb : (hexDigitVal b).isSome := hhex b (by simp)
    have h1 : (if (a :: b :: t2).head? = some '#' then (a :: b :: t2).tail else a :: b :: t2)
        = a :: b :: t2 := by
      have : a ≠ '#' := hexDigitVal_ne a ha '#' (by decide)
      simp [this]
    have h2 : strtol16 longBits (a :: b :: t2) = (hexValue (a :: b :: t2) : ℤ) := by
      have hsp := hexDigitVal_not_space a ha
      have hm : a ≠ '-' := hexDigitVal_ne a ha '-' (by decide)
      have hp : a ≠ '+' := hexDigitVal_ne a ha '+' (by decide)
      have hx : b ≠ 'x' := hexDigitVal_ne b hb 'x' (by decide)
      have hX : b ≠ 'X' := hexDigitVal_ne b hb 'X' (by decide)
      have hpow : (2:ℤ) ^ 31 ≤ 2 ^ (longBits - 1) :=
        pow_le_pow_right₀ (by norm_num) (by omega)
      unfold strtol16
      simp only [List.dropWhile_cons, hsp, List.head?_cons, Option.some.injEq, hm, hp, or_self,
        if_false, decide_False, Bool.false_eq_true]
      have hs3 : strtolPrefix (a :: b :: t2) = a :: b :: t2 := by
        unfold strtolPrefix
        split
        · rename_i x t heq
          simp only [List.cons.injEq] at heq
          obtain ⟨-, rfl, -⟩ := heq
          simp [hx, hX]
        · rfl
      rw [hs3, hdig]
      have h3 : ((hexValue (a :: b :: t2) : ℕ) : ℤ) < 2 ^ 24 := by exact_mod_cast hlt
      rw [min_eq_left]
      · rfl
      · change ((hexValue (a :: b :: t2) : ℕ) : ℤ) ≤ _
        linarith
    have h4 : (((hexValue (a :: b :: t2) : ℕ) : ℤ) % 2 ^ 32).toNat = hexValue (a :: b :: t2) := by
      have : ((hexValue (a :: b :: t2) : ℕ) : ℤ) % 2 ^ 32 = hexValue (a :: b :: t2) := by
        apply Int.emod_eq_of_lt (by positivity)
        have : ((hexValue (a :: b :: t2) : ℕ) : ℤ) < 2 ^ 24 := by exact_mod_cast hlt
        linarith
      rw [this]
      simp
    have hff : (255 : ℕ) = 2 ^ 8 - 1 := by norm_num
    simp only [_hex_to_rgb, h1, h2, h4, byteAt, Nat.shiftRight_eq_div_pow]
    rw [hff, Nat.and_pow_two_sub_one_eq_mod, Nat.and_pow_two_sub_one_eq_mod,
      Nat.and_pow_two_sub_one_eq_mod]
    norm_num
  refine ⟨?_, hparse⟩
  have hstrip : (if s.head? = some '#' then s.tail else s) = s := by
    cases s with
    | nil => simp
    | cons a t =>
      have : a ≠ '#' := hexDigitVal_ne a (hhex a (by simp)) '#' (by decide)
      simp [this]
  simp only [hex_to_rgb, _hex_to_rgb, List.head?_cons, if_true, List.tail_cons, hstrip]

/-- C3: for six hexadecimal digits `s` of value `v`, the strings `#s` and `s`
parse to the same colour, whose red is bits 16-23 of `v`, green bits 8-15 and
blue bits 0-7; in particular `#ff8000` and `ff8000` both give RGB(255,128,0). -/
theorem hex_to_rgb_six_digits (longBits : ℕ) (hw : 32 ≤ longBits) (s : List Char)
    (hlen : s.length = 6) (hhex : ∀ c ∈ s, (hexDigitVal c).isSome) :
    (hex_to_rgb longBits ('#' :: s) = hex_to_rgb longBits s ∧
      hex_to_rgb longBits s =
        ⟨(byteAt (hexValue s) 16 : ℕ), (byteAt (hexValue s) 8 : ℕ), (byteAt (hexValue s) 0 : ℕ)⟩) ∧
    hex_to_rgb longBits "#ff8000".toList = ⟨255, 128, 0⟩ ∧
    hex_to_rgb longBits "ff8000".toList = ⟨255, 128, 0⟩ := by
  refine ⟨hex_to_rgb_six_aux longBits hw s hlen hhex, ?_⟩
  have h := hex_to_rgb_six_aux longBits hw "ff8000".toList rfl (by decide)
  have hv : hexValue "ff8000".toList = 16744448 := by decide
  rw [hv] at h
  have e : "#ff8000".toList = '#' :: "ff8000".toList := rfl
  rw [e, h.1, h.2]
  exact ⟨by decide, by decide⟩

/-- Witness of C3 at the six digits `00ff7f` with a 64-bit `long`. -/
theorem hex_to_rgb_six_digits_witness :
    hex_to_rgb 64 "#00ff7f".toList = hex_to_rgb 64 "00ff7f".toList ∧
    hex_to_rgb 64 "00ff7f".toList = ⟨0, 255, 127⟩ := by
  have h := (hex_to_rgb_six_digits 64 (by norm_num) "00ff7f".toList rfl (by decide)).1
  have hv : hexValue "00ff7f".toList = 65407 := by decide
  rw [hv] at h
  exact ⟨h.1, h.2.trans (by decide)⟩

theorem blend_colors_outside (c1 c2 : RGB) (ratio : Fp) (h : ratio.outsideUnit) :
    blend_colors c1 c2 ratio = some ⟨0, 0, 0⟩ := by
  cases ratio with
  | fin q =>
    rcases h with h | h
    · simp [blend_colors, f2d, Fp.lt, Fp.gt, h]
    · simp [blend_colors, f2d, Fp.lt, Fp.gt, h]
  | inf s => cases s <;> simp [blend_colors, f2d, Fp.lt, Fp.gt]
  | nan => exact absurd h (by simp [Fp.outsideUnit])

theorem blend_colors_inside (c1 c2 : RGB) (ratio : Fp) (h : ratio.inUnit) :
    blend_colors c1 c2 ratio = blendInterp c1 c2 ratio := by
  cases ratio with
  | fin q =>
    obtain ⟨h0, h1⟩ := h
    simp [blend_colors, f2d, Fp.lt, Fp.gt, not_lt.mpr h0, not_lt.mpr h1]
  | inf s => exact absurd h (by simp [Fp.inUnit])
  | nan => exact absurd h (by simp [Fp.inUnit])

/-- C5: a ratio below `0` or above `1` makes `blend_colors` return the sentinel
black whatever the two colours are, and a ratio in `[0, 1]` does not take the
sentinel branch: the result is the interpolation of the function body. -/
theorem blend_colors_sentinel (c1 c2 : RGB) (ratio : Fp) :
    (ratio.outsideUnit → blend_colors c1 c2 ratio = some ⟨0, 0, 0⟩) ∧
    (ratio.inUnit → blend_colors c1 c2 ratio = blendInterp c1 c2 ratio) :=
  ⟨blend_colors_outside c1 c2 ratio, blend_colors_inside c1 c2 ratio⟩

/-- Witness of C5 at the ratios `3/2` and `1/2`. -/
theorem blend_colors_sentinel_witness :
    blend_colors ⟨10, 20, 30⟩ ⟨200, 100, 0⟩ (flt (3 / 2)) = some ⟨0, 0, 0⟩ ∧
    blend_colors ⟨10, 20, 30⟩ ⟨200, 100, 0⟩ (flt (1 / 2)) =
      blendInterp ⟨10, 20, 30⟩ ⟨200, 100, 0⟩ (flt (1 / 2)) :=
  ⟨(blend_colors_sentinel _ _ (flt (3 / 2))).1 (Or.inr (by norm_num)),
   (blend_colors_sentinel _ _ (flt (1 / 2))).2 ⟨by norm_num, by norm_num⟩⟩

/-- C10: with `color_count < 2`, `c_gradf` prints its error message on the error
stream and writes nothing at all to standard output, for every array and text. -/
theorem c_gradf_too_few_stops (colors : List RGB) (color_count : ℤ) (text : List Char)
    (h : color_count < 2) :
    c_gradf colors color_count text = some ⟨"", gradErrorMessage⟩ ∧ gradErrorMessage ≠ "" := by
  constructor
  · simp [c_gradf, h, gradErrorMessage]
  · decide

/-- Witness of C10 for a single stop and the text `ABCDE`. -/
theorem c_gradf_too_few_stops_witness :
    c_gradf [⟨255, 0, 0⟩] 1 "ABCDE".toList = some ⟨"", gradErrorMessage⟩ ∧
    gradErrorMessage ≠ "" :=
  c_gradf_too_few_stops [⟨255, 0, 0⟩] 1 "ABCDE".toList (by norm_num)

/-- C7 at the input RGB(0,0,2): the complement is RGB(1,1,0), whose complement
is RGB(0,0,0), two away from the input in the blue channel. -/
theorem complementary_color_twice_at_0_0_2 :
    complementary_color ⟨0, 0, 2⟩ = some ⟨1, 1, 0⟩ ∧
    complementary_color ⟨1, 1, 0⟩ = some ⟨0, 0, 0⟩ := by
  constructor <;> decide!

/-- C9 at the input HSL(0, 0, 0.5): the scaled channels are `127.5` and the
conversion yields the truncated `127`, not the rounded `128`. -/
theorem hsl_to_rgb_truncates_at_half :
    hsl_to_rgb ⟨flt 0, flt 0, flt (1 / 2)⟩ = some ⟨127, 127, 127⟩ ∧
    fmul (fadd (flt 0) (flt (1 / 2))) (flt 255) = flt (255 / 2) := by
  constructor <;> decide!

/-! ### Blending: the end points -/

theorem rnd64_int (n : ℤ) (h : |n| < 2 ^ 53) : binary64.rnd (n : ℚ) = n := by
  have := binary64.rnd_rep n 0 h (by decide)
  simpa using this

theorem rnd64_int_add_half (n : ℤ) (h0 : 0 ≤ n) (h1 : n ≤ 1024) :
    binary64.rnd ((n : ℚ) + 1 / 2) = (n : ℚ) + 1 / 2 := by
  have := binary64.rnd_rep (2 * n + 1) (-1) (by
    rw [abs_of_nonneg (by omega)]
    calc 2 * n + 1 < 2 ^ 12 := by omega
      _ < 2 ^ 53 := by norm_num) (by decide)
  have e : (((2 * n + 1 : ℤ)) : ℚ) * (2 : ℚ) ^ (-1 : ℤ) = (n : ℚ) + 1 / 2 := by
    push_cast
    rw [zpow_neg_one]
    ring
  rwa [e] at this

theorem truncQ_int_add_half (n : ℤ) (h0 : 0 ≤ n) : truncQ ((n : ℚ) + 1 / 2) = n := by
  rw [truncQ_of_nonneg (by positivity), Int.floor_eq_iff]
  constructor <;> linarith

/-- A channel is blended with weights `1` and `0` to itself. -/
theorem blendChannel_left (a b : ℤ) (ha0 : 0 ≤ a) (ha1 : a ≤ 255) (hb0 : 0 ≤ b) (hb1 : b ≤ 255) :
    blendChannel a b (flt 1) (flt 0) = some a := by
  have hA : |(a : ℚ)| ≤ 255 := by
    rw [abs_of_nonneg (by exact_mod_cast ha0)]; exact_mod_cast ha1
  unfold blendChannel
  rw [i2f_channel a ha0 ha1, i2f_channel b hb0 hb1,
    fmul_fin (by rw [mul_one]; exact hA.trans (by norm_num)),
    fmul_fin (by rw [mul_zero]; simp), mul_one, mul_zero, Fmt.rnd_zero,
    rnd32_int a (by rw [abs_of_nonneg ha0]; omega),
    fadd_fin (by rw [add_zero]; exact hA.trans (by norm_num)), add_zero,
    rnd32_int a (by rw [abs_of_nonneg ha0]; omega)]
  simp only [f2d]
  rw [dadd_fin (by
      rw [abs_of_nonneg (by positivity)]
      have : (a : ℚ) ≤ 255 := by exact_mod_cast ha1
      norm_num; linarith),
    rnd64_int_add_half a ha0 (by omega),
    toInt_fin (by rw [truncQ_int_add_half a ha0]; unfold INT_MIN; omega)
      (by rw [truncQ_int_add_half a ha0]; unfold INT_MAX; omega),
    truncQ_int_add_half a ha0]

/-- A channel is blended with weights `0` and `1` to the other channel. -/
theorem blendChannel_right (a b : ℤ) (ha0 : 0 ≤ a) (ha1 : a ≤ 255) (hb0 : 0 ≤ b) (hb1 : b ≤ 255) :
    blendChannel a b (flt 0) (flt 1) = some b := by
  have hB : |(b : ℚ)| ≤ 255 := by
    rw [abs_of_nonneg (by exact_mod_cast hb0)]; exact_mod_cast hb1
  unfold blendChannel
  rw [i2f_channel a ha0 ha1, i2f_channel b hb0 hb1,
    fmul_fin (by rw [mul_zero]; simp),
    fmul_fin (by rw [mul_one]; exact hB.trans (by norm_num)), mul_one, mul_zero, Fmt.rnd_zero,
    rnd32_int b (by rw [abs_of_nonneg hb0]; omega),
    fadd_fin (by rw [zero_add]; exact hB.trans (by norm_num)), zero_add,
    rnd32_int b (by rw [abs_of_nonneg hb0]; omega)]
  simp only [f2d]
  rw [dadd_fin (by
      rw [abs_of_nonneg (by positivity)]
      have : (b : ℚ) ≤ 255 := by exact_mod_cast hb1
      norm_num; linarith),
    rnd64_int_add_half b hb0 (by omega),
    toInt_fin (by rw [truncQ_int_add_half b hb0]; unfold INT_MIN; omega)
      (by rw [truncQ_int_add_half b hb0]; unfold INT_MAX; omega),
    truncQ_int_add_half b hb0]

theorem blend_weight_zero : d2f (dsub (flt 1) (f2d (flt 0))) = flt 1 := by
  simp only [f2d, d2f]
  rw [dsub_fin (by norm_num), sub_zero]
  have h1 : binary64.rnd (1 : ℚ) = 1 := by simpa using rnd64_int 1 (by norm_num)
  rw [h1]
  simp only [Fp.cast]
  rw [round32_fin (by norm_num)]
  have h2 : binary32.rnd (1 : ℚ) = 1 := by simpa using rnd32_int 1 (by norm_num)
  rw [h2]

theorem blend_weight_one : d2f (dsub (flt 1) (f2d (flt 1))) = flt 0 := by
  simp only [f2d, d2f]
  rw [dsub_fin (by norm_num), sub_self, Fmt.rnd_zero]
  simp only [Fp.cast]
  rw [round32_fin (by norm_num), Fmt.rnd_zero]

/-- C4: for valid colours, blending with ratio `0` returns the first colour and
blending with ratio `1` returns the second. -/
theorem blend_colors_endpoints (c1 c2 : RGB) (h1 : c1.valid) (h2 : c2.valid) :
    blend_colors c1 c2 (flt 0) = some c1 ∧ blend_colors c1 c2 (flt 1) = some c2 := by
  obtain ⟨r0, r1, g0, g1, b0, b1⟩ := h1
  obtain ⟨r0', r1', g0', g1', b0', b1'⟩ := h2
  constructor
  · rw [blend_colors_inside c1 c2 (flt 0) ⟨le_rfl, by norm_num⟩]
    unfold blendInterp
    simp only [blend_weight_zero, blendChannel_left _ _ r0 r1 r0' r1',
      blendChannel_left _ _ g0 g1 g0' g1', blendChannel_left _ _ b0 b1 b0' b1', Option.some_bind]
  · rw [blend_colors_inside c1 c2 (flt 1) ⟨by norm_num, le_rfl⟩]
    unfold blendInterp
    simp only [blend_weight_one, blendChannel_right _ _ r0 r1 r0' r1',
      blendChannel_right _ _ g0 g1 g0' g1', blendChannel_right _ _ b0 b1 b0' b1', Option.some_bind]

/-- Witness of C4 at two concrete colours. -/
theorem blend_colors_endpoints_witness :
    blend_colors ⟨10, 20, 30⟩ ⟨200, 100, 0⟩ (flt 0) = some ⟨10, 20, 30⟩ ∧
    blend_colors ⟨10, 20, 30⟩ ⟨200, 100, 0⟩ (flt 1) = some ⟨200, 100, 0⟩ :=
  blend_colors_endpoints ⟨10, 20, 30⟩ ⟨200, 100, 0⟩ (by decide) (by decide)

/-! ### Grays -/

/-- Scaling a rounded value by a power of two with nonnegative exponent is exact. -/
theorem Fmt.rnd_rnd_mul_pow2 (f : Fmt) (hp : 1 ≤ f.prec) (q : ℚ) (k : ℕ) :
    f.rnd (f.rnd q * 2 ^ k) = f.rnd q * 2 ^ k := by
  by_cases hq : q = 0
  · subst hq; simp [Fmt.rnd_zero]
  obtain ⟨N, hN, hform⟩ := f.rnd_form hq
  have h2 : (2 : ℚ) ≠ 0 := by norm_num
  have hj : 1 - f.emax - ((f.prec : ℤ) - 1) ≤ max (ilog2 q) (1 - f.emax) - ((f.prec : ℤ) - 1) := by
    have := le_max_right (ilog2 q) (1 - f.emax)
    omega
  rw [hform, mul_assoc, ← zpow_natCast, ← zpow_add₀ h2]
  rcases hN.lt_or_eq with hlt | heq
  · exact f.rnd_rep N _ hlt (by omega)
  · rcases abs_cases N with ⟨hN1, _⟩ | ⟨hN1, _⟩
    · rw [hN1] at heq
      rw [heq]
      push_cast
      rw [← zpow_natCast, ← zpow_add₀ h2]
      exact f.rnd_pow2 hp _ (by omega)
    · have : N = -(2 ^ f.prec) := by omega
      rw [this]
      push_cast
      rw [neg_mul, Fmt.rnd_neg, ← zpow_natCast, ← zpow_add₀ h2]
      rw [f.rnd_pow2 hp _ (by omega)]

theorem rnd32_double (q : ℚ) :
    binary32.rnd (binary32.rnd q + binary32.rnd q) = binary32.rnd q + binary32.rnd q := by
  have := binary32.rnd_rnd_mul_pow2 (by decide) q 1
  rw [pow_one, mul_two] at this
  exact this

/-- The `float` quotient `n / 255.0f` of a channel: finite, within `2 ^ -25` of the
exact quotient and in `[0, 1]`. -/
theorem channel_quot (n : ℤ) (h0 : 0 ≤ n) (h1 : n ≤ 255) :
    fdiv (i2f n) (flt 255) = Fp.fin (binary32.rnd ((n : ℚ) / 255)) ∧
    |binary32.rnd ((n : ℚ) / 255) - (n : ℚ) / 255| ≤ 1 / 2 ^ 25 ∧
    0 ≤ binary32.rnd ((n : ℚ) / 255) ∧ binary32.rnd ((n : ℚ) / 255) ≤ 1 := by
  have hn0 : (0 : ℚ) ≤ n := by exact_mod_cast h0
  have hn1 : (n : ℚ) ≤ 255 := by exact_mod_cast h1
  have hq0 : (0 : ℚ) ≤ (n : ℚ) / 255 := by positivity
  have hq1 : (n : ℚ) / 255 ≤ 1 := by rw [div_le_one (by norm_num)]; exact hn1
  have hone : binary32.rnd (1 : ℚ) = 1 := by simpa using rnd32_int 1 (by norm_num)
  refine ⟨?_, ?_, binary32.rnd_nonneg hq0, binary32.rnd_le_of_le (by decide) hone hq1⟩
  · rw [i2f_channel n h0 h1, fdiv_fin (by norm_num)]
    rw [abs_of_nonneg hq0]
    linarith
  · rcases hq1.lt_or_eq with hlt | heq
    · have := binary32.rnd_err_pow ((n : ℚ) / 255) (-1) (by decide) (by
        rw [abs_of_nonneg hq0]; simpa using hlt)
      refine this.trans (le_of_eq ?_)
      show (2 : ℚ) ^ ((-1 : ℤ) - (24 : ℕ)) = 1 / 2 ^ 25
      norm_num [zpow_neg]
    · rw [heq, hone]; norm_num

theorem fmax_self (x : ℚ) : _fmax (Fp.fin x) (Fp.fin x) = Fp.fin x := by
  simp [_fmax, Fp.gt, Fp.lt]

theorem fmin_self (x : ℚ) : _fmin (Fp.fin x) (Fp.fin x) = Fp.fin x := by
  simp [_fmin, Fp.lt]

/-- The lightness `(x + x) / 2.0f` of a gray whose channels convert to `x`. -/
theorem lightness_gray (q : ℚ) (h : |binary32.rnd q| ≤ 1) :
    fdiv (fadd (Fp.fin (binary32.rnd q)) (Fp.fin (binary32.rnd q))) (flt 2)
      = Fp.fin (binary32.rnd q) := by
  have h' := abs_le.mp h
  rw [fadd_fin (by rw [abs_le]; constructor <;> norm_num <;> linarith), rnd32_double,
    fdiv_fin (by norm_num) (by rw [abs_le]; constructor <;> norm_num <;> linarith)]
  rw [show (binary32.rnd q + binary32.rnd q) / 2 = binary32.rnd q by ring,
    binary32.rnd_idem (by decide)]

/-- A gray converts to hue `0`, saturation `0` and the `float` quotient of its
channel by `255`. -/
theorem rgb_to_hsl_gray_eq (r : ℤ) (h0 : 0 ≤ r) (h1 : r ≤ 255) :
    rgb_to_hsl ⟨r, r, r⟩ = ⟨flt 0, flt 0, Fp.fin (binary32.rnd ((r : ℚ) / 255))⟩ := by
  obtain ⟨hx, -, hx0, hx1⟩ := channel_quot r h0 h1
  have habs : |binary32.rnd ((r : ℚ) / 255)| ≤ 1 := by rw [abs_of_nonneg hx0]; exact hx1
  have hz : fmul (flt 0) (flt 360) = flt 0 := by
    rw [fmul_fin (by norm_num), zero_mul, Fmt.rnd_zero]
  unfold rgb_to_hsl
  simp only [hx, fmax_self, fmin_self, lightness_gray _ habs, Fp.eq, decide_True, if_true, hz]

/-- C8: a gray `(r, r, r)` with `r` in `[0, 255]` converts to hue `0`, saturation
`0` and the lightness `r / 255.0f`, the `float` nearest to `r / 255`. -/
theorem rgb_to_hsl_gray (r : ℤ) (h0 : 0 ≤ r) (h1 : r ≤ 255) :
    rgb_to_hsl ⟨r, r, r⟩ = ⟨flt 0, flt 0, fdiv (i2f r) (flt 255)⟩ ∧
    fdiv (i2f r) (flt 255) = flt (binary32.rnd ((r : ℚ) / 255)) ∧
    |binary32.rnd ((r : ℚ) / 255) - (r : ℚ) / 255| ≤ 1 / 2 ^ 25 := by
  obtain ⟨hx, herr, -, -⟩ := channel_quot r h0 h1
  exact ⟨by rw [hx]; exact rgb_to_hsl_gray_eq r h0 h1, hx, herr⟩

/-- Witness of C8 at the gray `(128, 128, 128)`. -/
theorem rgb_to_hsl_gray_witness :
    rgb_to_hsl ⟨128, 128, 128⟩ = ⟨flt 0, flt 0, fdiv (i2f 128) (flt 255)⟩ ∧
    fdiv (i2f 128) (flt 255) = flt (binary32.rnd (((128 : ℤ) : ℚ) / 255)) ∧
    |binary32.rnd (((128 : ℤ) : ℚ) / 255) - ((128 : ℤ) : ℚ) / 255| ≤ 1 / 2 ^ 25 :=
  rgb_to_hsl_gray 128 (by norm_num) (by norm_num)

/-! ### Blending: rounding of the interpolated value -/

theorem floor_rnd64_add_half (z : ℚ) (h0 : 0 ≤ binary32.rnd z) (h1 : binary32.rnd z ≤ 512) :
    ⌊binary64.rnd (binary32.rnd z + 1 / 2)⌋ = ⌊binary32.rnd z + 1 / 2⌋ := by
  by_cases hz : z = 0
  · subst hz
    rw [Fmt.rnd_zero, zero_add]
    have := binary64.rnd_pow2 (by decide) (-1) (by decide)
    rw [zpow_neg_one] at this
    rw [show (1 : ℚ) / 2 = 2⁻¹ by norm_num, this]
  obtain ⟨N, hN, hform⟩ := binary32.rnd_form hz
  have h2 : (2 : ℚ) ≠ 0 := by norm_num
  set j : ℤ := max (ilog2 z) (1 - binary32.emax) - ((binary32.prec : ℤ) - 1) with hj
  have hNq : |(N : ℚ)| ≤ 2 ^ 24 := by
    have : ((|N| : ℤ) : ℚ) ≤ ((2 ^ 24 : ℤ) : ℚ) := by exact_mod_cast hN
    simpa using this
  rcases le_or_lt 0 j with hj0 | hj0
  · -- the value is an integer
    obtain ⟨d, hd⟩ := Int.eq_ofNat_of_zero_le hj0
    have hv : binary32.rnd z = ((N * 2 ^ d : ℤ) : ℚ) := by
      rw [hform, hd, zpow_natCast]; push_cast; ring
    have hV0 : 0 ≤ N * 2 ^ d := by
      have : (0 : ℚ) ≤ ((N * 2 ^ d : ℤ) : ℚ) := by rw [← hv]; exact h0
      exact_mod_cast this
    have hV1 : N * 2 ^ d ≤ 512 := by
      have : ((N * 2 ^ d : ℤ) : ℚ) ≤ ((512 : ℤ) : ℚ) := by rw [← hv]; exact_mod_cast h1
      exact_mod_cast this
    rw [hv, rnd64_int_add_half _ hV0 (by omega)]
  · rcases le_or_lt (-52) j with hj1 | hj1
    · -- the sum fits in 53 bits
      have hk : 0 ≤ -1 - j := by omega
      obtain ⟨d, hd⟩ := Int.eq_ofNat_of_zero_le hk
      have hd51 : d ≤ 51 := by omega
      have hsum : binary32.rnd z + 1 / 2 = ((N + 2 ^ d : ℤ) : ℚ) * (2 : ℚ) ^ j := by
        rw [hform]
        push_cast
        rw [add_mul, ← zpow_natCast, ← hd, ← zpow_add₀ h2]
        rw [show -1 - j + j = -1 by ring, zpow_neg_one]
        norm_num
      have hM : |N + 2 ^ d| < 2 ^ 53 := by
        have hpd : (2 : ℤ) ^ d ≤ 2 ^ 51 := pow_le_pow_right₀ (by norm_num) hd51
        have hpos : (0 : ℤ) < 2 ^ d := by positivity
        have hN' := abs_le.mp hN
        have e24 : (2 : ℤ) ^ binary32.prec = 16777216 := by decide
        rw [e24] at hN'
        rw [abs_lt]
        constructor
        · have : (-(2 : ℤ) ^ 53) < -16777216 := by norm_num
          omega
        · have : (16777216 : ℤ) + 2 ^ 51 < 2 ^ 53 := by norm_num
          omega
      rw [hsum, binary64.rnd_rep _ j hM (by
        have : 1 - binary64.emax - ((binary64.prec : ℤ) - 1) = -1074 := by decide
        omega)]
    · -- the value is tiny: both floors are zero
      have hsmall : |binary32.rnd z| ≤ 1 / 2 ^ 29 := by
        rw [hform, abs_mul, abs_of_pos (show (0 : ℚ) < 2 ^ j by positivity)]
        calc |(N : ℚ)| * 2 ^ j ≤ 2 ^ 24 * 2 ^ j := mul_le_mul_of_nonneg_right hNq (by positivity)
          _ ≤ 2 ^ 24 * 2 ^ (-53 : ℤ) := by
              apply mul_le_mul_of_nonneg_left _ (by positivity)
              exact zpow_le_zpow_right₀ (by norm_num) (by omega)
          _ = 1 / 2 ^ 29 := by norm_num [zpow_neg]
      have hs := abs_le.mp hsmall
      have hlo : (1 : ℚ) / 2 ≤ binary64.rnd (binary32.rnd z + 1 / 2) := by
        apply binary64.le_rnd_of_le (by decide) _ (by linarith)
        have := binary64.rnd_pow2 (by decide) (-1) (by decide)
        rw [zpow_neg_one] at this
        rw [show (1 : ℚ) / 2 = 2⁻¹ by norm_num, this]
      have hhi : binary64.rnd (binary32.rnd z + 1 / 2) ≤ 1 / 2 + 1 / 2 ^ 29 := by
        apply binary64.rnd_le_of_le (by decide) _ (by linarith)
        have := binary64.rnd_rep (2 ^ 28 + 1) (-29)
          (by rw [show binary64.prec = 53 from rfl]; norm_num) (by decide)
        have e : (((2 ^ 28 + 1 : ℤ)) : ℚ) * (2 : ℚ) ^ (-29 : ℤ) = 1 / 2 + 1 / 2 ^ 29 := by
          norm_num [zpow_neg]
        rwa [e] at this
      rw [Int.floor_eq_iff.mpr (show ((0 : ℤ) : ℚ) ≤ binary64.rnd (binary32.rnd z + 1 / 2) ∧
          binary64.rnd (binary32.rnd z + 1 / 2) < ((0 : ℤ) : ℚ) + 1 by
            constructor
            · push_cast; linarith
            · push_cast; norm_num at hhi ⊢; linarith)]
      symm
      rw [Int.floor_eq_iff]
      constructor
      · push_cast; linarith
      · push_cast; norm_num at hs ⊢; linarith


/-- The weight `m` that `blend_colors` stores: `1.0 - ratio` rounded to `double`,
then to `float`; it lies in `[0, 1]`, within `2 ^ -23` of `1 - ratio`. -/
theorem blend_weight (q : ℚ) (h0 : 0 ≤ q) (h1 : q ≤ 1) :
    d2f (dsub (flt 1) (f2d (flt q))) = Fp.fin (binary32.rnd (binary64.rnd (1 - q))) ∧
    0 ≤ binary32.rnd (binary64.rnd (1 - q)) ∧ binary32.rnd (binary64.rnd (1 - q)) ≤ 1 ∧
    |binary32.rnd (binary64.rnd (1 - q)) - (1 - q)| ≤ 1 / 2 ^ 23 := by
  have hone64 : binary64.rnd (1 : ℚ) = 1 := by simpa using rnd64_int 1 (by norm_num)
  have hone32 : binary32.rnd (1 : ℚ) = 1 := by simpa using rnd32_int 1 (by norm_num)
  have ha0 : 0 ≤ binary64.rnd (1 - q) := binary64.rnd_nonneg (by linarith)
  have ha1 : binary64.rnd (1 - q) ≤ 1 := binary64.rnd_le_of_le (by decide) hone64 (by linarith)
  have hb0 : 0 ≤ binary32.rnd (binary64.rnd (1 - q)) := binary32.rnd_nonneg ha0
  have hb1 : binary32.rnd (binary64.rnd (1 - q)) ≤ 1 :=
    binary32.rnd_le_of_le (by decide) hone32 ha1
  refine ⟨?_, hb0, hb1, ?_⟩
  · simp only [f2d, d2f]
    rw [dsub_fin (by rw [abs_of_nonneg (by linarith)]; linarith)]
    simp only [Fp.cast]
    rw [round32_fin (by rw [abs_of_nonneg ha0]; linarith)]
  · have e1 := binary64.rnd_err_pow (1 - q) 0 (by decide) (by
      rw [abs_of_nonneg (by linarith)]; norm_num; linarith)
    have e2 := binary32.rnd_err_pow (binary64.rnd (1 - q)) 0 (by decide) (by
      rw [abs_of_nonneg ha0]; norm_num; linarith)
    have p1 : (2 : ℚ) ^ ((0 : ℤ) - (binary64.prec : ℤ)) = 1 / 2 ^ 53 := by
      rw [show ((0 : ℤ) - (binary64.prec : ℤ)) = -53 by decide]; norm_num [zpow_neg]
    have p2 : (2 : ℚ) ^ ((0 : ℤ) - (binary32.prec : ℤ)) = 1 / 2 ^ 24 := by
      rw [show ((0 : ℤ) - (binary32.prec : ℤ)) = -24 by decide]; norm_num [zpow_neg]
    rw [p1] at e1
    rw [p2] at e2
    have := abs_sub_le (binary32.rnd (binary64.rnd (1 - q))) (binary64.rnd (1 - q)) (1 - q)
    refine this.trans ?_
    have hnum : (1 : ℚ) / 2 ^ 24 + 1 / 2 ^ 53 ≤ 1 / 2 ^ 23 := by norm_num
    linarith

theorem rnd32_err_of_lt (x : ℚ) (k : ℕ) (h : |x| < 2 ^ (k + 1)) :
    |binary32.rnd x - x| ≤ 2 ^ k / 2 ^ 24 := by
  have := binary32.rnd_err_pow x k (by
    have : (1 : ℤ) - binary32.emax = -126 := by decide
    omega) (by
    rw [show ((k : ℤ) + 1) = ((k + 1 : ℕ) : ℤ) by push_cast; rfl, zpow_natCast]; exact h)
  refine this.trans (le_of_eq ?_)
  rw [show (binary32.prec : ℤ) = 24 by decide, zpow_sub₀ (by norm_num), zpow_natCast]
  norm_num

theorem rnd32_255 : binary32.rnd (255 : ℚ) = 255 := by
  simpa using rnd32_int 255 (by norm_num)

/-- The value `blendValue a b q` is within `2 ^ -14` of the exact interpolation
and lies in `[0, 510]`. -/
theorem blendValue_err (a b : ℤ) (ha0 : 0 ≤ a) (ha1 : a ≤ 255) (hb0 : 0 ≤ b) (hb1 : b ≤ 255)
    (q : ℚ) (h0 : 0 ≤ q) (h1 : q ≤ 1) :
    |blendValue a b q - lerp a b q| ≤ 1 / 2 ^ 14 ∧ 0 ≤ blendValue a b q ∧
    blendValue a b q ≤ 512 ∧
    |(a : ℚ) * binary32.rnd (binary64.rnd (1 - q))| ≤ 255 ∧ |(b : ℚ) * q| ≤ 255 ∧
    |binary32.rnd ((a : ℚ) * binary32.rnd (binary64.rnd (1 - q)))
      + binary32.rnd ((b : ℚ) * q)| ≤ 510 := by
  obtain ⟨-, hm0, hm1, hme⟩ := blend_weight q h0 h1
  set m := binary32.rnd (binary64.rnd (1 - q)) with hm
  have hA0 : (0 : ℚ) ≤ a := by exact_mod_cast ha0
  have hA1 : (a : ℚ) ≤ 255 := by exact_mod_cast ha1
  have hB0 : (0 : ℚ) ≤ b := by exact_mod_cast hb0
  have hB1 : (b : ℚ) ≤ 255 := by exact_mod_cast hb1
  have ham0 : 0 ≤ (a : ℚ) * m := mul_nonneg hA0 hm0
  have ham1 : (a : ℚ) * m ≤ 255 := by
    calc (a : ℚ) * m ≤ 255 * 1 := mul_le_mul hA1 hm1 hm0 (by norm_num)
      _ = 255 := by norm_num
  have hbq0 : 0 ≤ (b : ℚ) * q := mul_nonneg hB0 h0
  have hbq1 : (b : ℚ) * q ≤ 255 := by
    calc (b : ℚ) * q ≤ 255 * 1 := mul_le_mul hB1 h1 h0 (by norm_num)
      _ = 255 := by norm_num
  have hp1 := rnd32_err_of_lt ((a : ℚ) * m) 7 (by rw [abs_of_nonneg ham0]; norm_num; linarith)
  have hp2 := rnd32_err_of_lt ((b : ℚ) * q) 7 (by rw [abs_of_nonneg hbq0]; norm_num; linarith)
  have hP10 : 0 ≤ binary32.rnd ((a : ℚ) * m) := binary32.rnd_nonneg ham0
  have hP11 : binary32.rnd ((a : ℚ) * m) ≤ 255 := binary32.rnd_le_of_le (by decide) rnd32_255 ham1
  have hP20 : 0 ≤ binary32.rnd ((b : ℚ) * q) := binary32.rnd_nonneg hbq0
  have hP21 : binary32.rnd ((b : ℚ) * q) ≤ 255 := binary32.rnd_le_of_le (by decide) rnd32_255 hbq1
  have hs := rnd32_err_of_lt (binary32.rnd ((a : ℚ) * m) + binary32.rnd ((b : ℚ) * q)) 8 (by
    rw [abs_of_nonneg (by linarith)]; norm_num; linarith)
  have hv0 : 0 ≤ blendValue a b q := binary32.rnd_nonneg (by linarith)
  have hme' := abs_le.mp hme
  have hp1' := abs_le.mp hp1
  have hp2' := abs_le.mp hp2
  have hs' := abs_le.mp hs
  have hval : blendValue a b q
      = binary32.rnd (binary32.rnd ((a : ℚ) * m) + binary32.rnd ((b : ℚ) * q)) := rfl
  refine ⟨?_, hv0, ?_, by rw [abs_of_nonneg ham0]; exact ham1,
    by rw [abs_of_nonneg hbq0]; exact hbq1, by rw [abs_of_nonneg (by linarith)]; linarith⟩
  · have hprod : |(a : ℚ) * (m - (1 - q))| ≤ 255 * (1 / 2 ^ 23) := by
      rw [abs_mul, abs_of_nonneg hA0]
      exact mul_le_mul hA1 hme (abs_nonneg _) (by norm_num)
    have hprod' := abs_le.mp hprod
    rw [hval, abs_le]
    unfold lerp
    norm_num at hp1' hp2' hs' hprod' ⊢
    constructor <;> linarith
  · rw [hval]
    norm_num at hs'
    linarith

/-- One channel of `blend_colors`: the nearest integer, ties up, to the
single-precision value of the interpolation. -/
theorem blendChannel_eq (a b : ℤ) (ha0 : 0 ≤ a) (ha1 : a ≤ 255) (hb0 : 0 ≤ b) (hb1 : b ≤ 255)
    (q : ℚ) (h0 : 0 ≤ q) (h1 : q ≤ 1) :
    blendChannel a b (d2f (dsub (flt 1) (f2d (flt q)))) (flt q)
      = some (roundHalfUp (blendValue a b q)) := by
  obtain ⟨hw, -, -, -⟩ := blend_weight q h0 h1
  obtain ⟨-, hv0, hv1, hb1', hb2', hb3'⟩ := blendValue_err a b ha0 ha1 hb0 hb1 q h0 h1
  have hval : blendValue a b q
      = binary32.rnd (binary32.rnd ((a : ℚ) * binary32.rnd (binary64.rnd (1 - q)))
          + binary32.rnd ((b : ℚ) * q)) := rfl
  have hfl := floor_rnd64_add_half _ (hval ▸ hv0) (hval ▸ hv1)
  rw [← hval] at hfl
  have hnn : 0 ≤ binary64.rnd (blendValue a b q + 1 / 2) := binary64.rnd_nonneg (by linarith)
  have hfl0 : 0 ≤ ⌊blendValue a b q + 1 / 2⌋ := Int.floor_nonneg.mpr (by linarith)
  have hfl1 : ⌊blendValue a b q + 1 / 2⌋ ≤ 513 := by
    have : ⌊blendValue a b q + 1 / 2⌋ < 514 := by
      rw [Int.floor_lt]; push_cast; linarith
    omega
  have htr : truncQ (binary64.rnd (blendValue a b q + 1 / 2)) = ⌊blendValue a b q + 1 / 2⌋ := by
    rw [truncQ_of_nonneg hnn, hfl]
  unfold blendChannel
  rw [hw, i2f_channel a ha0 ha1, i2f_channel b hb0 hb1,
    fmul_fin (hb1'.trans (by norm_num)), fmul_fin (hb2'.trans (by norm_num)),
    fadd_fin (hb3'.trans (by norm_num))]
  simp only [f2d]
  rw [← hval, dadd_fin (by rw [abs_of_nonneg (by linarith)]; norm_num; linarith),
    toInt_fin (by rw [htr]; unfold INT_MIN; omega) (by rw [htr]; unfold INT_MAX; omega), htr]
  rfl

/-- C6 as amended: for valid colours and a ratio in `[0, 1]`, each channel of
`blend_colors` is the nearest integer, ties rounded up, to the single-precision
value of `c1 * m + c2 * ratio`, and that value is within `2 ^ -14` of the exact
interpolation `c1 * (1 - ratio) + c2 * ratio`. -/
theorem blend_colors_rounds_float_value (c1 c2 : RGB) (h1 : c1.valid) (h2 : c2.valid)
    (q : ℚ) (hq0 : 0 ≤ q) (hq1 : q ≤ 1) :
    blend_colors c1 c2 (flt q) = some ⟨roundHalfUp (blendValue c1.r c2.r q),
      roundHalfUp (blendValue c1.g c2.g q), roundHalfUp (blendValue c1.b c2.b q)⟩ ∧
    |blendValue c1.r c2.r q - lerp c1.r c2.r q| ≤ 1 / 2 ^ 14 ∧
    |blendValue c1.g c2.g q - lerp c1.g c2.g q| ≤ 1 / 2 ^ 14 ∧
    |blendValue c1.b c2.b q - lerp c1.b c2.b q| ≤ 1 / 2 ^ 14 := by
  obtain ⟨r0, r1, g0, g1, b0, b1⟩ := h1
  obtain ⟨r0', r1', g0', g1', b0', b1'⟩ := h2
  refine ⟨?_, (blendValue_err _ _ r0 r1 r0' r1' q hq0 hq1).1,
    (blendValue_err _ _ g0 g1 g0' g1' q hq0 hq1).1, (blendValue_err _ _ b0 b1 b0' b1' q hq0 hq1).1⟩
  rw [blend_colors_inside c1 c2 (flt q) ⟨hq0, hq1⟩]
  unfold blendInterp
  simp only [blendChannel_eq _ _ r0 r1 r0' r1' q hq0 hq1,
    blendChannel_eq _ _ g0 g1 g0' g1' q hq0 hq1, blendChannel_eq _ _ b0 b1 b0' b1' q hq0 hq1,
    Option.some_bind]

/-- Witness of the amended C6 at two concrete colours and the ratio `1/4`. -/
theorem blend_colors_rounds_float_value_witness :
    blend_colors ⟨10, 20, 30⟩ ⟨200, 100, 0⟩ (flt (1 / 4)) =
      some ⟨roundHalfUp (blendValue 10 200 (1 / 4)),
        roundHalfUp (blendValue 20 100 (1 / 4)), roundHalfUp (blendValue 30 0 (1 / 4))⟩ ∧
    |blendValue 10 200 (1 / 4) - lerp 10 200 (1 / 4)| ≤ 1 / 2 ^ 14 ∧
    |blendValue 20 100 (1 / 4) - lerp 20 100 (1 / 4)| ≤ 1 / 2 ^ 14 ∧
    |blendValue 30 0 (1 / 4) - lerp 30 0 (1 / 4)| ≤ 1 / 2 ^ 14 :=
  blend_colors_rounds_float_value ⟨10, 20, 30⟩ ⟨200, 100, 0⟩ (by decide) (by decide)
    (1 / 4) (by norm_num) (by norm_num)

/-- C6 fails at the colours `(0,0,0)` and `(3,3,3)` with the `float` ratio
`13981013 / 2 ^ 24`: the exact interpolation `3 * ratio` is below `2.5`, so its
nearest integer is `2`, and `blend_colors` yields `3`. -/
theorem blend_colors_not_nearest :
    binary32.rnd (13981013 / 16777216) = 13981013 / 16777216 ∧
    blend_colors ⟨0, 0, 0⟩ ⟨3, 3, 3⟩ (flt (13981013 / 16777216)) = some ⟨3, 3, 3⟩ ∧
    roundHalfUp (lerp 0 3 (13981013 / 16777216)) = 2 := by
  refine ⟨by decide!, by decide!, by decide!⟩

/-! ### Auxiliary facts for the HSL conversions -/

theorem fabs_fin (a : ℚ) : _fabs (Fp.fin a) = Fp.fin |a| := by
  unfold _fabs
  simp only [Fp.gt, Fp.lt, flt]
  split_ifs with h
  · rw [abs_of_pos (by simpa using h)]
  · have : a ≤ 0 := by simpa using h
    simp [Fp.neg, abs_of_nonpos this]

theorem fmax_fin (a b : ℚ) : _fmax (Fp.fin a) (Fp.fin b) = Fp.fin (max a b) := by
  unfold _fmax
  simp only [Fp.gt, Fp.lt]
  split_ifs with h
  · rw [max_eq_left (le_of_lt (by simpa using h))]
  · rw [max_eq_right (by simpa using h)]

theorem fmin_fin (a b : ℚ) : _fmin (Fp.fin a) (Fp.fin b) = Fp.fin (min a b) := by
  unfold _fmin
  simp only [Fp.lt]
  split_ifs with h
  · rw [min_eq_left (le_of_lt (by simpa using h))]
  · rw [min_eq_right (by simpa using h)]

theorem rnd32_natCast (n : ℕ) (h : n < 2 ^ 24) : binary32.rnd (n : ℚ) = n := by
  have := rnd32_int (n : ℤ) (by rw [abs_of_nonneg (by positivity)]; exact_mod_cast h)
  simpa using this

theorem rnd32_one : binary32.rnd (1 : ℚ) = 1 := by simpa using rnd32_natCast 1 (by norm_num)
theorem rnd32_two : binary32.rnd (2 : ℚ) = 2 := by simpa using rnd32_natCast 2 (by norm_num)
theorem rnd32_six : binary32.rnd (6 : ℚ) = 6 := by simpa using rnd32_natCast 6 (by norm_num)
theorem rnd32_360 : binary32.rnd (360 : ℚ) = 360 := by simpa using rnd32_natCast 360 (by norm_num)

theorem rnd32_half : binary32.rnd (1 / 2 : ℚ) = 1 / 2 := by
  have := binary32.rnd_pow2 (by decide) (-1) (by decide)
  rw [zpow_neg_one] at this
  rw [show (1 : ℚ) / 2 = 2⁻¹ by norm_num, this]

theorem rnd32_err1 (x : ℚ) (h : |x| < 2) : |binary32.rnd x - x| ≤ 1 / 2 ^ 24 := by
  have := rnd32_err_of_lt x 0 (by simpa using h)
  simpa using this

theorem rnd32_err4 (x : ℚ) (h : |x| < 4) : |binary32.rnd x - x| ≤ 1 / 2 ^ 23 := by
  have := rnd32_err_of_lt x 1 (by norm_num; exact h)
  refine this.trans (by norm_num)

theorem rnd32_err8 (x : ℚ) (h : |x| < 8) : |binary32.rnd x - x| ≤ 1 / 2 ^ 22 := by
  have := rnd32_err_of_lt x 2 (by norm_num; exact h)
  refine this.trans (by norm_num)

theorem rnd32_err512 (x : ℚ) (h : |x| < 512) : |binary32.rnd x - x| ≤ 1 / 2 ^ 16 := by
  have := rnd32_err_of_lt x 8 (by norm_num; exact h)
  refine this.trans (by norm_num)

/-- Error of a quotient whose exact value is at most `1` in magnitude and whose
divisors are bounded below by `β`. -/
theorem quot_err {a c b d ea eb β : ℚ} (hβ : 0 < β) (hb : β ≤ b) (hd : β ≤ d)
    (ha : |a| ≤ b) (h1 : |c - a| ≤ ea) (h2 : |d - b| ≤ eb) :
    |c / d - a / b| ≤ (ea + eb) / β := by
  have hbpos : 0 < b := lt_of_lt_of_le hβ hb
  have hbpos' : 0 < d := lt_of_lt_of_le hβ hd
  have e : c / d - a / b = (c - a) / d + (a / b) * ((b - d) / d) := by
    field_simp
    ring
  have hea : 0 ≤ ea := (abs_nonneg _).trans h1
  have heb : 0 ≤ eb := (abs_nonneg _).trans h2
  have t1 : |(c - a) / d| ≤ ea / β := by
    rw [abs_div, abs_of_pos hbpos']
    exact div_le_div₀ hea h1 hβ hd
  have t2 : |(b - d) / d| ≤ eb / β := by
    rw [abs_div, abs_of_pos hbpos', abs_sub_comm]
    exact div_le_div₀ heb h2 hβ hd
  have t3 : |a / b| ≤ 1 := by
    rw [abs_div, abs_of_pos hbpos, div_le_one hbpos]
    exact ha
  rw [e, add_div]
  calc |(c - a) / d + a / b * ((b - d) / d)|
      ≤ |(c - a) / d| + |a / b * ((b - d) / d)| := abs_add _ _
    _ = |(c - a) / d| + |a / b| * |(b - d) / d| := by rw [abs_mul]
    _ ≤ ea / β + 1 * (eb / β) := by
        apply add_le_add t1
        exact mul_le_mul t3 t2 (abs_nonneg _) (by norm_num)
    _ = ea / β + eb / β := by ring

/-! ### The hue weights -/

theorem clamp01_nonneg (x : ℚ) : 0 ≤ clamp01 x := le_max_left _ _

theorem clamp01_le_one (x : ℚ) : clamp01 x ≤ 1 :=
  max_le (by norm_num) (min_le_left _ _)

theorem clamp01_of_nonpos {x : ℚ} (h : x ≤ 0) : clamp01 x = 0 := by
  unfold clamp01
  rw [min_eq_right (by linarith), max_eq_left h]

theorem clamp01_of_one_le {x : ℚ} (h : 1 ≤ x) : clamp01 x = 1 := by
  unfold clamp01
  rw [min_eq_left h, max_eq_right (by norm_num)]

theorem clamp01_of_mem {x : ℚ} (h0 : 0 ≤ x) (h1 : x ≤ 1) : clamp01 x = x := by
  unfold clamp01
  rw [min_eq_right h1, max_eq_right h0]

theorem clamp01_eq_ite (x : ℚ) : clamp01 x = if x ≤ 0 then 0 else if 1 ≤ x then 1 else x := by
  split_ifs with h1 h2
  · exact clamp01_of_nonpos h1
  · exact clamp01_of_one_le h2
  · exact clamp01_of_mem (le_of_lt (not_le.mp h1)) (le_of_lt (not_le.mp h2))

theorem clamp01_lipschitz (x y : ℚ) : |clamp01 x - clamp01 y| ≤ |x - y| := by
  have h1 := le_abs_self (x - y)
  have h2 := neg_abs_le (x - y)
  rw [clamp01_eq_ite, clamp01_eq_ite]
  split_ifs <;> rw [abs_le] <;> constructor <;> linarith

theorem hueRed_lipschitz (x y : ℚ) : |hueRed x - hueRed y| ≤ |x - y| := by
  unfold hueRed
  refine (clamp01_lipschitz _ _).trans ?_
  have := abs_abs_sub_abs_le_abs_sub (x - 3) (y - 3)
  simpa using this

theorem hueGreen_lipschitz (x y : ℚ) : |hueGreen x - hueGreen y| ≤ |x - y| := by
  unfold hueGreen
  refine (clamp01_lipschitz _ _).trans ?_
  have := abs_abs_sub_abs_le_abs_sub (y - 2) (x - 2)
  have e : 2 - |x - 2| - (2 - |y - 2|) = |y - 2| - |x - 2| := by ring
  rw [e]
  refine this.trans (le_of_eq ?_)
  rw [show y - 2 - (x - 2) = -(x - y) by ring, abs_neg]

theorem hueBlue_lipschitz (x y : ℚ) : |hueBlue x - hueBlue y| ≤ |x - y| := by
  unfold hueBlue
  refine (clamp01_lipschitz _ _).trans ?_
  have := abs_abs_sub_abs_le_abs_sub (y - 4) (x - 4)
  have e : 2 - |x - 4| - (2 - |y - 4|) = |y - 4| - |x - 4| := by ring
  rw [e]
  refine this.trans (le_of_eq ?_)
  rw [show y - 4 - (x - 4) = -(x - y) by ring, abs_neg]

/-- The three weights on each of the six sectors. -/
theorem hue_sector0 {h : ℚ} (h0 : 0 ≤ h) (h1 : h ≤ 1) :
    hueRed h = 1 ∧ hueGreen h = h ∧ hueBlue h = 0 := by
  unfold hueRed hueGreen hueBlue
  rw [abs_of_nonpos (by linarith), abs_of_nonpos (by linarith), abs_of_nonpos (by linarith)]
  exact ⟨clamp01_of_one_le (by linarith), by rw [clamp01_of_mem] <;> linarith,
    clamp01_of_nonpos (by linarith)⟩

theorem hue_sector1 {h : ℚ} (h0 : 1 ≤ h) (h1 : h ≤ 2) :
    hueRed h = 2 - h ∧ hueGreen h = 1 ∧ hueBlue h = 0 := by
  unfold hueRed hueGreen hueBlue
  rw [abs_of_nonpos (by linarith), abs_of_nonpos (by linarith), abs_of_nonpos (by linarith)]
  exact ⟨by rw [clamp01_of_mem] <;> linarith, clamp01_of_one_le (by linarith),
    clamp01_of_nonpos (by linarith)⟩

theorem hue_sector2 {h : ℚ} (h0 : 2 ≤ h) (h1 : h ≤ 3) :
    hueRed h = 0 ∧ hueGreen h = 1 ∧ hueBlue h = h - 2 := by
  unfold hueRed hueGreen hueBlue
  rw [abs_of_nonpos (by linarith), abs_of_nonneg (by linarith), abs_of_nonpos (by linarith)]
  exact ⟨clamp01_of_nonpos (by linarith), clamp01_of_one_le (by linarith),
    by rw [clamp01_of_mem] <;> linarith⟩

theorem hue_sector3 {h : ℚ} (h0 : 3 ≤ h) (h1 : h ≤ 4) :
    hueRed h = 0 ∧ hueGreen h = 4 - h ∧ hueBlue h = 1 := by
  unfold hueRed hueGreen hueBlue
  rw [abs_of_nonneg (by linarith), abs_of_nonneg (by linarith), abs_of_nonpos (by linarith)]
  exact ⟨clamp01_of_nonpos (by linarith), by rw [clamp01_of_mem] <;> linarith,
    clamp01_of_one_le (by linarith)⟩

theorem hue_sector4 {h : ℚ} (h0 : 4 ≤ h) (h1 : h ≤ 5) :
    hueRed h = h - 4 ∧ hueGreen h = 0 ∧ hueBlue h = 1 := by
  unfold hueRed hueGreen hueBlue
  rw [abs_of_nonneg (by linarith), abs_of_nonneg (by linarith), abs_of_nonneg (by linarith)]
  exact ⟨by rw [clamp01_of_mem] <;> linarith, clamp01_of_nonpos (by linarith),
    clamp01_of_one_le (by linarith)⟩

theorem hue_sector5 {h : ℚ} (h0 : 5 ≤ h) (h1 : h ≤ 6) :
    hueRed h = 1 ∧ hueGreen h = 0 ∧ hueBlue h = 6 - h := by
  unfold hueRed hueGreen hueBlue
  rw [abs_of_nonneg (by linarith), abs_of_nonneg (by linarith), abs_of_nonneg (by linarith)]
  exact ⟨clamp01_of_one_le (by linarith), clamp01_of_nonpos (by linarith),
    by rw [clamp01_of_mem] <;> linarith⟩

/-! ### Truncation of a value close to a channel -/

theorem truncQ_near (v : ℚ) (n : ℤ) (h0 : 0 ≤ n) (h : |v - n| < 1) :
    0 ≤ truncQ v ∧ n - 1 ≤ truncQ v ∧ truncQ v ≤ n := by
  obtain ⟨hl, hr⟩ := abs_lt.mp h
  rcases le_or_lt 0 v with hv | hv
  · rw [truncQ_of_nonneg hv]
    refine ⟨Int.floor_nonneg.mpr hv, ?_, ?_⟩
    · have : n - 1 < ⌊v⌋ + 1 := by
        rw [← Int.cast_lt (R := ℚ)]
        push_cast
        have := Int.lt_floor_add_one v
        linarith
      omega
    · have : ⌊v⌋ < n + 1 := by
        rw [Int.floor_lt]
        push_cast
        linarith
      omega
  · have hn : n = 0 := by
      have : (n : ℚ) < 1 := by linarith
      have : n < 1 := by exact_mod_cast this
      omega
    subst hn
    have hfl : ⌊-v⌋ = 0 := by
      rw [Int.floor_eq_iff]
      push_cast at hl ⊢
      constructor <;> linarith
    simp [truncQ, not_le.mpr hv, hfl]

/-- A value within less than `1` of a channel `n` converts to `int` and clamps
to `n - 1` or `n`. -/
theorem clamp_trunc_near (v : ℚ) (n : ℤ) (h0 : 0 ≤ n) (h1 : n ≤ 255) (h : |v - n| < 1) :
    Fp.toInt (Fp.fin v) = some (truncQ v) ∧ |_clamp (truncQ v) 0 255 - n| ≤ 1 := by
  obtain ⟨t0, t1, t2⟩ := truncQ_near v n h0 h
  constructor
  · exact toInt_fin (by unfold INT_MIN; omega) (by unfold INT_MAX; omega)
  · have : _clamp (truncQ v) 0 255 = truncQ v := by
      unfold _clamp
      rw [if_neg (by omega), if_neg (by omega)]
    rw [this, abs_le]
    constructor <;> omega

/-! ### The conversion HSL to RGB, up to rounding -/

/-- A value `m * 2 ^ j` with `|m| ≤ 2 ^ prec` is representable. -/
theorem Fmt.rnd_rep_le (f : Fmt) (hp : 1 ≤ f.prec) (m j : ℤ) (hm : |m| ≤ 2 ^ f.prec)
    (hj : 1 - f.emax - ((f.prec : ℤ) - 1) ≤ j) :
    f.rnd ((m : ℚ) * (2 : ℚ) ^ j) = (m : ℚ) * (2 : ℚ) ^ j := by
  have h2 : (2 : ℚ) ≠ 0 := by norm_num
  rcases hm.lt_or_eq with hlt | heq
  · exact f.rnd_rep m j hlt hj
  · rcases abs_cases m with ⟨hm1, _⟩ | ⟨hm1, _⟩
    · rw [hm1] at heq
      rw [heq]
      push_cast
      rw [← zpow_natCast, ← zpow_add₀ h2]
      exact f.rnd_pow2 hp _ (by omega)
    · have : m = -(2 ^ f.prec) := by omega
      rw [this]
      push_cast
      rw [neg_mul, Fmt.rnd_neg, ← zpow_natCast, ← zpow_add₀ h2]
      rw [f.rnd_pow2 hp _ (by omega)]

/-- Halving a `float` that is at least `1` is exact. -/
theorem rnd32_half_exact (z : ℚ) (h : 1 ≤ binary32.rnd z) :
    binary32.rnd (binary32.rnd z / 2) = binary32.rnd z / 2 := by
  have hz : z ≠ 0 := by
    rintro rfl
    rw [Fmt.rnd_zero] at h
    norm_num at h
  have hzpos : 1 / 2 ≤ |z| := by
    by_contra hlt
    push_neg at hlt
    have := binary32.abs_rnd_le (by decide) rnd32_half hlt.le
    have := le_abs_self (binary32.rnd z)
    linarith
  have hlog : -1 ≤ ilog2 z := by
    apply le_ilog2 z hz
    rw [zpow_neg_one]
    linarith
  obtain ⟨N, hN, hform⟩ := binary32.rnd_form hz
  have h2 : (2 : ℚ) ≠ 0 := by norm_num
  have hmax : -1 ≤ max (ilog2 z) (1 - binary32.emax) := le_max_of_le_left hlog
  have e : binary32.rnd z / 2
      = (N : ℚ) * (2 : ℚ) ^ (max (ilog2 z) (1 - binary32.emax) - ((binary32.prec : ℤ) - 1) - 1) := by
    rw [hform, zpow_sub_one₀ h2]
    ring
  rw [e]
  apply binary32.rnd_rep_le (by decide) N _ hN
  have : (1 : ℤ) - binary32.emax - ((binary32.prec : ℤ) - 1) = -149 := by decide
  have : ((binary32.prec : ℤ) - 1) = 23 := by decide
  omega

theorem floor_rnd32_half (z : ℚ) (h0 : 0 ≤ binary32.rnd z) :
    ⌊binary32.rnd (binary32.rnd z / 2)⌋ = ⌊binary32.rnd z / 2⌋ := by
  rcases le_or_lt 1 (binary32.rnd z) with h1 | h1
  · rw [rnd32_half_exact z h1]
  · have ha : 0 ≤ binary32.rnd (binary32.rnd z / 2) := binary32.rnd_nonneg (by linarith)
    have hb : binary32.rnd (binary32.rnd z / 2) ≤ 1 / 2 :=
      binary32.rnd_le_of_le (by decide) rnd32_half (by linarith)
    rw [Int.floor_eq_iff.mpr (show ((0 : ℤ) : ℚ) ≤ binary32.rnd (binary32.rnd z / 2) ∧
        binary32.rnd (binary32.rnd z / 2) < ((0 : ℤ) : ℚ) + 1 by
          push_cast; constructor <;> linarith)]
    symm
    rw [Int.floor_eq_iff]
    push_cast
    constructor <;> linarith

/-- The call `_fmod(h, 2.0f)` for a `float` `h` in `[0, 6]`: the result is `h` minus
twice the integer part of `h / 2`, up to one rounding. -/
theorem fmod_two (z : ℚ) (h0 : 0 ≤ binary32.rnd z) (h6 : binary32.rnd z ≤ 6) :
    ∃ hm : ℚ, _fmod (Fp.fin (binary32.rnd z)) (flt 2) = some (Fp.fin hm) ∧
      |hm - (binary32.rnd z - 2 * (⌊binary32.rnd z / 2⌋ : ℚ))| ≤ 1 / 2 ^ 24 := by
  set h := binary32.rnd z with hh
  have hk0 : 0 ≤ ⌊h / 2⌋ := Int.floor_nonneg.mpr (by linarith)
  have hk3 : ⌊h / 2⌋ ≤ 3 := by
    have : ⌊h / 2⌋ < 4 := by rw [Int.floor_lt]; push_cast; linarith
    omega
  have hq0 : 0 ≤ binary32.rnd (h / 2) := binary32.rnd_nonneg (by linarith)
  have htr : truncQ (binary32.rnd (h / 2)) = ⌊h / 2⌋ := by
    rw [truncQ_of_nonneg hq0]
    exact floor_rnd32_half z h0
  have hfl1 := Int.floor_le (h / 2)
  have hfl2 := Int.lt_floor_add_one (h / 2)
  have hK0 : (0 : ℚ) ≤ (⌊h / 2⌋ : ℚ) := by exact_mod_cast hk0
  have hK3 : (⌊h / 2⌋ : ℚ) ≤ 3 := by exact_mod_cast hk3
  have h2k : binary32.rnd (2 * (⌊h / 2⌋ : ℚ)) = 2 * (⌊h / 2⌋ : ℚ) := by
    have := rnd32_int (2 * ⌊h / 2⌋) (by rw [abs_of_nonneg (by omega)]; omega)
    push_cast at this
    exact this
  refine ⟨binary32.rnd (h - 2 * (⌊h / 2⌋ : ℚ)), ?_, ?_⟩
  · unfold _fmod
    rw [fdiv_fin (by norm_num) (by rw [abs_of_nonneg (by linarith)]; linarith),
      toInt_fin (by rw [htr]; unfold INT_MIN; omega) (by rw [htr]; unfold INT_MAX; omega), htr]
    simp only [Option.map_some']
    rw [i2f_small _ (by rw [abs_of_nonneg hk0]; omega),
      fmul_fin (by rw [abs_of_nonneg (by linarith)]; linarith), h2k,
      fsub_fin (by rw [abs_le]; constructor <;> linarith)]
  · apply rnd32_err1
    rw [abs_lt]
    constructor <;> linarith

/-- The intermediate value `x = c * (1 - |hm - 1|)` computed in `float`. -/
theorem hsl_x_err (c hm w : ℚ) (hc0 : 0 ≤ c) (hc1 : c ≤ 1) (hw0 : 0 ≤ w) (hw2 : w ≤ 2)
    (hhm : |hm - w| ≤ 1 / 2 ^ 24) :
    fmul (Fp.fin c) (fsub (flt 1) (_fabs (fsub (Fp.fin hm) (flt 1))))
      = Fp.fin (binary32.rnd (c * binary32.rnd (1 - |binary32.rnd (hm - 1)|))) ∧
    |binary32.rnd (c * binary32.rnd (1 - |binary32.rnd (hm - 1)|)) - c * (1 - |w - 1|)|
      ≤ 1 / 2 ^ 21 ∧
    |binary32.rnd (c * binary32.rnd (1 - |binary32.rnd (hm - 1)|))| ≤ 2 := by
  obtain ⟨hhm1, hhm2⟩ := abs_le.mp hhm
  have e1 := rnd32_err1 (hm - 1) (by rw [abs_lt]; constructor <;> norm_num at hhm1 hhm2 ⊢ <;> linarith)
  set a := binary32.rnd (hm - 1) with ha
  obtain ⟨e1a, e1b⟩ := abs_le.mp e1
  have haw : |a - (w - 1)| ≤ 1 / 2 ^ 23 := by
    rw [abs_le]; norm_num at hhm1 hhm2 e1a e1b ⊢; constructor <;> linarith
  have habs : |(|a| - |w - 1|)| ≤ 1 / 2 ^ 23 := (abs_abs_sub_abs_le_abs_sub _ _).trans haw
  have hw1 : |w - 1| ≤ 1 := by rw [abs_le]; constructor <;> linarith
  obtain ⟨ab1, ab2⟩ := abs_le.mp habs
  have hA0 := abs_nonneg a
  have e2 := rnd32_err1 (1 - |a|) (by
    rw [abs_lt]; norm_num at ab1 ab2 ⊢; constructor <;> linarith)
  set b := binary32.rnd (1 - |a|) with hb
  obtain ⟨e2a, e2b⟩ := abs_le.mp e2
  have hW0 := abs_nonneg (w - 1)
  have hb_err : |b - (1 - |w - 1|)| ≤ 3 / 2 ^ 24 := by
    rw [abs_le]; norm_num at ab1 ab2 e2a e2b ⊢; constructor <;> linarith
  obtain ⟨hb1, hb2⟩ := abs_le.mp hb_err
  have hbabs : |b| ≤ 3 / 2 := by
    rw [abs_le]; norm_num at hb1 hb2 ⊢; constructor <;> linarith
  have hcb : |c * b| ≤ 3 / 2 := by
    rw [abs_mul, abs_of_nonneg hc0]
    calc c * |b| ≤ 1 * (3 / 2) := mul_le_mul hc1 hbabs (abs_nonneg _) (by norm_num)
      _ = 3 / 2 := by norm_num
  have e3 := rnd32_err1 (c * b) (lt_of_le_of_lt hcb (by norm_num))
  obtain ⟨e3a, e3b⟩ := abs_le.mp e3
  have hprod : |c * (b - (1 - |w - 1|))| ≤ 3 / 2 ^ 24 := by
    rw [abs_mul, abs_of_nonneg hc0]
    calc c * |b - (1 - |w - 1|)| ≤ 1 * (3 / 2 ^ 24) :=
          mul_le_mul hc1 hb_err (abs_nonneg _) (by norm_num)
      _ = 3 / 2 ^ 24 := by norm_num
  obtain ⟨hp1, hp2⟩ := abs_le.mp hprod
  obtain ⟨hcb1, hcb2⟩ := abs_le.mp hcb
  refine ⟨?_, ?_, ?_⟩
  · rw [fsub_fin (by rw [abs_le]; norm_num at hhm1 hhm2 ⊢; constructor <;> linarith), fabs_fin,
      fsub_fin (by rw [abs_le]; norm_num at ab1 ab2 ⊢; constructor <;> linarith),
      fmul_fin (hcb.trans (by norm_num))]
  · rw [abs_le]
    norm_num at e3a e3b hp1 hp2 ⊢
    constructor <;> linarith
  · rw [abs_le]
    norm_num at e3a e3b ⊢
    constructor <;> linarith

theorem rnd32_neg_one : binary32.rnd (-1 : ℚ) = -1 := by
  rw [Fmt.rnd_neg, rnd32_one]

/-- The chroma `c = (1 - |2 * l - 1|) * s` computed in `float`. -/
theorem hsl_chroma (l s : ℚ) (hl0 : 0 ≤ l) (hl1 : l ≤ 1) (hs0 : 0 ≤ s) (hs1 : s ≤ 1) :
    ∃ c : ℚ, fmul (fsub (flt 1) (_fabs (fsub (fmul (flt 2) (Fp.fin l)) (flt 1)))) (Fp.fin s)
        = Fp.fin c ∧
      0 ≤ c ∧ c ≤ 1 ∧ |c - (1 - |2 * l - 1|) * s| ≤ 1 / 2 ^ 21 := by
  have h2l0 : 0 ≤ 2 * l := by linarith
  have h2l2 : 2 * l ≤ 2 := by linarith
  have e0 := rnd32_err4 (2 * l) (by rw [abs_of_nonneg h2l0]; linarith)
  have r0 : 0 ≤ binary32.rnd (2 * l) := binary32.rnd_nonneg h2l0
  have r2 : binary32.rnd (2 * l) ≤ 2 := binary32.rnd_le_of_le (by decide) rnd32_two h2l2
  set t := binary32.rnd (2 * l) with ht
  have a0 : -1 ≤ binary32.rnd (t - 1) :=
    binary32.le_rnd_of_le (by decide) rnd32_neg_one (by linarith)
  have a1 : binary32.rnd (t - 1) ≤ 1 := binary32.rnd_le_of_le (by decide) rnd32_one (by linarith)
  have e1 := rnd32_err1 (t - 1) (by rw [abs_lt]; constructor <;> linarith)
  set a := binary32.rnd (t - 1) with ha
  have habs1 : |a| ≤ 1 := abs_le.mpr ⟨a0, a1⟩
  have hA0 := abs_nonneg a
  have b0 : 0 ≤ binary32.rnd (1 - |a|) := binary32.rnd_nonneg (by linarith)
  have b1 : binary32.rnd (1 - |a|) ≤ 1 := binary32.rnd_le_of_le (by decide) rnd32_one (by linarith)
  have e2 := rnd32_err1 (1 - |a|) (by rw [abs_lt]; constructor <;> linarith)
  set b := binary32.rnd (1 - |a|) with hb
  have hbs0 : 0 ≤ b * s := mul_nonneg b0 hs0
  have hbs1 : b * s ≤ 1 := by
    calc b * s ≤ 1 * 1 := mul_le_mul b1 hs1 hs0 (by norm_num)
      _ = 1 := by norm_num
  have c0 : 0 ≤ binary32.rnd (b * s) := binary32.rnd_nonneg hbs0
  have c1 : binary32.rnd (b * s) ≤ 1 := binary32.rnd_le_of_le (by decide) rnd32_one hbs1
  have e3 := rnd32_err1 (b * s) (by rw [abs_of_nonneg hbs0]; linarith)
  refine ⟨binary32.rnd (b * s), ?_, c0, c1, ?_⟩
  · rw [fmul_fin (by rw [abs_of_nonneg h2l0]; linarith),
      fsub_fin (by rw [abs_le]; constructor <;> linarith), fabs_fin,
      fsub_fin (by rw [abs_le]; constructor <;> linarith),
      fmul_fin (by rw [abs_of_nonneg hbs0]; linarith)]
  · obtain ⟨e0a, e0b⟩ := abs_le.mp e0
    obtain ⟨e1a, e1b⟩ := abs_le.mp e1
    obtain ⟨e2a, e2b⟩ := abs_le.mp e2
    obtain ⟨e3a, e3b⟩ := abs_le.mp e3
    have haw : |a - (2 * l - 1)| ≤ 3 / 2 ^ 24 := by
      rw [abs_le]; norm_num at e0a e0b e1a e1b ⊢; constructor <;> linarith
    have habs : |(|a| - |2 * l - 1|)| ≤ 3 / 2 ^ 24 := (abs_abs_sub_abs_le_abs_sub _ _).trans haw
    obtain ⟨ab1, ab2⟩ := abs_le.mp habs
    have hb_err : |b - (1 - |2 * l - 1|)| ≤ 4 / 2 ^ 24 := by
      rw [abs_le]; norm_num at ab1 ab2 e2a e2b ⊢; constructor <;> linarith
    have hprod : |(b - (1 - |2 * l - 1|)) * s| ≤ 4 / 2 ^ 24 := by
      rw [abs_mul, abs_of_nonneg hs0]
      calc |b - (1 - |2 * l - 1|)| * s ≤ (4 / 2 ^ 24) * 1 :=
            mul_le_mul hb_err hs1 hs0 (by norm_num)
        _ = 4 / 2 ^ 24 := by norm_num
    obtain ⟨hp1, hp2⟩ := abs_le.mp hprod
    rw [abs_le]
    norm_num at e3a e3b hp1 hp2 ⊢
    constructor <;> linarith

/-- The match value `m = l - c / 2` computed in `float`. -/
theorem hsl_match (l c : ℚ) (hl0 : 0 ≤ l) (hl1 : l ≤ 1) (hc0 : 0 ≤ c) (hc1 : c ≤ 1) :
    fsub (Fp.fin l) (fdiv (Fp.fin c) (flt 2))
      = Fp.fin (binary32.rnd (l - binary32.rnd (c / 2))) ∧
    |binary32.rnd (l - binary32.rnd (c / 2)) - (l - c / 2)| ≤ 1 / 2 ^ 23 ∧
    |binary32.rnd (l - binary32.rnd (c / 2))| ≤ 2 := by
  have hc2 : 0 ≤ c / 2 := by linarith
  have e1 := rnd32_err1 (c / 2) (by rw [abs_of_nonneg hc2]; linarith)
  have r0 : 0 ≤ binary32.rnd (c / 2) := binary32.rnd_nonneg hc2
  have r1 : binary32.rnd (c / 2) ≤ 1 := binary32.rnd_le_of_le (by decide) rnd32_one (by linarith)
  set d := binary32.rnd (c / 2) with hd
  have e2 := rnd32_err1 (l - d) (by rw [abs_lt]; constructor <;> linarith)
  obtain ⟨e1a, e1b⟩ := abs_le.mp e1
  obtain ⟨e2a, e2b⟩ := abs_le.mp e2
  refine ⟨?_, ?_, ?_⟩
  · rw [fdiv_fin (by norm_num) (by rw [abs_of_nonneg hc2]; linarith),
      fsub_fin (by rw [abs_le]; constructor <;> linarith)]
  · rw [abs_le]; norm_num at e1a e1b e2a e2b ⊢; constructor <;> linarith
  · rw [abs_le]; norm_num at e2a e2b ⊢; constructor <;> linarith

/-- One output channel `(x + m) * 255` computed in `float`. -/
theorem hsl_channel (x m : ℚ) (hx : |x| ≤ 2) (hm : |m| ≤ 2) :
    fmul (fadd (Fp.fin x) (Fp.fin m)) (flt 255)
      = Fp.fin (binary32.rnd (binary32.rnd (x + m) * 255)) ∧
    |binary32.rnd (binary32.rnd (x + m) * 255) - 255 * (x + m)| ≤ 1 / 2 ^ 13 := by
  obtain ⟨hx1, hx2⟩ := abs_le.mp hx
  obtain ⟨hm1, hm2⟩ := abs_le.mp hm
  have e1 := rnd32_err8 (x + m) (by rw [abs_lt]; constructor <;> linarith)
  obtain ⟨e1a, e1b⟩ := abs_le.mp e1
  set y := binary32.rnd (x + m) with hy
  have hy1 : |y * 255| < 2 ^ (10 + 1) := by
    rw [abs_lt]; norm_num at e1a e1b ⊢; constructor <;> linarith
  have e2 := rnd32_err_of_lt (y * 255) 10 hy1
  obtain ⟨e2a, e2b⟩ := abs_le.mp e2
  refine ⟨?_, ?_⟩
  · rw [fadd_fin (by rw [abs_le]; constructor <;> linarith),
      fmul_fin (hy1.le.trans (by norm_num))]
  · rw [abs_le]; norm_num at e1a e1b e2a e2b ⊢; constructor <;> linarith

/-- The sector selection of `hsl_to_rgb`, on rationals: each selected value is
the chroma times the weight of its channel, up to the error of `x`. -/
theorem hue_select (h c x ε : ℚ) (h0 : 0 ≤ h) (h6 : h ≤ 6)
    (hx : |x - c * (1 - |h - 2 * (⌊h / 2⌋ : ℚ) - 1|)| ≤ ε) :
    |(if h < 1 then c else if h < 2 then x else if h < 3 then 0 else if h < 4 then 0
        else if h < 5 then x else c) - c * hueRed h| ≤ ε ∧
    |(if h < 1 then x else if h < 2 then c else if h < 3 then c else if h < 4 then x
        else if h < 5 then 0 else 0) - c * hueGreen h| ≤ ε ∧
    |(if h < 1 then 0 else if h < 2 then 0 else if h < 3 then x else if h < 4 then c
        else if h < 5 then c else x) - c * hueBlue h| ≤ ε := by
  have hε : 0 ≤ ε := (abs_nonneg _).trans hx
  have hfloor : ∀ k : ℤ, (2 * (k : ℚ) ≤ h) → h < 2 * (k : ℚ) + 2 → ⌊h / 2⌋ = k := by
    intro k hk1 hk2
    rw [Int.floor_eq_iff]
    constructor <;> linarith
  by_cases c1 : h < 1
  · have hk := hfloor 0 (by simpa using h0) (by norm_num; linarith)
    rw [hk] at hx
    obtain ⟨s1, s2, s3⟩ := hue_sector0 h0 c1.le
    simp only [c1, if_true, s1, s2, s3]
    rw [show h - 2 * ((0 : ℤ) : ℚ) - 1 = h - 1 by norm_num,
      abs_of_nonpos (show h - 1 ≤ 0 by linarith)] at hx
    refine ⟨by simpa using hε, ?_, by simpa using hε⟩
    rwa [show c * (1 - -(h - 1)) = c * h by ring] at hx
  by_cases c2 : h < 2
  · have hk := hfloor 0 (by simpa using h0) (by norm_num; linarith)
    rw [hk] at hx
    obtain ⟨s1, s2, s3⟩ := hue_sector1 (not_lt.mp c1) c2.le
    simp only [c1, c2, if_true, if_false, s1, s2, s3]
    rw [show h - 2 * ((0 : ℤ) : ℚ) - 1 = h - 1 by norm_num,
      abs_of_nonneg (show 0 ≤ h - 1 by linarith)] at hx
    refine ⟨?_, by simpa using hε, by simpa using hε⟩
    rwa [show c * (1 - (h - 1)) = c * (2 - h) by ring] at hx
  by_cases c3 : h < 3
  · have hk := hfloor 1 (by norm_num; linarith) (by norm_num; linarith)
    rw [hk] at hx
    obtain ⟨s1, s2, s3⟩ := hue_sector2 (not_lt.mp c2) c3.le
    simp only [c1, c2, c3, if_true, if_false, s1, s2, s3]
    rw [show h - 2 * ((1 : ℤ) : ℚ) - 1 = h - 3 by norm_num; ring,
      abs_of_nonpos (show h - 3 ≤ 0 by linarith)] at hx
    refine ⟨by simpa using hε, by simpa using hε, ?_⟩
    rwa [show c * (1 - -(h - 3)) = c * (h - 2) by ring] at hx
  by_cases c4 : h < 4
  · have hk := hfloor 1 (by norm_num; linarith) (by norm_num; linarith)
    rw [hk] at hx
    obtain ⟨s1, s2, s3⟩ := hue_sector3 (not_lt.mp c3) c4.le
    simp only [c1, c2, c3, c4, if_true, if_false, s1, s2, s3]
    rw [show h - 2 * ((1 : ℤ) : ℚ) - 1 = h - 3 by norm_num; ring,
      abs_of_nonneg (show 0 ≤ h - 3 by linarith)] at hx
    refine ⟨by simpa using hε, ?_, by simpa using hε⟩
    rwa [show c * (1 - (h - 3)) = c * (4 - h) by ring] at hx
  by_cases c5 : h < 5
  · have hk := hfloor 2 (by norm_num; linarith) (by norm_num; linarith)
    rw [hk] at hx
    obtain ⟨s1, s2, s3⟩ := hue_sector4 (not_lt.mp c4) c5.le
    simp only [c1, c2, c3, c4, c5, if_true, if_false, s1, s2, s3]
    rw [show h - 2 * ((2 : ℤ) : ℚ) - 1 = h - 5 by norm_num; ring,
      abs_of_nonpos (show h - 5 ≤ 0 by linarith)] at hx
    refine ⟨?_, by simpa using hε, by simpa using hε⟩
    rwa [show c * (1 - -(h - 5)) = c * (h - 4) by ring] at hx
  · obtain ⟨s1, s2, s3⟩ := hue_sector5 (not_lt.mp c5) h6
    simp only [c1, c2, c3, c4, c5, if_false, s1, s2, s3]
    refine ⟨by simpa using hε, by simpa using hε, ?_⟩
    rcases h6.lt_or_eq with h6' | h6'
    · have hk := hfloor 2 (by norm_num; linarith) (by norm_num; linarith)
      rw [hk] at hx
      rw [show h - 2 * ((2 : ℤ) : ℚ) - 1 = h - 5 by norm_num; ring,
        abs_of_nonneg (show 0 ≤ h - 5 by linarith)] at hx
      rwa [show c * (1 - (h - 5)) = c * (6 - h) by ring] at hx
    · have hk := hfloor 3 (by norm_num; linarith) (by norm_num; linarith)
      rw [hk] at hx
      rw [h6'] at hx ⊢
      norm_num at hx ⊢
      exact hx

theorem abs_truncQ_le (v : ℚ) : |(truncQ v : ℚ)| ≤ |v| := by
  unfold truncQ
  split_ifs with h
  · rw [abs_of_nonneg h, abs_of_nonneg (by exact_mod_cast Int.floor_nonneg.mpr h)]
    exact Int.floor_le v
  · have hv : v < 0 := not_le.mp h
    have h1 : (0 : ℚ) ≤ (⌊-v⌋ : ℚ) := by exact_mod_cast Int.floor_nonneg.mpr (by linarith)
    push_cast
    rw [abs_neg, abs_of_nonneg h1, abs_of_neg hv]
    exact Int.floor_le (-v)

theorem toInt_fin_of_abs_le (v : ℚ) (h : |v| ≤ 2 ^ 20) :
    Fp.toInt (Fp.fin v) = some (truncQ v) := by
  have h1 := (abs_truncQ_le v).trans h
  have h2 : |truncQ v| ≤ 2 ^ 20 := by
    have : ((|truncQ v| : ℤ) : ℚ) ≤ ((2 ^ 20 : ℤ) : ℚ) := by
      rw [Int.cast_abs]; push_cast; exact h1
    exact_mod_cast this
  obtain ⟨h3, h4⟩ := abs_le.mp h2
  exact toInt_fin (by unfold INT_MIN; omega) (by unfold INT_MAX; omega)

theorem hueRed_nonneg (h : ℚ) : 0 ≤ hueRed h := clamp01_nonneg _
theorem hueRed_le_one (h : ℚ) : hueRed h ≤ 1 := clamp01_le_one _
theorem hueGreen_nonneg (h : ℚ) : 0 ≤ hueGreen h := clamp01_nonneg _
theorem hueGreen_le_one (h : ℚ) : hueGreen h ≤ 1 := clamp01_le_one _
theorem hueBlue_nonneg (h : ℚ) : 0 ≤ hueBlue h := clamp01_nonneg _
theorem hueBlue_le_one (h : ℚ) : hueBlue h ≤ 1 := clamp01_le_one _

theorem hsl_v_abs {v sx m : ℚ} (h1 : |sx| ≤ 2) (hm : |m| ≤ 2)
    (h2 : |v - 255 * (sx + m)| ≤ 1 / 2 ^ 13) : |v| ≤ 2 ^ 20 := by
  obtain ⟨a1, a2⟩ := abs_le.mp h1
  obtain ⟨b1, b2⟩ := abs_le.mp h2
  obtain ⟨m1, m2⟩ := abs_le.mp hm
  rw [abs_le]
  norm_num at b1 b2 ⊢
  constructor <;> linarith

/-- The error of one channel before truncation, from the errors of its parts. -/
theorem hsl_final_err {v sx m c w u T l : ℚ} (her : |v - 255 * (sx + m)| ≤ 1 / 2 ^ 13)
    (hsel : |sx - c * w| ≤ 1 / 2 ^ 21) (hc0 : 0 ≤ c) (hc1 : c ≤ 1) (hu : 0 ≤ u) (hw1 : u ≤ 1)
    (hww : |w - u| ≤ 1 / 2 ^ 22) (hcT : |c - T| ≤ 1 / 2 ^ 21)
    (hm : |m - (l - c / 2)| ≤ 1 / 2 ^ 23) :
    |v - 255 * (T * u + (l - T / 2))| ≤ 1 / 2 ^ 10 := by
  have p1 : |c * (w - u)| ≤ 1 / 2 ^ 22 := by
    rw [abs_mul, abs_of_nonneg hc0]
    calc c * |w - u| ≤ 1 * (1 / 2 ^ 22) := mul_le_mul hc1 hww (abs_nonneg _) (by norm_num)
      _ = 1 / 2 ^ 22 := by norm_num
  have p2 : |(c - T) * u| ≤ 1 / 2 ^ 21 := by
    rw [abs_mul, abs_of_nonneg hu]
    calc |c - T| * u ≤ (1 / 2 ^ 21) * 1 := mul_le_mul hcT hw1 hu (by norm_num)
      _ = 1 / 2 ^ 21 := by norm_num
  obtain ⟨a1, a2⟩ := abs_le.mp her
  obtain ⟨b1, b2⟩ := abs_le.mp hsel
  obtain ⟨c1, c2⟩ := abs_le.mp p1
  obtain ⟨d1, d2⟩ := abs_le.mp p2
  obtain ⟨e1, e2⟩ := abs_le.mp hcT
  obtain ⟨f1, f2⟩ := abs_le.mp hm
  have key : v - 255 * (T * u + (l - T / 2))
      = (v - 255 * (sx + m)) + 255 * ((sx - c * w) + c * (w - u) + (c - T) * u
          + (m - (l - c / 2)) - (c - T) / 2) := by ring
  rw [key, abs_le]
  norm_num at a1 a2 b1 b2 c1 c2 d1 d2 e1 e2 f1 f2 ⊢
  constructor <;> linarith

/-- For hue in `[0, 360]` and saturation and lightness in `[0, 1]`, `hsl_to_rgb`
truncates and clamps three `float` values, each within `2 ^ -10` of the exact
formula `255 * (c * weight + l - c / 2)` with chroma `c = (1 - |2 l - 1|) s`. -/
theorem hsl_to_rgb_approx (hue s l : ℚ) (hh0 : 0 ≤ hue) (hh1 : hue ≤ 360)
    (hs0 : 0 ≤ s) (hs1 : s ≤ 1) (hl0 : 0 ≤ l) (hl1 : l ≤ 1) :
    ∃ vr vg vb : ℚ,
      hsl_to_rgb ⟨Fp.fin hue, Fp.fin s, Fp.fin l⟩
        = some ⟨_clamp (truncQ vr) 0 255, _clamp (truncQ vg) 0 255, _clamp (truncQ vb) 0 255⟩ ∧
      |vr - 255 * ((1 - |2 * l - 1|) * s * hueRed (hue / 60)
          + (l - (1 - |2 * l - 1|) * s / 2))| ≤ 1 / 2 ^ 10 ∧
      |vg - 255 * ((1 - |2 * l - 1|) * s * hueGreen (hue / 60)
          + (l - (1 - |2 * l - 1|) * s / 2))| ≤ 1 / 2 ^ 10 ∧
      |vb - 255 * ((1 - |2 * l - 1|) * s * hueBlue (hue / 60)
          + (l - (1 - |2 * l - 1|) * s / 2))| ≤ 1 / 2 ^ 10 := by
  have hq0 : 0 ≤ hue / 60 := by positivity
  have hq6 : hue / 60 ≤ 6 := by rw [div_le_iff₀ (by norm_num)]; linarith
  have h0' : 0 ≤ binary32.rnd (hue / 60) := binary32.rnd_nonneg hq0
  have h6' : binary32.rnd (hue / 60) ≤ 6 := binary32.rnd_le_of_le (by decide) rnd32_six hq6
  have herr := rnd32_err8 (hue / 60) (by rw [abs_of_nonneg hq0]; linarith)
  have hdiv := fdiv_fin (a := hue) (b := 60) (by norm_num) (by rw [abs_of_nonneg hq0]; linarith)
  obtain ⟨c, hc_eq, hc0, hc1, hc_err⟩ := hsl_chroma l s hl0 hl1 hs0 hs1
  obtain ⟨hm, hfm, hhm⟩ := fmod_two (hue / 60) h0' h6'
  generalize binary32.rnd (hue / 60) = h at h0' h6' herr hdiv hfm hhm
  have hfl1 := Int.floor_le (h / 2)
  have hfl2 := Int.lt_floor_add_one (h / 2)
  obtain ⟨hx_eq, hx_err, hx_abs⟩ := hsl_x_err c hm (h - 2 * (⌊h / 2⌋ : ℚ)) hc0 hc1
    (by linarith) (by linarith) hhm
  generalize binary32.rnd (c * binary32.rnd (1 - |binary32.rnd (hm - 1)|)) = x
    at hx_eq hx_err hx_abs
  obtain ⟨hm_eq, hm_err, hm_abs⟩ := hsl_match l c hl0 hl1 hc0 hc1
  generalize binary32.rnd (l - binary32.rnd (c / 2)) = m at hm_eq hm_err hm_abs
  obtain ⟨selr, selg, selb⟩ := hue_select h c x (1 / 2 ^ 21) h0' h6' hx_err
  have hcabs : |c| ≤ 2 := by rw [abs_of_nonneg hc0]; linarith
  have h0abs : |(0 : ℚ)| ≤ 2 := by norm_num
  generalize hsr : (if h < 1 then c else if h < 2 then x else if h < 3 then 0 else if h < 4 then 0
        else if h < 5 then x else c) = sr at selr
  generalize hsg : (if h < 1 then x else if h < 2 then c else if h < 3 then c else if h < 4 then x
        else if h < 5 then 0 else 0) = sg at selg
  generalize hsb : (if h < 1 then 0 else if h < 2 then 0 else if h < 3 then x else if h < 4 then c
        else if h < 5 then c else x) = sb at selb
  have hsr2 : |sr| ≤ 2 := by rw [← hsr]; split_ifs <;> assumption
  have hsg2 : |sg| ≤ 2 := by rw [← hsg]; split_ifs <;> assumption
  have hsb2 : |sb| ≤ 2 := by rw [← hsb]; split_ifs <;> assumption
  obtain ⟨hcr, her⟩ := hsl_channel sr m hsr2 hm_abs
  obtain ⟨hcg, heg⟩ := hsl_channel sg m hsg2 hm_abs
  obtain ⟨hcb, heb⟩ := hsl_channel sb m hsb2 hm_abs
  have htuple : (if Fp.lt (Fp.fin h) (flt 1) then (Fp.fin c, Fp.fin x, flt 0)
      else if Fp.lt (Fp.fin h) (flt 2) then (Fp.fin x, Fp.fin c, flt 0)
      else if Fp.lt (Fp.fin h) (flt 3) then (flt 0, Fp.fin c, Fp.fin x)
      else if Fp.lt (Fp.fin h) (flt 4) then (flt 0, Fp.fin x, Fp.fin c)
      else if Fp.lt (Fp.fin h) (flt 5) then (Fp.fin x, flt 0, Fp.fin c)
      else (Fp.fin c, flt 0, Fp.fin x)) = (Fp.fin sr, Fp.fin sg, Fp.fin sb) := by
    rw [← hsr, ← hsg, ← hsb]
    simp only [Fp.lt, flt, decide_eq_true_eq]
    split_ifs <;> rfl
  generalize binary32.rnd (binary32.rnd (sr + m) * 255) = vr at hcr her
  generalize binary32.rnd (binary32.rnd (sg + m) * 255) = vg at hcg heg
  generalize binary32.rnd (binary32.rnd (sb + m) * 255) = vb at hcb heb
  have hvabs : ∀ v sx : ℚ, |sx| ≤ 2 → |v - 255 * (sx + m)| ≤ 1 / 2 ^ 13 → |v| ≤ 2 ^ 20 :=
    fun v sx h1 h2 => hsl_v_abs h1 hm_abs h2
  refine ⟨vr, vg, vb, ?_, ?_, ?_, ?_⟩
  · unfold hsl_to_rgb
    simp only []
    rw [hdiv, hc_eq, hfm]
    simp only [Option.some_bind]
    rw [hx_eq, hm_eq, htuple]
    simp only []
    rw [hcr, hcg, hcb, toInt_fin_of_abs_le vr (hvabs vr sr hsr2 her),
      toInt_fin_of_abs_le vg (hvabs vg sg hsg2 heg), toInt_fin_of_abs_le vb (hvabs vb sb hsb2 heb)]
    simp only [Option.some_bind]
  · have hw := (hueRed_lipschitz h (hue / 60)).trans herr
    exact hsl_final_err (w := hueRed h) (u := hueRed (hue / 60)) (T := (1 - |2 * l - 1|) * s)
      her selr hc0 hc1 (hueRed_nonneg _) (hueRed_le_one _) hw hc_err hm_err
  · have hw := (hueGreen_lipschitz h (hue / 60)).trans herr
    exact hsl_final_err (w := hueGreen h) (u := hueGreen (hue / 60))
      (T := (1 - |2 * l - 1|) * s)
      heg selg hc0 hc1 (hueGreen_nonneg _) (hueGreen_le_one _) hw hc_err hm_err
  · have hw := (hueBlue_lipschitz h (hue / 60)).trans herr
    exact hsl_final_err (w := hueBlue h) (u := hueBlue (hue / 60)) (T := (1 - |2 * l - 1|) * s)
      heb selb hc0 hc1 (hueBlue_nonneg _) (hueBlue_le_one _) hw hc_err hm_err

/-! ### The exact conversion: RGB to HSL and back -/

/-- In exact arithmetic, the chroma times the weight of a channel at the hue
position of a colour, plus the smallest channel, is that channel. -/
theorem hue_exact (r g b M m : ℤ) (hM : M = max (max r g) b) (hm : m = min (min r g) b)
    (hne : m < M) :
    0 ≤ huePos r g b ∧ huePos r g b ≤ 6 ∧
    ((M : ℚ) - m) / 255 * hueRed (huePos r g b) + (m : ℚ) / 255 = (r : ℚ) / 255 ∧
    ((M : ℚ) - m) / 255 * hueGreen (huePos r g b) + (m : ℚ) / 255 = (g : ℚ) / 255 ∧
    ((M : ℚ) - m) / 255 * hueBlue (huePos r g b) + (m : ℚ) / 255 = (b : ℚ) / 255 := by
  have hD : (0 : ℚ) < (M : ℚ) - m := by
    have : (m : ℚ) < M := by exact_mod_cast hne
    linarith
  have hD' : ((M : ℚ) - m) ≠ 0 := hD.ne'
  have hpos : huePos r g b
      = if M = r then ((g : ℚ) - b) / ((M : ℚ) - m) + (if g < b then 6 else 0)
        else if M = g then ((b : ℚ) - r) / ((M : ℚ) - m) + 2
        else ((r : ℚ) - g) / ((M : ℚ) - m) + 4 := by
    unfold huePos
    simp only [← hM, ← hm]
  rw [hpos]
  have cast_le : ∀ x y : ℤ, x ≤ y → (x : ℚ) ≤ y := fun x y h => by exact_mod_cast h
  by_cases c1 : M = r
  · rw [if_pos c1]
    by_cases c2 : g < b
    · rw [if_pos c2]
      have hmg : m = g := by omega
      have hgb := cast_le g b c2.le
      have hbr := cast_le b r (by omega)
      rw [c1, hmg] at hD hD' ⊢
      have hq1 : -1 ≤ ((g : ℚ) - b) / ((r : ℚ) - g) := by
        rw [le_div_iff₀ hD]; linarith
      have hq2 : ((g : ℚ) - b) / ((r : ℚ) - g) ≤ 0 :=
        div_nonpos_of_nonpos_of_nonneg (by linarith) hD.le
      obtain ⟨s1, s2, s3⟩ := hue_sector5 (h := ((g : ℚ) - b) / ((r : ℚ) - g) + 6)
        (by linarith) (by linarith)
      rw [s1, s2, s3]
      refine ⟨by linarith, by linarith, by ring, by ring, ?_⟩
      field_simp
      ring
    · rw [if_neg c2]
      have hmb : m = b := by omega
      have hbg := cast_le b g (by omega)
      have hgr := cast_le g r (by omega)
      rw [c1, hmb] at hD hD' ⊢
      have hq1 : 0 ≤ ((g : ℚ) - b) / ((r : ℚ) - b) := div_nonneg (by linarith) hD.le
      have hq2 : ((g : ℚ) - b) / ((r : ℚ) - b) ≤ 1 := by
        rw [div_le_one hD]; linarith
      obtain ⟨s1, s2, s3⟩ := hue_sector0 (h := ((g : ℚ) - b) / ((r : ℚ) - b) + 0)
        (by linarith) (by linarith)
      rw [s1, s2, s3]
      refine ⟨by linarith, by linarith, by ring, ?_, by ring⟩
      field_simp
      ring
  · rw [if_neg c1]
    by_cases c3 : M = g
    · rw [if_pos c3]
      by_cases c4 : r ≤ b
      · have hmr : m = r := by omega
        have hrb := cast_le r b c4
        have hbg := cast_le b g (by omega)
        rw [c3, hmr] at hD hD' ⊢
        have hq1 : 0 ≤ ((b : ℚ) - r) / ((g : ℚ) - r) := div_nonneg (by linarith) hD.le
        have hq2 : ((b : ℚ) - r) / ((g : ℚ) - r) ≤ 1 := by
          rw [div_le_one hD]; linarith
        obtain ⟨s1, s2, s3⟩ := hue_sector2 (h := ((b : ℚ) - r) / ((g : ℚ) - r) + 2)
          (by linarith) (by linarith)
        rw [s1, s2, s3]
        refine ⟨by linarith, by linarith, by ring, by ring, ?_⟩
        field_simp
        ring
      · have hmb : m = b := by omega
        have hbr := cast_le b r (by omega)
        have hrg := cast_le r g (by omega)
        rw [c3, hmb] at hD hD' ⊢
        have hq1 : -1 ≤ ((b : ℚ) - r) / ((g : ℚ) - b) := by
          rw [le_div_iff₀ hD]; linarith
        have hq2 : ((b : ℚ) - r) / ((g : ℚ) - b) ≤ 0 :=
          div_nonpos_of_nonpos_of_nonneg (by linarith) hD.le
        obtain ⟨s1, s2, s3⟩ := hue_sector1 (h := ((b : ℚ) - r) / ((g : ℚ) - b) + 2)
          (by linarith) (by linarith)
        rw [s1, s2, s3]
        refine ⟨by linarith, by linarith, ?_, by ring, by ring⟩
        field_simp
        ring
    · rw [if_neg c3]
      have hMb : M = b := by omega
      by_cases c4 : g ≤ r
      · have hmg : m = g := by omega
        have hgr := cast_le g r c4
        have hrb := cast_le r b (by omega)
        rw [hMb, hmg] at hD hD' ⊢
        have hq1 : 0 ≤ ((r : ℚ) - g) / ((b : ℚ) - g) := div_nonneg (by linarith) hD.le
        have hq2 : ((r : ℚ) - g) / ((b : ℚ) - g) ≤ 1 := by
          rw [div_le_one hD]; linarith
        obtain ⟨s1, s2, s3⟩ := hue_sector4 (h := ((r : ℚ) - g) / ((b : ℚ) - g) + 4)
          (by linarith) (by linarith)
        rw [s1, s2, s3]
        refine ⟨by linarith, by linarith, ?_, by ring, by ring⟩
        field_simp
        ring
      · have hmr : m = r := by omega
        have hrg := cast_le r g (by omega)
        have hgb := cast_le g b (by omega)
        rw [hMb, hmr] at hD hD' ⊢
        have hq1 : -1 ≤ ((r : ℚ) - g) / ((b : ℚ) - r) := by
          rw [le_div_iff₀ hD]; linarith
        have hq2 : ((r : ℚ) - g) / ((b : ℚ) - r) ≤ 0 :=
          div_nonpos_of_nonpos_of_nonneg (by linarith) hD.le
        obtain ⟨s1, s2, s3⟩ := hue_sector3 (h := ((r : ℚ) - g) / ((b : ℚ) - r) + 4)
          (by linarith) (by linarith)
        rw [s1, s2, s3]
        refine ⟨by linarith, by linarith, by ring, ?_, by ring⟩
        field_simp
        ring

/-! ### The conversion RGB to HSL, up to rounding -/

/-- The `float` quotient of a channel by `255`, as a function of the channel. -/
theorem chan_mono : Monotone fun i : ℤ => binary32.rnd ((i : ℚ) / 255) := by
  intro i j h
  apply binary32.rnd_mono (by decide)
  have : (i : ℚ) ≤ j := by exact_mod_cast h
  linarith

theorem chan_max (r g b : ℤ) :
    max (max (binary32.rnd ((r : ℚ) / 255)) (binary32.rnd ((g : ℚ) / 255)))
      (binary32.rnd ((b : ℚ) / 255)) = binary32.rnd (((max (max r g) b : ℤ) : ℚ) / 255) := by
  have h1 := chan_mono.map_max (a := r) (b := g)
  have h2 := chan_mono.map_max (a := max r g) (b := b)
  simp only at h1 h2
  rw [h2, h1]

theorem chan_min (r g b : ℤ) :
    min (min (binary32.rnd ((r : ℚ) / 255)) (binary32.rnd ((g : ℚ) / 255)))
      (binary32.rnd ((b : ℚ) / 255)) = binary32.rnd (((min (min r g) b : ℤ) : ℚ) / 255) := by
  have h1 := chan_mono.map_min (a := r) (b := g)
  have h2 := chan_mono.map_min (a := min r g) (b := b)
  simp only at h1 h2
  rw [h2, h1]

/-- Distinct channels have `float` quotients at least `1 / 256` apart. -/
theorem chan_gap (i j : ℤ) (hi : 0 ≤ i) (hj : j ≤ 255) (h : i < j) :
    binary32.rnd ((i : ℚ) / 255) + 1 / 256 ≤ binary32.rnd ((j : ℚ) / 255) := by
  obtain ⟨-, e1, -, -⟩ := channel_quot i hi (by omega)
  obtain ⟨-, e2, -, -⟩ := channel_quot j (by omega) hj
  obtain ⟨a1, a2⟩ := abs_le.mp e1
  obtain ⟨b1, b2⟩ := abs_le.mp e2
  have : (i : ℚ) + 1 ≤ j := by exact_mod_cast h
  norm_num at a1 a2 b1 b2 ⊢
  linarith

theorem chan_eq_iff (i j : ℤ) (hi0 : 0 ≤ i) (hi1 : i ≤ 255) (hj0 : 0 ≤ j) (hj1 : j ≤ 255) :
    binary32.rnd ((i : ℚ) / 255) = binary32.rnd ((j : ℚ) / 255) ↔ i = j := by
  constructor
  · intro h
    rcases lt_trichotomy i j with c | c | c
    · have := chan_gap i j hi0 hj1 c
      rw [h] at this
      norm_num at this
    · exact c
    · have := chan_gap j i hj0 hi1 c
      rw [h] at this
      norm_num at this
  · rintro rfl
    rfl

theorem chan_lt_iff (i j : ℤ) (hi0 : 0 ≤ i) (hj1 : j ≤ 255) :
    binary32.rnd ((i : ℚ) / 255) < binary32.rnd ((j : ℚ) / 255) ↔ i < j := by
  constructor
  · intro h
    by_contra hc
    have := chan_mono (not_lt.mp hc)
    simp only at this
    linarith
  · intro h
    have := chan_gap i j hi0 hj1 h
    linarith

/-- The sum `max + min` and the lightness `(max + min) / 2` in `float`. -/
theorem lightness_chromatic (XM Xm Mq mq : ℚ) (eM : |XM - Mq| ≤ 1 / 2 ^ 25)
    (em : |Xm - mq| ≤ 1 / 2 ^ 25) (hm0 : 0 ≤ Xm) (hmM : Xm ≤ XM) (hM1 : XM ≤ 1) :
    fadd (Fp.fin XM) (Fp.fin Xm) = Fp.fin (binary32.rnd (XM + Xm)) ∧
    fdiv (Fp.fin (binary32.rnd (XM + Xm))) (flt 2)
      = Fp.fin (binary32.rnd (binary32.rnd (XM + Xm) / 2)) ∧
    |binary32.rnd (XM + Xm) - (Mq + mq)| ≤ 3 / 2 ^ 24 ∧
    0 ≤ binary32.rnd (XM + Xm) ∧ binary32.rnd (XM + Xm) ≤ 2 ∧
    |binary32.rnd (binary32.rnd (XM + Xm) / 2) - (Mq + mq) / 2| ≤ 3 / 2 ^ 24 ∧
    0 ≤ binary32.rnd (binary32.rnd (XM + Xm) / 2) ∧
    binary32.rnd (binary32.rnd (XM + Xm) / 2) ≤ 1 := by
  have hs0 : 0 ≤ XM + Xm := by linarith
  have hs2 : XM + Xm ≤ 2 := by linarith
  have S0 : 0 ≤ binary32.rnd (XM + Xm) := binary32.rnd_nonneg hs0
  have S2 : binary32.rnd (XM + Xm) ≤ 2 := binary32.rnd_le_of_le (by decide) rnd32_two hs2
  have eS := rnd32_err4 (XM + Xm) (by rw [abs_of_nonneg hs0]; linarith)
  have h1 := fadd_fin (a := XM) (b := Xm) (by rw [abs_of_nonneg hs0]; linarith)
  generalize binary32.rnd (XM + Xm) = S at S0 S2 eS h1 ⊢
  have l0 : 0 ≤ binary32.rnd (S / 2) := binary32.rnd_nonneg (by linarith)
  have l1 : binary32.rnd (S / 2) ≤ 1 := binary32.rnd_le_of_le (by decide) rnd32_one (by linarith)
  have el := rnd32_err1 (S / 2) (by rw [abs_of_nonneg (by linarith)]; linarith)
  have h2 := fdiv_fin (a := S) (b := 2) (by norm_num) (by
    rw [abs_of_nonneg (by linarith)]; linarith)
  obtain ⟨a1, a2⟩ := abs_le.mp eM
  obtain ⟨b1, b2⟩ := abs_le.mp em
  obtain ⟨c1, c2⟩ := abs_le.mp eS
  obtain ⟨d1, d2⟩ := abs_le.mp el
  refine ⟨h1, h2, ?_, S0, S2, ?_, l0, l1⟩
  · rw [abs_le]; norm_num at a1 a2 b1 b2 c1 c2 ⊢; constructor <;> linarith
  · rw [abs_le]; norm_num at a1 a2 b1 b2 c1 c2 d1 d2 ⊢; constructor <;> linarith

/-- The product of a factor of magnitude at most `1` and a small quantity is small. -/
theorem abs_mul_le_of_le_one {a b e : ℚ} (ha : |a| ≤ 1) (hb : |b| ≤ e) : |a * b| ≤ e := by
  rw [abs_mul]
  calc |a| * |b| ≤ 1 * e := mul_le_mul ha hb (abs_nonneg _) (by norm_num)
    _ = e := one_mul e

theorem abs_sub_le_add {x y z e1 e2 : ℚ} (h1 : |x - y| ≤ e1) (h2 : |y - z| ≤ e2) :
    |x - z| ≤ e1 + e2 :=
  (abs_sub_le x y z).trans (add_le_add h1 h2)

/-- Chroma from the saturation when the lightness is above one half. -/
theorem sat_branch_hi {l s a b : ℚ} (hl : 1 / 2 < l) (_l1 : l ≤ 1) (hb : 0 < b) (ha : 0 ≤ a)
    (hab : a ≤ b) (es : |s - a / b| ≤ 1793 / 2 ^ 24) (el : |l - (2 - b) / 2| ≤ 3 / 2 ^ 24) :
    |(1 - |2 * l - 1|) * s - a| ≤ 1 / 2 ^ 13 := by
  have hs0 : 0 ≤ a / b := div_nonneg ha hb.le
  have hs1 : a / b ≤ 1 := by rw [div_le_one hb]; exact hab
  have key : (1 - |2 * l - 1|) * s - a
      = (2 - 2 * l) * (s - a / b) + a / b * (2 * ((2 - b) / 2 - l)) := by
    rw [abs_of_nonneg (by linarith)]
    field_simp
    ring
  obtain ⟨l1', l2'⟩ := abs_le.mp el
  have p1 := abs_mul_le_of_le_one (a := 2 - 2 * l) (by rw [abs_le]; constructor <;> linarith) es
  have p2 := abs_mul_le_of_le_one (a := a / b) (b := 2 * ((2 - b) / 2 - l)) (e := 6 / 2 ^ 24)
    (by rw [abs_of_nonneg hs0]; exact hs1)
    (by rw [abs_le]; norm_num at l1' l2' ⊢; constructor <;> linarith)
  rw [key]
  refine (abs_add _ _).trans ?_
  refine (add_le_add p1 p2).trans ?_
  norm_num

/-- Chroma from the saturation when the lightness is at most one half. -/
theorem sat_branch_lo {l s a b : ℚ} (_l0 : 0 ≤ l) (hl : l ≤ 1 / 2) (hb : 0 < b) (ha : 0 ≤ a)
    (hab : a ≤ b) (es : |s - a / b| ≤ 1281 / 2 ^ 24) (el : |l - b / 2| ≤ 3 / 2 ^ 24) :
    |(1 - |2 * l - 1|) * s - a| ≤ 1 / 2 ^ 13 := by
  have hs0 : 0 ≤ a / b := div_nonneg ha hb.le
  have hs1 : a / b ≤ 1 := by rw [div_le_one hb]; exact hab
  have key : (1 - |2 * l - 1|) * s - a
      = (2 * l) * (s - a / b) + a / b * (2 * (l - b / 2)) := by
    rw [abs_of_nonpos (by linarith)]
    field_simp
    ring
  obtain ⟨l1', l2'⟩ := abs_le.mp el
  have p1 := abs_mul_le_of_le_one (a := 2 * l) (by rw [abs_le]; constructor <;> linarith) es
  have p2 := abs_mul_le_of_le_one (a := a / b) (b := 2 * (l - b / 2)) (e := 6 / 2 ^ 24)
    (by rw [abs_of_nonneg hs0]; exact hs1)
    (by rw [abs_le]; norm_num at l1' l2' ⊢; constructor <;> linarith)
  rw [key]
  refine (abs_add _ _).trans ?_
  refine (add_le_add p1 p2).trans ?_
  norm_num

/-- The first divisor `2 - max - min` of the saturation, in `float`. -/
theorem sat_divisor (XM Xm Mq mq : ℚ) (eM : |XM - Mq| ≤ 1 / 2 ^ 25)
    (em : |Xm - mq| ≤ 1 / 2 ^ 25) (hm0 : 0 ≤ Xm) (hmM : Xm ≤ XM) (hM1 : XM ≤ 1) :
    ∃ den : ℚ, fsub (fsub (flt 2) (Fp.fin XM)) (Fp.fin Xm) = Fp.fin den ∧
      |den - (2 - Mq - mq)| ≤ 5 / 2 ^ 24 ∧ binary32.rnd (XM - Xm) ≤ den := by
  have t1 : 1 ≤ binary32.rnd (2 - XM) := binary32.le_rnd_of_le (by decide) rnd32_one (by linarith)
  have t2 : binary32.rnd (2 - XM) ≤ 2 := binary32.rnd_le_of_le (by decide) rnd32_two (by linarith)
  have et := rnd32_err4 (2 - XM) (by rw [abs_of_nonneg (by linarith)]; linarith)
  have ht := fsub_fin (a := 2) (b := XM) (by rw [abs_of_nonneg (by linarith)]; linarith)
  have dden : binary32.rnd (XM - Xm) ≤ binary32.rnd (binary32.rnd (2 - XM) - Xm) :=
    binary32.rnd_mono (by decide) (by linarith)
  generalize binary32.rnd (2 - XM) = t at t1 t2 et ht dden
  have eden := rnd32_err4 (t - Xm) (by rw [abs_of_nonneg (by linarith)]; linarith)
  have hden := fsub_fin (a := t) (b := Xm) (by rw [abs_of_nonneg (by linarith)]; linarith)
  refine ⟨binary32.rnd (t - Xm), by rw [ht, hden], ?_, dden⟩
  generalize binary32.rnd (t - Xm) = den at eden
  obtain ⟨a1, a2⟩ := abs_le.mp eM
  obtain ⟨b1, b2⟩ := abs_le.mp em
  obtain ⟨f1, f2⟩ := abs_le.mp et
  obtain ⟨g1, g2⟩ := abs_le.mp eden
  rw [abs_le]; norm_num at a1 a2 b1 b2 f1 f2 g1 g2 ⊢; constructor <;> linarith

/-- A quotient `d / den` of `float` values with `0 ≤ d ≤ den`, rounded. -/
theorem sat_quotient {d den a b e : ℚ} (d0 : 0 ≤ d) (dden : d ≤ den) (hlb : 1 / 256 ≤ den)
    (hq : |d / den - a / b| ≤ e) :
    fdiv (Fp.fin d) (Fp.fin den) = Fp.fin (binary32.rnd (d / den)) ∧
    0 ≤ binary32.rnd (d / den) ∧ binary32.rnd (d / den) ≤ 1 ∧
    |binary32.rnd (d / den) - a / b| ≤ 1 / 2 ^ 24 + e := by
  have den_pos : 0 < den := lt_of_lt_of_le (by norm_num) hlb
  have q0 : 0 ≤ d / den := div_nonneg d0 den_pos.le
  have q1 : d / den ≤ 1 := by rw [div_le_one den_pos]; exact dden
  have es := rnd32_err1 (d / den) (by rw [abs_of_nonneg q0]; linarith)
  exact ⟨fdiv_fin den_pos.ne' (by rw [abs_of_nonneg q0]; linarith), binary32.rnd_nonneg q0,
    binary32.rnd_le_of_le (by decide) rnd32_one q1, abs_sub_le_add es hq⟩

/-- The saturation of a colour that is not a gray, in `float`: it lies in `[0, 1]`
and, multiplied by `1 - |2 l - 1|`, gives the chroma `max - min` up to `2 ^ -13`. -/
theorem sat_chromatic (XM Xm Mq mq : ℚ) (eM : |XM - Mq| ≤ 1 / 2 ^ 25)
    (em : |Xm - mq| ≤ 1 / 2 ^ 25) (hm0 : 0 ≤ Xm) (hmM : Xm ≤ XM) (hM1 : XM ≤ 1)
    (hmq0 : 0 ≤ mq) (hMq1 : Mq ≤ 1) (hD : 1 / 255 ≤ Mq - mq) :
    ∃ s : ℚ,
      (if Fp.gt (Fp.fin (binary32.rnd (binary32.rnd (XM + Xm) / 2))) (flt (1 / 2)) then
          fdiv (Fp.fin (binary32.rnd (XM - Xm))) (fsub (fsub (flt 2) (Fp.fin XM)) (Fp.fin Xm))
        else fdiv (Fp.fin (binary32.rnd (XM - Xm))) (Fp.fin (binary32.rnd (XM + Xm))))
        = Fp.fin s ∧
      0 ≤ s ∧ s ≤ 1 ∧
      |(1 - |2 * binary32.rnd (binary32.rnd (XM + Xm) / 2) - 1|) * s - (Mq - mq)| ≤ 1 / 2 ^ 13 := by
  obtain ⟨-, -, eS, S0, S2, el, l0, l1⟩ := lightness_chromatic XM Xm Mq mq eM em hm0 hmM hM1
  obtain ⟨den, hden, eden, dden⟩ := sat_divisor XM Xm Mq mq eM em hm0 hmM hM1
  have hd0 : 0 ≤ XM - Xm := by linarith
  have d0 : 0 ≤ binary32.rnd (XM - Xm) := binary32.rnd_nonneg hd0
  have ed := rnd32_err1 (XM - Xm) (by rw [abs_of_nonneg hd0]; linarith)
  have dS : binary32.rnd (XM - Xm) ≤ binary32.rnd (XM + Xm) :=
    binary32.rnd_mono (by decide) (by linarith)
  have ed' : |binary32.rnd (XM - Xm) - (Mq - mq)| ≤ 2 / 2 ^ 24 := by
    have h : |XM - Xm - (Mq - mq)| ≤ 1 / 2 ^ 25 + 1 / 2 ^ 25 := by
      have e : XM - Xm - (Mq - mq) = (XM - Mq) - (Xm - mq) := by ring
      rw [e]
      exact (abs_sub _ _).trans (add_le_add eM em)
    refine (abs_sub_le_add ed h).trans ?_
    norm_num
  generalize binary32.rnd (XM - Xm) = d at d0 dS dden ed'
  generalize binary32.rnd (XM + Xm) = S at eS S0 S2 el l0 l1 dS
  generalize binary32.rnd (S / 2) = l at el l0 l1
  clear ed hd0 eM em hm0 hmM hM1
  have hβ : (0 : ℚ) < 1 / 256 := by norm_num
  have habs : |Mq - mq| = Mq - mq := abs_of_nonneg (by linarith)
  by_cases hl : 1 / 2 < l
  · have den_lb : 1 / 256 ≤ den := by
      obtain ⟨h1, -⟩ := abs_le.mp eden
      norm_num at h1 ⊢
      linarith
    have hq := quot_err (a := Mq - mq) (c := d) (b := 2 - Mq - mq) (d := den) hβ
      (by linarith) den_lb (by rw [habs]; linarith) ed' eden
    obtain ⟨hdiv, s0, s1, es⟩ := sat_quotient d0 dden den_lb hq
    refine ⟨binary32.rnd (d / den), ?_, s0, s1, ?_⟩
    · rw [if_pos (by simp only [Fp.gt, Fp.lt, flt, decide_eq_true_eq]; exact hl), hden, hdiv]
    · apply sat_branch_hi hl l1 (by linarith) (by linarith) (by linarith) (es.trans (by norm_num))
      rw [show (2 - (2 - Mq - mq)) / 2 = (Mq + mq) / 2 by ring]
      exact el
  · have hl' : l ≤ 1 / 2 := not_lt.mp hl
    have S_lb : 1 / 256 ≤ S := by
      obtain ⟨h1, -⟩ := abs_le.mp eS
      norm_num at h1 ⊢
      linarith
    have hq := quot_err (a := Mq - mq) (c := d) (b := Mq + mq) (d := S) hβ
      (by linarith) S_lb (by rw [habs]; linarith) ed' eS
    obtain ⟨hdiv, s0, s1, es⟩ := sat_quotient d0 dS S_lb hq
    refine ⟨binary32.rnd (d / S), ?_, s0, s1, ?_⟩
    · rw [if_neg (by simp only [Fp.gt, Fp.lt, flt, decide_eq_true_eq]; exact not_lt.mpr hl'), hdiv]
    · exact sat_branch_lo l0 hl' (by linarith) (by linarith) (by linarith)
        (es.trans (by norm_num)) el

/-- The quotient `(P - Q) / d` of the hue formula, in `float`, for two channels
`p`, `q`: it lies in `[-1, 1]`, has the sign of `p - q`, and is within
`1025 / 2 ^ 24` of the exact quotient. -/
theorem hue_ratio (P Q XM Xm pq qq Dx : ℚ) (eP : |P - pq| ≤ 1 / 2 ^ 25)
    (eQ : |Q - qq| ≤ 1 / 2 ^ 25) (hPQ : |P - Q| ≤ XM - Xm) (hX1 : XM - Xm ≤ 1)
    (hlb : 1 / 256 ≤ binary32.rnd (XM - Xm)) (ed : |binary32.rnd (XM - Xm) - Dx| ≤ 2 / 2 ^ 24)
    (hDx : 1 / 255 ≤ Dx) (hex : |pq - qq| ≤ Dx) :
    ∃ ρ : ℚ, fdiv (fsub (Fp.fin P) (Fp.fin Q)) (Fp.fin (binary32.rnd (XM - Xm))) = Fp.fin ρ ∧
      -1 ≤ ρ ∧ ρ ≤ 1 ∧ (P ≤ Q → ρ ≤ 0) ∧ (Q ≤ P → 0 ≤ ρ) ∧
      |ρ - (pq - qq) / Dx| ≤ 1025 / 2 ^ 24 := by
  have hPQ1 : |P - Q| ≤ 1 := hPQ.trans hX1
  obtain ⟨hPQa, hPQb⟩ := abs_le.mp hPQ
  have hnd : |binary32.rnd (P - Q)| ≤ binary32.rnd (XM - Xm) := by
    rw [abs_le]
    constructor
    · have := binary32.rnd_mono (by decide) hPQa
      rwa [Fmt.rnd_neg] at this
    · exact binary32.rnd_mono (by decide) hPQb
  have hsub := fsub_fin (a := P) (b := Q) (hPQ1.trans (by norm_num))
  have en := rnd32_err1 (P - Q) (lt_of_le_of_lt hPQ1 (by norm_num))
  have hn_nonpos : P ≤ Q → binary32.rnd (P - Q) ≤ 0 := fun h =>
    binary32.rnd_nonpos (by linarith)
  have hn_nonneg : Q ≤ P → 0 ≤ binary32.rnd (P - Q) := fun h =>
    binary32.rnd_nonneg (by linarith)
  have en' : |binary32.rnd (P - Q) - (pq - qq)| ≤ 2 / 2 ^ 24 := by
    have h : |P - Q - (pq - qq)| ≤ 1 / 2 ^ 25 + 1 / 2 ^ 25 := by
      have e : P - Q - (pq - qq) = (P - pq) - (Q - qq) := by ring
      rw [e]
      exact (abs_sub _ _).trans (add_le_add eP eQ)
    refine (abs_sub_le_add en h).trans ?_
    norm_num
  generalize binary32.rnd (P - Q) = n at hnd hsub hn_nonpos hn_nonneg en'
  generalize binary32.rnd (XM - Xm) = d at hlb ed hnd
  clear en hPQ hPQa hPQb hPQ1 hX1 eP eQ
  have hβ : (0 : ℚ) < 1 / 256 := by norm_num
  have d_pos : 0 < d := lt_of_lt_of_le hβ hlb
  have hq := quot_err (a := pq - qq) (c := n) (b := Dx) (d := d) hβ
    (by linarith) hlb hex en' ed
  have hr : |n / d| ≤ 1 := by
    rw [abs_div, abs_of_pos d_pos, div_le_one d_pos]
    exact hnd
  have hone : binary32.rnd (1 : ℚ) = 1 := rnd32_one
  have hρ := binary32.abs_rnd_le (by decide) hone hr
  obtain ⟨ρ1, ρ2⟩ := abs_le.mp hρ
  have eρ := rnd32_err1 (n / d) (lt_of_le_of_lt hr (by norm_num))
  refine ⟨binary32.rnd (n / d), ?_, ρ1, ρ2, ?_, ?_, ?_⟩
  · rw [hsub, fdiv_fin d_pos.ne' (hr.trans (by norm_num))]
  · intro h
    exact binary32.rnd_nonpos (div_nonpos_of_nonpos_of_nonneg (hn_nonpos h) d_pos.le)
  · intro h
    exact binary32.rnd_nonneg (div_nonneg (hn_nonneg h) d_pos.le)
  · refine (abs_sub_le_add eρ hq).trans ?_
    norm_num

/-- The offset added to the quotient of the hue formula. -/
theorem hue_add (ρ off : ℚ) (h0 : 0 ≤ ρ + off) (h6 : ρ + off ≤ 6) :
    fadd (Fp.fin ρ) (Fp.fin off) = Fp.fin (binary32.rnd (ρ + off)) ∧
    0 ≤ binary32.rnd (ρ + off) ∧ binary32.rnd (ρ + off) ≤ 6 ∧
    |binary32.rnd (ρ + off) - (ρ + off)| ≤ 1 / 2 ^ 22 :=
  ⟨fadd_fin (by rw [abs_of_nonneg h0]; linarith), binary32.rnd_nonneg h0,
    binary32.rnd_le_of_le (by decide) rnd32_six h6,
    rnd32_err8 _ (by rw [abs_of_nonneg h0]; linarith)⟩

/-- The end of the hue formula: division by `6` and scaling by `360`. -/
theorem hue_tail (h6 Hx : ℚ) (h0 : 0 ≤ h6) (h1 : h6 ≤ 6) (e : |h6 - Hx| ≤ 1029 / 2 ^ 24) :
    ∃ hue : ℚ, fmul (fdiv (Fp.fin h6) (flt 6)) (flt 360) = Fp.fin hue ∧
      0 ≤ hue ∧ hue ≤ 360 ∧ |hue / 60 - Hx| ≤ 1 / 2 ^ 13 := by
  have q0 : 0 ≤ h6 / 6 := by positivity
  have q1 : h6 / 6 ≤ 1 := by rw [div_le_one (by norm_num)]; exact h1
  have n0 : 0 ≤ binary32.rnd (h6 / 6) := binary32.rnd_nonneg q0
  have n1 : binary32.rnd (h6 / 6) ≤ 1 := binary32.rnd_le_of_le (by decide) rnd32_one q1
  have en := rnd32_err1 (h6 / 6) (by rw [abs_of_nonneg q0]; linarith)
  have hdiv := fdiv_fin (a := h6) (b := 6) (by norm_num) (by rw [abs_of_nonneg q0]; linarith)
  generalize binary32.rnd (h6 / 6) = hn at n0 n1 en hdiv
  have p0 : 0 ≤ hn * 360 := by positivity
  have p1 : hn * 360 ≤ 360 := by linarith
  have u0 : 0 ≤ binary32.rnd (hn * 360) := binary32.rnd_nonneg p0
  have u1 : binary32.rnd (hn * 360) ≤ 360 := binary32.rnd_le_of_le (by decide) rnd32_360 p1
  have eu := rnd32_err512 (hn * 360) (by rw [abs_of_nonneg p0]; linarith)
  have hmul := fmul_fin (a := hn) (b := 360) (by rw [abs_of_nonneg p0]; linarith)
  refine ⟨binary32.rnd (hn * 360), by rw [hdiv, hmul], u0, u1, ?_⟩
  generalize binary32.rnd (hn * 360) = hue at eu
  obtain ⟨a1, a2⟩ := abs_le.mp e
  obtain ⟨b1, b2⟩ := abs_le.mp en
  obtain ⟨c1, c2⟩ := abs_le.mp eu
  rw [abs_le]
  norm_num at a1 a2 b1 b2 c1 c2 ⊢
  constructor <;> linarith

/-- The chroma `max - min` in `float`, for the largest channel `M` and the
smallest channel `m` of a colour that is not a gray. -/
theorem chroma_float (M m : ℤ) (hm0 : 0 ≤ m) (hM1 : M ≤ 255) (hne : m < M) :
    fsub (Fp.fin (binary32.rnd ((M : ℚ) / 255))) (Fp.fin (binary32.rnd ((m : ℚ) / 255)))
      = Fp.fin (binary32.rnd (binary32.rnd ((M : ℚ) / 255) - binary32.rnd ((m : ℚ) / 255))) ∧
    1 / 256 ≤ binary32.rnd (binary32.rnd ((M : ℚ) / 255) - binary32.rnd ((m : ℚ) / 255)) ∧
    |binary32.rnd (binary32.rnd ((M : ℚ) / 255) - binary32.rnd ((m : ℚ) / 255))
      - ((M : ℚ) - m) / 255| ≤ 2 / 2 ^ 24 ∧
    binary32.rnd ((M : ℚ) / 255) - binary32.rnd ((m : ℚ) / 255) ≤ 1 ∧
    1 / 255 ≤ ((M : ℚ) - m) / 255 := by
  obtain ⟨-, eM, M0, M1⟩ := channel_quot M (by omega) hM1
  obtain ⟨-, em, m0, m1⟩ := channel_quot m hm0 (by omega)
  have hgap := chan_gap m M hm0 hM1 hne
  generalize binary32.rnd ((M : ℚ) / 255) = XM at eM M0 M1 hgap ⊢
  generalize binary32.rnd ((m : ℚ) / 255) = Xm at em m0 m1 hgap ⊢
  have hd0 : 0 ≤ XM - Xm := by linarith
  have ed := rnd32_err1 (XM - Xm) (by rw [abs_of_nonneg hd0]; linarith)
  have hex : (1 : ℚ) / 255 ≤ ((M : ℚ) - m) / 255 := by
    have : (m : ℚ) + 1 ≤ M := by exact_mod_cast hne
    rw [div_le_div_iff_of_pos_right (by norm_num)]
    linarith
  have ed' : |binary32.rnd (XM - Xm) - ((M : ℚ) - m) / 255| ≤ 2 / 2 ^ 24 := by
    have h : |XM - Xm - ((M : ℚ) - m) / 255| ≤ 1 / 2 ^ 25 + 1 / 2 ^ 25 := by
      have e : XM - Xm - ((M : ℚ) - m) / 255 = (XM - (M : ℚ) / 255) - (Xm - (m : ℚ) / 255) := by
        ring
      rw [e]
      exact (abs_sub _ _).trans (add_le_add eM em)
    refine (abs_sub_le_add ed h).trans ?_
    norm_num
  refine ⟨fsub_fin (by rw [abs_of_nonneg hd0]; linarith), ?_, ed', by linarith, hex⟩
  obtain ⟨a1, -⟩ := abs_le.mp ed'
  norm_num at a1 hex ⊢
  linarith

/-- One branch of the hue formula, for the channels `p` and `q` and the offset
`off`: the hue lies in `[0, 360]` and its sixtieth is within `2 ^ -13` of the
exact position. -/
theorem hue_branch (p q M m : ℤ) (hp1 : m ≤ p) (hp2 : p ≤ M) (hq1 : m ≤ q) (hq2 : q ≤ M)
    (hm0 : 0 ≤ m) (hM1 : M ≤ 255) (hne : m < M) (off : ℚ)
    (hlo : 1 ≤ off ∨ (0 ≤ off ∧ q ≤ p)) (hhi : off ≤ 5 ∨ (off ≤ 6 ∧ p ≤ q)) :
    ∃ hue : ℚ,
      fmul (fdiv (fadd (fdiv (fsub (Fp.fin (binary32.rnd ((p : ℚ) / 255)))
          (Fp.fin (binary32.rnd ((q : ℚ) / 255))))
          (Fp.fin (binary32.rnd (binary32.rnd ((M : ℚ) / 255) - binary32.rnd ((m : ℚ) / 255)))))
          (Fp.fin off)) (flt 6)) (flt 360) = Fp.fin hue ∧
      0 ≤ hue ∧ hue ≤ 360 ∧ |hue / 60 - (((p : ℚ) - q) / ((M : ℚ) - m) + off)| ≤ 1 / 2 ^ 13 := by
  obtain ⟨-, hlb, ed, hX1, hDx⟩ := chroma_float M m hm0 hM1 hne
  obtain ⟨-, eP, -, -⟩ := channel_quot p (by omega) (by omega)
  obtain ⟨-, eQ, -, -⟩ := channel_quot q (by omega) (by omega)
  have mono : ∀ i j : ℤ, i ≤ j → binary32.rnd ((i : ℚ) / 255) ≤ binary32.rnd ((j : ℚ) / 255) :=
    fun i j h => chan_mono h
  have hPQ : |binary32.rnd ((p : ℚ) / 255) - binary32.rnd ((q : ℚ) / 255)|
      ≤ binary32.rnd ((M : ℚ) / 255) - binary32.rnd ((m : ℚ) / 255) := by
    have := mono m p hp1
    have := mono p M hp2
    have := mono m q hq1
    have := mono q M hq2
    rw [abs_le]
    constructor <;> linarith
  have hcast : ∀ i j : ℤ, i ≤ j → (i : ℚ) ≤ j := fun i j h => by exact_mod_cast h
  have hex : |(p : ℚ) / 255 - (q : ℚ) / 255| ≤ ((M : ℚ) - m) / 255 := by
    have := hcast m p hp1
    have := hcast p M hp2
    have := hcast m q hq1
    have := hcast q M hq2
    rw [abs_le]
    constructor <;> linarith
  obtain ⟨ρ, hρ, ρ1, ρ2, ρneg, ρpos, eρ⟩ := hue_ratio _ _ _ _ _ _ _ eP eQ hPQ hX1 hlb ed hDx hex
  have hexq : ((p : ℚ) / 255 - (q : ℚ) / 255) / (((M : ℚ) - m) / 255)
      = ((p : ℚ) - q) / ((M : ℚ) - m) := by
    have : ((M : ℚ) - m) ≠ 0 := by
      have : (m : ℚ) < M := by exact_mod_cast hne
      linarith
    field_simp
  rw [hexq] at eρ
  have h0 : 0 ≤ ρ + off := by
    rcases hlo with h | ⟨h, hqp⟩
    · linarith
    · have := ρpos (mono q p hqp)
      linarith
  have h6 : ρ + off ≤ 6 := by
    rcases hhi with h | ⟨h, hpq⟩
    · linarith
    · have := ρneg (mono p q hpq)
      linarith
  obtain ⟨hadd, a0, a6, ea⟩ := hue_add ρ off h0 h6
  have e6 : |binary32.rnd (ρ + off) - (((p : ℚ) - q) / ((M : ℚ) - m) + off)| ≤ 1029 / 2 ^ 24 := by
    have e : |ρ + off - (((p : ℚ) - q) / ((M : ℚ) - m) + off)| ≤ 1025 / 2 ^ 24 := by
      rw [show ρ + off - (((p : ℚ) - q) / ((M : ℚ) - m) + off)
        = ρ - ((p : ℚ) - q) / ((M : ℚ) - m) by ring]
      exact eρ
    refine (abs_sub_le_add ea e).trans ?_
    norm_num
  obtain ⟨hue, hhue, u0, u1, eu⟩ := hue_tail _ _ a0 a6 e6
  exact ⟨hue, by rw [hρ, hadd, hhue], u0, u1, eu⟩

/-- The conversion `rgb_to_hsl` of a valid colour that is not a gray: hue in
`[0, 360]`, saturation and lightness in `[0, 1]`, each close to its exact value. -/
theorem rgb_to_hsl_chromatic (r g b M m : ℤ) (hr0 : 0 ≤ r) (hr1 : r ≤ 255) (hg0 : 0 ≤ g)
    (hg1 : g ≤ 255) (hb0 : 0 ≤ b) (hb1 : b ≤ 255) (hM : M = max (max r g) b)
    (hm : m = min (min r g) b) (hne : m < M) :
    ∃ hue s l : ℚ, rgb_to_hsl ⟨r, g, b⟩ = ⟨Fp.fin hue, Fp.fin s, Fp.fin l⟩ ∧
      0 ≤ hue ∧ hue ≤ 360 ∧ 0 ≤ s ∧ s ≤ 1 ∧ 0 ≤ l ∧ l ≤ 1 ∧
      |hue / 60 - huePos r g b| ≤ 1 / 2 ^ 13 ∧
      |(1 - |2 * l - 1|) * s - ((M : ℚ) - m) / 255| ≤ 1 / 2 ^ 13 ∧
      |l - ((M : ℚ) + m) / 510| ≤ 3 / 2 ^ 24 := by
  have hm0 : 0 ≤ m := by omega
  have hM1 : M ≤ 255 := by omega
  obtain ⟨qr, -, -, -⟩ := channel_quot r hr0 hr1
  obtain ⟨qg, -, -, -⟩ := channel_quot g hg0 hg1
  obtain ⟨qb, -, -, -⟩ := channel_quot b hb0 hb1
  obtain ⟨-, eM, M0, M1⟩ := channel_quot M (by omega) hM1
  obtain ⟨-, em, m0, m1⟩ := channel_quot m hm0 (by omega)
  have hgap := chan_gap m M hm0 hM1 hne
  obtain ⟨hd, -, -, -, hDx⟩ := chroma_float M m hm0 hM1 hne
  have hmM : binary32.rnd ((m : ℚ) / 255) ≤ binary32.rnd ((M : ℚ) / 255) := by linarith
  obtain ⟨hS, hl, -, -, -, el, l0, l1⟩ := lightness_chromatic _ _ _ _ eM em m0 hmM M1
  have hMq1 : (M : ℚ) / 255 ≤ 1 := by
    rw [div_le_one (by norm_num)]; exact_mod_cast hM1
  have hmq0 : (0 : ℚ) ≤ (m : ℚ) / 255 := by
    have : (0 : ℚ) ≤ m := by exact_mod_cast hm0
    positivity
  obtain ⟨s, hs, s0, s1, es⟩ := sat_chromatic _ _ _ _ eM em m0 hmM M1 hmq0 hMq1
    (by rw [← sub_div]; exact hDx)
  -- the hue, by the branch taken
  have hhue : ∃ hue : ℚ,
      fmul (fdiv (if Fp.eq (Fp.fin (binary32.rnd ((M : ℚ) / 255)))
            (Fp.fin (binary32.rnd ((r : ℚ) / 255))) then
          fadd (fdiv (fsub (Fp.fin (binary32.rnd ((g : ℚ) / 255)))
              (Fp.fin (binary32.rnd ((b : ℚ) / 255))))
            (Fp.fin (binary32.rnd (binary32.rnd ((M : ℚ) / 255) - binary32.rnd ((m : ℚ) / 255)))))
            (if Fp.lt (Fp.fin (binary32.rnd ((g : ℚ) / 255)))
              (Fp.fin (binary32.rnd ((b : ℚ) / 255))) then flt 6 else flt 0)
        else if Fp.eq (Fp.fin (binary32.rnd ((M : ℚ) / 255)))
            (Fp.fin (binary32.rnd ((g : ℚ) / 255))) then
          fadd (fdiv (fsub (Fp.fin (binary32.rnd ((b : ℚ) / 255)))
              (Fp.fin (binary32.rnd ((r : ℚ) / 255))))
            (Fp.fin (binary32.rnd (binary32.rnd ((M : ℚ) / 255) - binary32.rnd ((m : ℚ) / 255)))))
            (flt 2)
        else
          fadd (fdiv (fsub (Fp.fin (binary32.rnd ((r : ℚ) / 255)))
              (Fp.fin (binary32.rnd ((g : ℚ) / 255))))
            (Fp.fin (binary32.rnd (binary32.rnd ((M : ℚ) / 255) - binary32.rnd ((m : ℚ) / 255)))))
            (flt 4)) (flt 6)) (flt 360) = Fp.fin hue ∧
      0 ≤ hue ∧ hue ≤ 360 ∧ |hue / 60 - huePos r g b| ≤ 1 / 2 ^ 13 := by
    have hpos : huePos r g b
        = if M = r then ((g : ℚ) - b) / ((M : ℚ) - m) + (if g < b then 6 else 0)
          else if M = g then ((b : ℚ) - r) / ((M : ℚ) - m) + 2
          else ((r : ℚ) - g) / ((M : ℚ) - m) + 4 := by
      unfold huePos
      simp only [← hM, ← hm]
    have eqr : Fp.eq (Fp.fin (binary32.rnd ((M : ℚ) / 255)))
        (Fp.fin (binary32.rnd ((r : ℚ) / 255))) = decide (M = r) := by
      simp only [Fp.eq]
      exact decide_eq_decide.mpr (chan_eq_iff M r (by omega) hM1 hr0 hr1)
    have eqg : Fp.eq (Fp.fin (binary32.rnd ((M : ℚ) / 255)))
        (Fp.fin (binary32.rnd ((g : ℚ) / 255))) = decide (M = g) := by
      simp only [Fp.eq]
      exact decide_eq_decide.mpr (chan_eq_iff M g (by omega) hM1 hg0 hg1)
    have ltgb : Fp.lt (Fp.fin (binary32.rnd ((g : ℚ) / 255)))
        (Fp.fin (binary32.rnd ((b : ℚ) / 255))) = decide (g < b) := by
      simp only [Fp.lt]
      exact decide_eq_decide.mpr (chan_lt_iff g b hg0 hb1)
    rw [eqr, eqg, ltgb, hpos]
    simp only [decide_eq_true_eq]
    by_cases c1 : M = r
    · rw [if_pos c1, if_pos c1]
      by_cases c2 : g < b
      · rw [if_pos c2, if_pos c2]
        exact hue_branch g b M m (by omega) (by omega) (by omega) (by omega) hm0 hM1 hne 6
          (Or.inl (by norm_num)) (Or.inr ⟨le_rfl, by omega⟩)
      · rw [if_neg c2, if_neg c2]
        exact hue_branch g b M m (by omega) (by omega) (by omega) (by omega) hm0 hM1 hne 0
          (Or.inr ⟨le_rfl, by omega⟩) (Or.inl (by norm_num))
    · rw [if_neg c1, if_neg c1]
      by_cases c3 : M = g
      · rw [if_pos c3, if_pos c3]
        exact hue_branch b r M m (by omega) (by omega) (by omega) (by omega) hm0 hM1 hne 2
          (Or.inl (by norm_num)) (Or.inl (by norm_num))
      · rw [if_neg c3, if_neg c3]
        exact hue_branch r g M m (by omega) (by omega) (by omega) (by omega) hm0 hM1 hne 4
          (Or.inl (by norm_num)) (Or.inl (by norm_num))
  obtain ⟨hue, hhue, u0, u1, eu⟩ := hhue
  have hneq : Fp.eq (Fp.fin (binary32.rnd ((M : ℚ) / 255)))
      (Fp.fin (binary32.rnd ((m : ℚ) / 255))) = false := by
    simp only [Fp.eq, decide_eq_false_iff_not]
    intro h
    rw [h] at hgap
    norm_num at hgap
  refine ⟨hue, s, _, ?_, u0, u1, s0, s1, l0, l1, eu, ?_, ?_⟩
  · unfold rgb_to_hsl
    simp only [qr, qg, qb, fmax_fin, fmin_fin, chan_max, chan_min, ← hM, ← hm]
    rw [hS, hl, hneq]
    simp only [Bool.false_eq_true, if_false, hd]
    rw [hs, hhue]
  · rw [← sub_div] at es
    exact es
  · have e : ((M : ℚ) + m) / 510 = ((M : ℚ) / 255 + (m : ℚ) / 255) / 2 := by ring
    rw [e]
    exact el

/-! ### The round trip RGB to HSL to RGB -/

/-- The value of a channel before truncation is within less than `1` of the
channel it comes from. -/
theorem round_trip_err {v T w u l Dx L n : ℚ}
    (hv : |v - 255 * (T * w + (l - T / 2))| ≤ 1 / 2 ^ 10) (hT : |T - Dx| ≤ 1 / 2 ^ 13)
    (hw : |w - u| ≤ 1 / 2 ^ 13) (hw0 : 0 ≤ w) (hw1 : w ≤ 1) (hD0 : 0 ≤ Dx) (hD1 : Dx ≤ 1)
    (hl : |l - L| ≤ 3 / 2 ^ 24) (hex : Dx * u + (L - Dx / 2) = n / 255) :
    |v - n| < 1 := by
  have p1 : |(T - Dx) * w| ≤ 1 / 2 ^ 13 := by
    rw [mul_comm]
    exact abs_mul_le_of_le_one (by rw [abs_of_nonneg hw0]; exact hw1) hT
  have p2 : |Dx * (w - u)| ≤ 1 / 2 ^ 13 :=
    abs_mul_le_of_le_one (by rw [abs_of_nonneg hD0]; exact hD1) hw
  have hn : n = 255 * (Dx * u + (L - Dx / 2)) := by rw [hex]; ring
  have key : v - n = (v - 255 * (T * w + (l - T / 2)))
      + 255 * ((T - Dx) * w + Dx * (w - u) + (l - L) - (T - Dx) / 2) := by
    rw [hn]; ring
  obtain ⟨a1, a2⟩ := abs_le.mp hv
  obtain ⟨b1, b2⟩ := abs_le.mp hT
  obtain ⟨c1, c2⟩ := abs_le.mp p1
  obtain ⟨d1, d2⟩ := abs_le.mp p2
  obtain ⟨e1, e2⟩ := abs_le.mp hl
  rw [key, abs_lt]
  norm_num at a1 a2 b1 b2 c1 c2 d1 d2 e1 e2 ⊢
  constructor <;> linarith

/-- The round trip through HSL changes each channel of a valid colour by at most `1`. -/
theorem round_trip_channels (r g b : ℤ) (hr0 : 0 ≤ r) (hr1 : r ≤ 255) (hg0 : 0 ≤ g)
    (hg1 : g ≤ 255) (hb0 : 0 ≤ b) (hb1 : b ≤ 255) :
    ∃ c : RGB, hsl_to_rgb (rgb_to_hsl ⟨r, g, b⟩) = some c ∧
      |c.r - r| ≤ 1 ∧ |c.g - g| ≤ 1 ∧ |c.b - b| ≤ 1 := by
  by_cases hgray : r = g ∧ g = b
  · obtain ⟨rfl, rfl⟩ := hgray
    obtain ⟨-, ex, x0, x1⟩ := channel_quot r hr0 hr1
    rw [rgb_to_hsl_gray_eq r hr0 hr1]
    obtain ⟨vr, vg, vb, heq, er, eg, eb⟩ :=
      hsl_to_rgb_approx 0 0 (binary32.rnd ((r : ℚ) / 255)) le_rfl (by norm_num) le_rfl
        (by norm_num) x0 x1
    have hl : |binary32.rnd ((r : ℚ) / 255) - (r : ℚ) / 255| ≤ 3 / 2 ^ 24 :=
      ex.trans (by norm_num)
    have hT : |(1 - |2 * binary32.rnd ((r : ℚ) / 255) - 1|) * 0 - 0| ≤ 1 / 2 ^ 13 := by
      norm_num
    have hex : ∀ w : ℚ, 0 * w + ((r : ℚ) / 255 - 0 / 2) = (r : ℚ) / 255 := fun w => by ring
    have hself : ∀ w : ℚ, |w - w| ≤ 1 / 2 ^ 13 := fun w => by
      rw [sub_self, abs_zero]; norm_num
    have nr := round_trip_err (u := hueRed (0 / 60)) er hT (hself _) (hueRed_nonneg _)
      (hueRed_le_one _) le_rfl (by norm_num) hl (hex _)
    have ng := round_trip_err (u := hueGreen (0 / 60)) eg hT (hself _) (hueGreen_nonneg _)
      (hueGreen_le_one _) le_rfl (by norm_num) hl (hex _)
    have nb := round_trip_err (u := hueBlue (0 / 60)) eb hT (hself _) (hueBlue_nonneg _)
      (hueBlue_le_one _) le_rfl (by norm_num) hl (hex _)
    exact ⟨_, heq, (clamp_trunc_near vr r hr0 hr1 nr).2, (clamp_trunc_near vg r hr0 hr1 ng).2,
      (clamp_trunc_near vb r hr0 hr1 nb).2⟩
  · have hne : min (min r g) b < max (max r g) b := by omega
    obtain ⟨hue, s, l, heq, u0, u1, s0, s1, l0, l1, eu, eT, el⟩ :=
      rgb_to_hsl_chromatic r g b _ _ hr0 hr1 hg0 hg1 hb0 hb1 rfl rfl hne
    obtain ⟨-, -, xr, xg, xb⟩ := hue_exact r g b _ _ rfl rfl hne
    obtain ⟨vr, vg, vb, heq2, er, eg, eb⟩ := hsl_to_rgb_approx hue s l u0 u1 s0 s1 l0 l1
    rw [heq]
    have hD0 : (0 : ℚ) ≤ (((max (max r g) b : ℤ) : ℚ) - ((min (min r g) b : ℤ) : ℚ)) / 255 := by
      have : ((min (min r g) b : ℤ) : ℚ) ≤ ((max (max r g) b : ℤ) : ℚ) := by exact_mod_cast hne.le
      apply div_nonneg _ (by norm_num)
      linarith
    have hD1 : (((max (max r g) b : ℤ) : ℚ) - ((min (min r g) b : ℤ) : ℚ)) / 255 ≤ 1 := by
      have h1 : ((max (max r g) b : ℤ) : ℚ) ≤ 255 := by
        have : max (max r g) b ≤ 255 := by omega
        exact_mod_cast this
      have h2 : (0 : ℚ) ≤ ((min (min r g) b : ℤ) : ℚ) := by
        have : 0 ≤ min (min r g) b := by omega
        exact_mod_cast this
      rw [div_le_one (by norm_num)]
      linarith
    generalize ((max (max r g) b : ℤ) : ℚ) = Mq at eT el xr xg xb hD0 hD1
    generalize ((min (min r g) b : ℤ) : ℚ) = mq at eT el xr xg xb hD0 hD1
    have hmid : ∀ w : ℚ, (Mq - mq) / 255 * w + mq / 255
        = (Mq - mq) / 255 * w + ((Mq + mq) / 510 - (Mq - mq) / 255 / 2) := fun w => by ring
    rw [hmid] at xr xg xb
    have nr := round_trip_err er eT ((hueRed_lipschitz _ _).trans eu) (hueRed_nonneg _)
      (hueRed_le_one _) hD0 hD1 el xr
    have ng := round_trip_err eg eT ((hueGreen_lipschitz _ _).trans eu) (hueGreen_nonneg _)
      (hueGreen_le_one _) hD0 hD1 el xg
    have nb := round_trip_err eb eT ((hueBlue_lipschitz _ _).trans eu) (hueBlue_nonneg _)
      (hueBlue_le_one _) hD0 hD1 el xb
    exact ⟨_, heq2, (clamp_trunc_near vr r hr0 hr1 nr).2, (clamp_trunc_near vg g hg0 hg1 ng).2,
      (clamp_trunc_near vb b hb0 hb1 nb).2⟩

/-- C1: for every valid RGB colour, converting to HSL and back succeeds and
changes each channel by at most `1`. -/
theorem hsl_round_trip (c : RGB) (h : c.valid) :
    ∃ c' : RGB, hsl_to_rgb (rgb_to_hsl c) = some c' ∧
      |c'.r - c.r| ≤ 1 ∧ |c'.g - c.g| ≤ 1 ∧ |c'.b - c.b| ≤ 1 := by
  obtain ⟨r0, r1, g0, g1, b0, b1⟩ := h
  exact round_trip_channels c.r c.g c.b r0 r1 g0 g1 b0 b1

/-- Witness of C1 at the colour `(10, 20, 30)`. -/
theorem hsl_round_trip_witness :
    ∃ c' : RGB, hsl_to_rgb (rgb_to_hsl ⟨10, 20, 30⟩) = some c' ∧
      |c'.r - 10| ≤ 1 ∧ |c'.g - 20| ≤ 1 ∧ |c'.b - 30| ≤ 1 :=
  hsl_round_trip ⟨10, 20, 30⟩ (by decide)

/-! ### Escape sequences and the gradient loop -/

/-- C15: for every colour and every already formatted text, `c_rgbf` writes on
standard output exactly ESC `[38;2;`, the three channels in decimal separated
by `;`, the letter `m`, then the text, then ESC `[0m`, and writes nothing on the
error stream; `c_rgbf(RGB(10,20,30), "x")` writes `\x1b[38;2;10;20;30mx\x1b[0m`. -/
theorem c_rgbf_bytes (color : RGB) (text : String) :
    (c_rgbf color text).out
        = "\x1b[38;2;" ++ toString color.r ++ ";" ++ toString color.g ++ ";"
            ++ toString color.b ++ "m" ++ text ++ "\x1b[0m" ∧
      (c_rgbf color text).err = "" ∧
      c_rgbf ⟨10, 20, 30⟩ "x" = ⟨"\x1b[38;2;10;20;30mx\x1b[0m", ""⟩ :=
  ⟨rfl, rfl, by decide⟩

/-- One iteration of the loop of `c_gradf` prints the colour `gradColor` gives
for the index, then the character, then what the rest of the loop prints. -/
theorem gradLoop_cons (colors : List RGB) (color_count len : ℤ) (i : ℕ) (ch : Char)
    (rest : List Char) :
    gradLoop colors color_count len i (ch :: rest)
      = (gradColor colors color_count len i).bind fun c =>
          (gradLoop colors color_count len (i + 1) rest).map fun tail =>
            sgrTrueColor c.r c.g c.b ++ String.singleton ch ++ tail := by
  simp only [gradLoop, gradColor, Option.bind_assoc, Option.some_bind]

theorem i2f_zero : i2f 0 = Fp.fin 0 := by
  simpa using i2f_small 0 (by norm_num)

theorem fmul_nan (x : Fp) : fmul Fp.nan x = Fp.nan := by
  cases x <;> rfl

/-- The position of the only character of a text of length one is `0 / 0`, a
NaN, whose conversion to `int` is undefined. -/
theorem gradSeg_single (color_count : ℤ) : gradSeg color_count 1 0 = none := by
  have h : fdiv (i2f ((0 : ℕ) : ℤ)) (i2f (1 - 1)) = Fp.nan := by
    simp [i2f_zero, fdiv, Fp.div]
  simp only [gradSeg]
  rw [h, fmul_nan]
  rfl

/-- The conversion of a positive `int` below `2 ^ 31` to `float` is finite and at
least one. -/
theorem i2f_pos (n : ℤ) (h1 : 1 ≤ n) (h2 : n < 2 ^ 31) :
    ∃ q : ℚ, i2f n = Fp.fin q ∧ 1 ≤ q := by
  have hq : |(n : ℚ)| ≤ 2 ^ 64 := by
    rw [abs_of_nonneg (by exact_mod_cast (by omega : (0 : ℤ) ≤ n))]
    have : (n : ℚ) < 2 ^ 31 := by exact_mod_cast h2
    linarith [show (2 : ℚ) ^ 31 ≤ 2 ^ 64 by norm_num]
  refine ⟨binary32.rnd n, ?_, ?_⟩
  · simp only [i2f, Fp.ofInt]
    exact round32_fin hq
  · have := binary32.rnd_mono (by decide) (show (1 : ℚ) ≤ n by exact_mod_cast h1)
    rwa [rnd32_one] at this

/-- At the last character the position is exactly `color_count - 1`, so the
segment index is `color_count - 1`. -/
theorem gradSeg_last (color_count : ℤ) (len : ℕ) (hN : 2 ≤ color_count)
    (hN2 : color_count ≤ 2 ^ 24) (hL : 2 ≤ len) (hL2 : len < 2 ^ 31) :
    gradSeg color_count len (len - 1) = some (color_count - 1) := by
  have hcast : (((len - 1 : ℕ) : ℤ)) = (len : ℤ) - 1 := by omega
  obtain ⟨q, hq, hq1⟩ := i2f_pos ((len : ℤ) - 1) (by omega) (by omega)
  have hq0 : q ≠ 0 := by linarith
  have ht : fdiv (Fp.fin q) (Fp.fin q) = Fp.fin 1 := by
    rw [fdiv_fin hq0 (by rw [div_self hq0]; norm_num), div_self hq0, rnd32_one]
  have hn : i2f (color_count - 1) = Fp.fin ((color_count - 1 : ℤ) : ℚ) :=
    i2f_small _ (by rw [abs_of_nonneg (by omega)]; omega)
  have hb : |(1 : ℚ) * ((color_count - 1 : ℤ) : ℚ)| ≤ 2 ^ 64 := by
    rw [one_mul, abs_of_nonneg (by exact_mod_cast (by omega : (0 : ℤ) ≤ color_count - 1))]
    have : ((color_count - 1 : ℤ) : ℚ) ≤ 2 ^ 24 := by exact_mod_cast (by omega : color_count - 1 ≤ 2 ^ 24)
    linarith [show (2 : ℚ) ^ 24 ≤ 2 ^ 64 by norm_num]
  simp only [gradSeg]
  rw [hcast, hq, ht, hn, fmul_fin hb, one_mul,
    rnd32_int _ (by rw [abs_of_nonneg (by omega)]; omega)]
  rw [toInt_fin, truncQ_intCast]
  · rw [truncQ_intCast]; unfold INT_MIN; omega
  · rw [truncQ_intCast]; unfold INT_MAX; omega

theorem gradColor_eq_bind (colors : List RGB) (color_count len : ℤ) (i : ℕ) :
    gradColor colors color_count len i
      = (gradSeg color_count len i).bind fun seg =>
          (readStop colors seg).bind fun s =>
          (readStop colors (seg + 1)).bind fun e =>
          (gradChannel (fsub (fmul (fdiv (i2f i) (i2f (len - 1))) (i2f (color_count - 1)))
              (i2f seg)) s.r e.r).bind fun r =>
          (gradChannel (fsub (fmul (fdiv (i2f i) (i2f (len - 1))) (i2f (color_count - 1)))
              (i2f seg)) s.g e.g).bind fun g =>
          (gradChannel (fsub (fmul (fdiv (i2f i) (i2f (len - 1))) (i2f (color_count - 1)))
              (i2f seg)) s.b e.b).bind fun b =>
          some ⟨r, g, b⟩ := rfl

/-- The read `colors[color_count]` of an array of exactly `color_count` stops is
outside the array. -/
theorem readStop_past (colors : List RGB) (color_count : ℤ)
    (hlen : (colors.length : ℤ) = color_count) :
    readStop colors (color_count - 1 + 1) = none := by
  have h0 : 0 ≤ color_count := by rw [← hlen]; exact Int.natCast_nonneg _
  have h1 : color_count.toNat = colors.length := by omega
  simp only [readStop, sub_add_cancel, h0, if_true, h1]
  exact List.get?_eq_none.mpr (le_refl _)

/-- The colour of the only character of a text of length one is undefined. -/
theorem gradColor_single (colors : List RGB) (color_count : ℤ) :
    gradColor colors color_count 1 0 = none := by
  rw [gradColor_eq_bind, gradSeg_single]
  rfl

/-- A read inside the stops returns one of them, whatever follows them in memory. -/
theorem readStop_stop (stops rest : List RGB) (k : ℤ) (hk0 : 0 ≤ k)
    (hk : k < (stops.length : ℤ)) :
    ∃ s : RGB, readStop (stops ++ rest) k = some s ∧ stops.get? k.toNat = some s ∧ s ∈ stops := by
  have h : k.toNat < stops.length := by omega
  have hget : stops.get? k.toNat = some (stops.get ⟨k.toNat, h⟩) := List.get?_eq_get h
  refine ⟨stops.get ⟨k.toNat, h⟩, ?_, hget, List.get_mem _ _ h⟩
  simp only [readStop, hk0, if_true]
  rw [List.get?_eq_getElem?, List.getElem?_append_left h, ← List.get?_eq_getElem?, hget]

/-- The read just after the stops returns the element that follows them. -/
theorem readStop_after (stops : List RGB) (e : RGB) (tail : List RGB) (k : ℤ)
    (hk : k = (stops.length : ℤ)) : readStop (stops ++ e :: tail) k = some e := by
  have h0 : 0 ≤ k := by rw [hk]; exact Int.natCast_nonneg _
  have h1 : k.toNat = stops.length := by omega
  simp only [readStop, h0, if_true, h1]
  rw [List.get?_eq_getElem?, List.getElem?_append_right (le_refl _), Nat.sub_self]
  exact List.getElem?_cons_zero

/-- The conversion of an `int` to `float` is finite, of magnitude at most `2 ^ 31`. -/
theorem i2f_fin (n : ℤ) (h1 : INT_MIN ≤ n) (h2 : n ≤ INT_MAX) :
    i2f n = Fp.fin (binary32.rnd n) ∧ |binary32.rnd (n : ℚ)| ≤ 2 ^ 31 := by
  have h1' : (-2147483648 : ℤ) ≤ n := h1
  have h2' : n ≤ (2147483647 : ℤ) := h2
  have a : (-2147483648 : ℚ) ≤ n := by exact_mod_cast h1'
  have b : (n : ℚ) ≤ 2147483647 := by exact_mod_cast h2'
  have hq : |(n : ℚ)| ≤ 2 ^ 31 := by
    rw [abs_le]; constructor <;> norm_num <;> linarith
  have hp : binary32.rnd ((2 : ℚ) ^ 31) = 2 ^ 31 := by
    have := binary32.rnd_pow2 (by decide) 31 (by decide)
    exact_mod_cast this
  refine ⟨?_, binary32.abs_rnd_le (by decide) hp hq⟩
  simp only [i2f, Fp.ofInt]
  exact round32_fin (hq.trans (by norm_num))

/-- The colour of a character from the parts of its computation. -/
theorem gradColor_of_parts (colors : List RGB) (color_count len : ℤ) (i : ℕ) (P : ℚ) (K : ℤ)
    (F : ℚ) (s E : RGB) (r g b : ℤ)
    (hp : fmul (fdiv (i2f i) (i2f (len - 1))) (i2f (color_count - 1)) = Fp.fin P)
    (hK : Fp.toInt (Fp.fin P) = some K) (hF : fsub (Fp.fin P) (i2f K) = Fp.fin F)
    (hs : readStop colors K = some s) (hE : readStop colors (K + 1) = some E)
    (hr : gradChannel (Fp.fin F) s.r E.r = some r) (hg : gradChannel (Fp.fin F) s.g E.g = some g)
    (hb : gradChannel (Fp.fin F) s.b E.b = some b) :
    gradColor colors color_count len i = some ⟨r, g, b⟩ := by
  simp only [gradColor, hp, hK, Option.some_bind, hF, hs, hE, hr, hg, hb]

theorem rnd32_512 : binary32.rnd (512 : ℚ) = 512 := by
  simpa using rnd32_natCast 512 (by norm_num)

/-- A gradient channel is defined for a weight in `[0, 1]`, a valid left stop and
a right stop that is valid or, where the weight is `0`, holds any `int`. -/
theorem gradChannel_defined (f : ℚ) (s E : ℤ) (hf0 : 0 ≤ f) (hf1 : f ≤ 1) (hs0 : 0 ≤ s)
    (hs1 : s ≤ 255) (hE0 : INT_MIN ≤ E) (hE1 : E ≤ INT_MAX)
    (hfE : (0 ≤ E ∧ E ≤ 255) ∨ f = 0) : ∃ v : ℤ, gradChannel (Fp.fin f) s E = some v := by
  obtain ⟨hE, hEabs⟩ := i2f_fin E hE0 hE1
  have hS0 : (0 : ℚ) ≤ s := by exact_mod_cast hs0
  have hS1 : (s : ℚ) ≤ 255 := by exact_mod_cast hs1
  -- the weight of the left stop
  have g0 : 0 ≤ binary32.rnd (1 - f) := binary32.rnd_nonneg (by linarith)
  have g1 : binary32.rnd (1 - f) ≤ 1 := binary32.rnd_le_of_le (by decide) rnd32_one (by linarith)
  have hg : fsub (Fp.fin 1) (Fp.fin f) = Fp.fin (binary32.rnd (1 - f)) :=
    fsub_fin (by rw [abs_of_nonneg (by linarith)]; linarith)
  generalize binary32.rnd (1 - f) = g at g0 g1 hg
  -- the left product
  have hgs0 : 0 ≤ g * s := mul_nonneg g0 hS0
  have hgs1 : g * s ≤ 255 := by
    calc g * s ≤ 1 * 255 := mul_le_mul g1 hS1 hS0 (by norm_num)
      _ = 255 := by norm_num
  have hA : fmul (Fp.fin g) (Fp.fin (s : ℚ)) = Fp.fin (binary32.rnd (g * s)) :=
    fmul_fin (by rw [abs_of_nonneg hgs0]; linarith)
  have A0 : 0 ≤ binary32.rnd (g * s) := binary32.rnd_nonneg hgs0
  have A1 : binary32.rnd (g * s) ≤ 255 := binary32.rnd_le_of_le (by decide) rnd32_255 hgs1
  generalize binary32.rnd (g * s) = A at hA A0 A1
  -- the right product
  have hfe : 0 ≤ f * binary32.rnd (E : ℚ) ∧ f * binary32.rnd (E : ℚ) ≤ 255 := by
    rcases hfE with ⟨e0, e1⟩ | hz
    · rw [rnd32_int E (by rw [abs_of_nonneg e0]; omega)]
      have hE0' : (0 : ℚ) ≤ E := by exact_mod_cast e0
      have hE1' : (E : ℚ) ≤ 255 := by exact_mod_cast e1
      refine ⟨mul_nonneg hf0 hE0', ?_⟩
      calc f * E ≤ 1 * 255 := mul_le_mul hf1 hE1' hE0' (by norm_num)
        _ = 255 := by norm_num
    · rw [hz, zero_mul]
      exact ⟨le_rfl, by norm_num⟩
  generalize binary32.rnd (E : ℚ) = Eq at hE hfe
  obtain ⟨fe0, fe1⟩ := hfe
  have hB : fmul (Fp.fin f) (Fp.fin Eq) = Fp.fin (binary32.rnd (f * Eq)) :=
    fmul_fin (by rw [abs_of_nonneg fe0]; linarith)
  have B0 : 0 ≤ binary32.rnd (f * Eq) := binary32.rnd_nonneg fe0
  have B1 : binary32.rnd (f * Eq) ≤ 255 := binary32.rnd_le_of_le (by decide) rnd32_255 fe1
  generalize binary32.rnd (f * Eq) = B at hB B0 B1
  -- the sum
  have hsum : fadd (Fp.fin A) (Fp.fin B) = Fp.fin (binary32.rnd (A + B)) :=
    fadd_fin (by rw [abs_of_nonneg (by linarith)]; linarith)
  have hv : |binary32.rnd (A + B)| ≤ 512 :=
    binary32.abs_rnd_le (by decide) rnd32_512 (by rw [abs_of_nonneg (by linarith)]; linarith)
  refine ⟨truncQ (binary32.rnd (A + B)), ?_⟩
  simp only [gradChannel]
  rw [hg, i2f_channel s hs0 hs1, hE, hA, hB, hsum]
  exact toInt_fin_of_abs_le _ (hv.trans (by norm_num))

/-- The position of a character of a text of at least two characters: a finite
value between `0` and `color_count - 1`. -/
theorem gradPos_range (color_count : ℤ) (len i : ℕ) (hN : 2 ≤ color_count)
    (hN2 : color_count ≤ 2 ^ 24) (hL : 2 ≤ len) (hL2 : len < 2 ^ 31) (hi : i < len) :
    ∃ P : ℚ, fmul (fdiv (i2f (i : ℤ)) (i2f ((len : ℤ) - 1))) (i2f (color_count - 1)) = Fp.fin P ∧
      0 ≤ P ∧ P ≤ ((color_count - 1 : ℤ) : ℚ) := by
  obtain ⟨ha, -⟩ := i2f_fin (i : ℤ) (by unfold INT_MIN; omega) (by unfold INT_MAX; omega)
  obtain ⟨hb, -⟩ := i2f_fin ((len : ℤ) - 1) (by unfold INT_MIN; omega) (by unfold INT_MAX; omega)
  have hi0 : (0 : ℚ) ≤ ((i : ℤ) : ℚ) := by exact_mod_cast (Int.natCast_nonneg i)
  have hil : (((i : ℤ)) : ℚ) ≤ (((len : ℤ) - 1 : ℤ) : ℚ) := by
    exact_mod_cast (by omega : (i : ℤ) ≤ (len : ℤ) - 1)
  have hl1 : (1 : ℚ) ≤ (((len : ℤ) - 1 : ℤ) : ℚ) := by
    exact_mod_cast (by omega : (1 : ℤ) ≤ (len : ℤ) - 1)
  have a0 : 0 ≤ binary32.rnd ((i : ℤ) : ℚ) := binary32.rnd_nonneg hi0
  have ab : binary32.rnd ((i : ℤ) : ℚ) ≤ binary32.rnd (((len : ℤ) - 1 : ℤ) : ℚ) :=
    binary32.rnd_mono (by decide) hil
  have b1 : 1 ≤ binary32.rnd (((len : ℤ) - 1 : ℤ) : ℚ) :=
    binary32.le_rnd_of_le (by decide) rnd32_one hl1
  rw [ha, hb]
  generalize binary32.rnd ((i : ℤ) : ℚ) = a at a0 ab
  generalize binary32.rnd (((len : ℤ) - 1 : ℤ) : ℚ) = b at ab b1
  have hb0 : b ≠ 0 := by linarith
  have q0 : 0 ≤ a / b := div_nonneg a0 (by linarith)
  have q1 : a / b ≤ 1 := by rw [div_le_one (by linarith)]; exact ab
  have ht : fdiv (Fp.fin a) (Fp.fin b) = Fp.fin (binary32.rnd (a / b)) :=
    fdiv_fin hb0 (by rw [abs_of_nonneg q0]; linarith)
  have t0 : 0 ≤ binary32.rnd (a / b) := binary32.rnd_nonneg q0
  have t1 : binary32.rnd (a / b) ≤ 1 := binary32.rnd_le_of_le (by decide) rnd32_one q1
  rw [ht]
  generalize binary32.rnd (a / b) = t at t0 t1
  have hn : i2f (color_count - 1) = Fp.fin ((color_count - 1 : ℤ) : ℚ) :=
    i2f_small _ (by rw [abs_of_nonneg (by omega)]; omega)
  have hrn : binary32.rnd (((color_count - 1 : ℤ)) : ℚ) = ((color_count - 1 : ℤ) : ℚ) :=
    rnd32_int _ (by rw [abs_of_nonneg (by omega)]; omega)
  have n0 : (0 : ℚ) ≤ ((color_count - 1 : ℤ) : ℚ) := by
    exact_mod_cast (by omega : (0 : ℤ) ≤ color_count - 1)
  have n1 : ((color_count - 1 : ℤ) : ℚ) ≤ 2 ^ 24 := by
    exact_mod_cast (by omega : color_count - 1 ≤ 2 ^ 24)
  rw [hn]
  generalize ((color_count - 1 : ℤ) : ℚ) = n at hrn n0 n1
  have p0 : 0 ≤ t * n := mul_nonneg t0 n0
  have p1 : t * n ≤ n := by
    calc t * n ≤ 1 * n := mul_le_mul_of_nonneg_right t1 n0
      _ = n := one_mul n
  refine ⟨binary32.rnd (t * n), fmul_fin ?_, binary32.rnd_nonneg p0,
    binary32.rnd_le_of_le (by decide) hrn p1⟩
  rw [abs_of_nonneg p0]
  linarith [show (2 : ℚ) ^ 24 ≤ 2 ^ 64 by norm_num]

theorem valid_isInt (c : RGB) (h : c.valid) : c.isInt := by
  obtain ⟨a1, a2, a3, a4, a5, a6⟩ := h
  unfold RGB.isInt INT_MIN INT_MAX
  omega

/-- Every iteration of the loop of `c_gradf` on a text of at least two
characters is defined, when the element after the stops is readable: the only
read past the stops has weight `0`. -/
theorem gradColor_defined (stops : List RGB) (e : RGB) (tail : List RGB) (color_count : ℤ)
    (len i : ℕ) (hv : ∀ s ∈ stops, s.valid) (he : e.isInt)
    (hlen : (stops.length : ℤ) = color_count) (hN : 2 ≤ color_count)
    (hN2 : color_count ≤ 2 ^ 24) (hL : 2 ≤ len) (hL2 : len < 2 ^ 31) (hi : i < len) :
    ∃ c : RGB, gradColor (stops ++ e :: tail) color_count (len : ℤ) i = some c := by
  obtain ⟨P, hp, P0, P1⟩ := gradPos_range color_count len i hN hN2 hL hL2 hi
  have hfl := Int.floor_le P
  have hfl2 := Int.lt_floor_add_one P
  have hK0 : 0 ≤ ⌊P⌋ := Int.floor_nonneg.mpr P0
  have hK1 : ⌊P⌋ ≤ color_count - 1 := by
    have : ((⌊P⌋ : ℤ) : ℚ) ≤ ((color_count - 1 : ℤ) : ℚ) := le_trans hfl P1
    exact_mod_cast this
  have htr : truncQ P = ⌊P⌋ := truncQ_of_nonneg P0
  have hK : Fp.toInt (Fp.fin P) = some ⌊P⌋ := by
    rw [toInt_fin (by rw [htr]; unfold INT_MIN; omega) (by rw [htr]; unfold INT_MAX; omega), htr]
  have hd0 : 0 ≤ P - (⌊P⌋ : ℚ) := by linarith
  have hd1 : P - (⌊P⌋ : ℚ) ≤ 1 := by linarith
  have hF : fsub (Fp.fin P) (i2f ⌊P⌋) = Fp.fin (binary32.rnd (P - (⌊P⌋ : ℚ))) := by
    rw [i2f_small ⌊P⌋ (by rw [abs_of_nonneg hK0]; omega),
      fsub_fin (by rw [abs_of_nonneg hd0]; linarith)]
  have F0 : 0 ≤ binary32.rnd (P - (⌊P⌋ : ℚ)) := binary32.rnd_nonneg hd0
  have F1 : binary32.rnd (P - (⌊P⌋ : ℚ)) ≤ 1 :=
    binary32.rnd_le_of_le (by decide) rnd32_one hd1
  obtain ⟨s, hs, -, hsm⟩ := readStop_stop stops (e :: tail) ⌊P⌋ hK0 (by omega)
  obtain ⟨a1, a2, a3, a4, a5, a6⟩ := hv s hsm
  have key : ∀ E : RGB, readStop (stops ++ e :: tail) (⌊P⌋ + 1) = some E → E.isInt →
      (E.valid ∨ binary32.rnd (P - (⌊P⌋ : ℚ)) = 0) →
      ∃ c : RGB, gradColor (stops ++ e :: tail) color_count (len : ℤ) i = some c := by
    intro E hE hEi hcase
    obtain ⟨b1, b2, b3, b4, b5, b6⟩ := hEi
    have cr : (0 ≤ E.r ∧ E.r ≤ 255) ∨ binary32.rnd (P - (⌊P⌋ : ℚ)) = 0 :=
      hcase.imp (fun h => ⟨h.1, h.2.1⟩) id
    have cg : (0 ≤ E.g ∧ E.g ≤ 255) ∨ binary32.rnd (P - (⌊P⌋ : ℚ)) = 0 :=
      hcase.imp (fun h => ⟨h.2.2.1, h.2.2.2.1⟩) id
    have cb : (0 ≤ E.b ∧ E.b ≤ 255) ∨ binary32.rnd (P - (⌊P⌋ : ℚ)) = 0 :=
      hcase.imp (fun h => ⟨h.2.2.2.2.1, h.2.2.2.2.2⟩) id
    obtain ⟨r, hr⟩ := gradChannel_defined _ s.r E.r F0 F1 a1 a2 b1 b2 cr
    obtain ⟨g, hg⟩ := gradChannel_defined _ s.g E.g F0 F1 a3 a4 b3 b4 cg
    obtain ⟨b, hb⟩ := gradChannel_defined _ s.b E.b F0 F1 a5 a6 b5 b6 cb
    exact ⟨⟨r, g, b⟩, gradColor_of_parts _ color_count len i P ⌊P⌋ _ s E r g b hp hK hF hs hE
      hr hg hb⟩
  by_cases hlast : ⌊P⌋ + 1 < (stops.length : ℤ)
  · obtain ⟨E, hE, -, hEm⟩ := readStop_stop stops (e :: tail) (⌊P⌋ + 1) (by omega) hlast
    exact key E hE (valid_isInt E (hv E hEm)) (Or.inl (hv E hEm))
  · have hk : ⌊P⌋ + 1 = (stops.length : ℤ) := by omega
    have hPK : P = (⌊P⌋ : ℚ) := by
      have h1 : ((color_count - 1 : ℤ) : ℚ) = ((⌊P⌋ : ℤ) : ℚ) := by
        exact_mod_cast (by omega : color_count - 1 = ⌊P⌋)
      linarith
    have hz : binary32.rnd (P - (⌊P⌋ : ℚ)) = 0 := by
      rw [← hPK, sub_self, Fmt.rnd_zero]
    exact key e (readStop_after stops e tail _ hk) he (Or.inr hz)

/-- The loop of `c_gradf` over iterations that are all defined prints each
character after the prefix of its colour. -/
theorem gradLoop_stream (colors : List RGB) (color_count len : ℤ) :
    ∀ (rest : List Char) (i : ℕ),
      (∀ j, i ≤ j → j < i + rest.length → ∃ c, gradColor colors color_count len j = some c) →
      ∃ cols : List RGB, cols.length = rest.length ∧
        (∀ k, k < rest.length → gradColor colors color_count len (i + k) = cols.get? k) ∧
        gradLoop colors color_count len i rest = some (gradStream cols rest) := by
  intro rest
  induction rest with
  | nil =>
    intro i _
    exact ⟨[], rfl, fun k hk => absurd hk (Nat.not_lt_zero k), rfl⟩
  | cons ch rest ih =>
    intro i h
    obtain ⟨c, hc⟩ := h i (le_refl i) (by simp only [List.length_cons]; omega)
    obtain ⟨cols, hl, hcols, hloop⟩ := ih (i + 1) (fun j hj1 hj2 =>
      h j (by omega) (by simp only [List.length_cons]; omega))
    refine ⟨c :: cols, by simp only [List.length_cons, hl], ?_, ?_⟩
    · intro k hk
      cases k with
      | zero => rw [Nat.add_zero, hc]; rfl
      | succ k =>
        have hk2 : k < rest.length := by simp only [List.length_cons] at hk; omega
        have := hcols k hk2
        rw [show i + (k + 1) = i + 1 + k by omega, this]
        rfl
    · rw [gradLoop_cons, hc, Option.some_bind, hloop, Option.map_some']
      rfl

/-- C12: for `2 <= color_count <= 2 ^ 24` and a text of `len >= 2` characters the
segment index of the last character is `color_count - 1`, not at most
`color_count - 2`, and the read of `colors[seg + 1]` is outside an array of
`color_count` stops. -/
theorem c_gradf_segment_out_of_bounds (colors : List RGB) (color_count : ℤ) (len : ℕ)
    (hN : 2 ≤ color_count) (hN2 : color_count ≤ 2 ^ 24)
    (hlen : (colors.length : ℤ) = color_count) (hL : 2 ≤ len) (hL2 : len < 2 ^ 31) :
    gradSeg color_count len (len - 1) = some (color_count - 1) ∧
      readStop colors (color_count - 1 + 1) = none :=
  ⟨gradSeg_last color_count len hN hN2 hL hL2, readStop_past colors color_count hlen⟩

theorem c_gradf_segment_out_of_bounds_witness :
    gradSeg 3 (5 : ℕ) (5 - 1) = some (3 - 1) ∧
      readStop [⟨255, 0, 0⟩, ⟨0, 255, 0⟩, ⟨0, 0, 255⟩] (3 - 1 + 1) = none :=
  c_gradf_segment_out_of_bounds [⟨255, 0, 0⟩, ⟨0, 255, 0⟩, ⟨0, 0, 255⟩] 3 5 (by decide)
    (by decide) (by decide) (by decide) (by decide)

/-- C13: for a text of exactly one character and `color_count >= 2`, `c_gradf`
divides `0` by `len - 1 = 0`: the position `t` is a NaN, not `0`, the conversion
of the position to the segment index is undefined, and the call has no defined
result. -/
theorem c_gradf_single_character (colors : List RGB) (color_count : ℤ) (ch : Char)
    (h : 2 ≤ color_count) :
    fdiv (i2f 0) (i2f (1 - 1)) = Fp.nan ∧ gradSeg color_count 1 0 = none ∧
      c_gradf colors color_count [ch] = none := by
  refine ⟨by simp [i2f_zero, fdiv, Fp.div], gradSeg_single color_count, ?_⟩
  simp only [c_gradf, not_lt.mpr h, if_false, List.length_singleton, gradLoop_cons]
  rw [show (((1 : ℕ) : ℤ)) = 1 by norm_num, gradColor_single]
  rfl

theorem c_gradf_single_character_witness :
    fdiv (i2f 0) (i2f (1 - 1)) = Fp.nan ∧ gradSeg 2 1 0 = none ∧
      c_gradf [⟨255, 0, 0⟩, ⟨0, 0, 255⟩] 2 ['A'] = none :=
  c_gradf_single_character [⟨255, 0, 0⟩, ⟨0, 0, 255⟩] 2 'A' (by decide)

/-- C14: for `color_count >= 2` valid stops, `c_gradf` writes exactly one reset
for the empty text; for a text of at least two characters it writes, in text
order, each character after the true-colour prefix of its colour and then
exactly one reset (the element `e` read after the stops at the last character
has weight `0`); but for a text of exactly one character it divides `0` by `0`
and no stream is defined. -/
theorem c_gradf_stream (stops : List RGB) (e : RGB) (tail : List RGB) (color_count : ℤ)
    (text : List Char) (hv : ∀ s ∈ stops, s.valid) (he : e.isInt)
    (hlen : (stops.length : ℤ) = color_count) (hN : 2 ≤ color_count)
    (hN2 : color_count ≤ 2 ^ 24) (hL2 : text.length < 2 ^ 31) :
    (text = [] → c_gradf (stops ++ e :: tail) color_count text = some ⟨"\x1b[0m", ""⟩) ∧
    (text.length = 1 → c_gradf (stops ++ e :: tail) color_count text = none) ∧
    (2 ≤ text.length → ∃ cols : List RGB, cols.length = text.length ∧
      (∀ k, k < text.length →
        gradColor (stops ++ e :: tail) color_count text.length k = cols.get? k) ∧
      c_gradf (stops ++ e :: tail) color_count text
        = some ⟨gradStream cols text ++ "\x1b[0m", ""⟩) := by
  refine ⟨?_, ?_, ?_⟩
  · intro h
    subst h
    simp only [c_gradf, not_lt.mpr hN, if_false, gradLoop]
    rfl
  · intro h
    obtain ⟨ch, rfl⟩ := List.length_eq_one.mp h
    simp only [c_gradf, not_lt.mpr hN, if_false, List.length_singleton, gradLoop_cons]
    rw [show (((1 : ℕ) : ℤ)) = 1 by norm_num, gradColor_single]
    rfl
  · intro hL
    obtain ⟨cols, hl, hc, hloop⟩ := gradLoop_stream (stops ++ e :: tail) color_count
      text.length text 0 (fun j _ hj =>
        gradColor_defined stops e tail color_count text.length j hv he hlen hN hN2 hL hL2
          (by omega))
    refine ⟨cols, hl, fun k hk => ?_, ?_⟩
    · have := hc k hk
      rwa [Nat.zero_add] at this
    · simp only [c_gradf, not_lt.mpr hN, if_false, hloop, Option.map_some']
      rfl

theorem c_gradf_stream_witness :
    (∃ cols : List RGB, cols.length = 5 ∧
      c_gradf ([⟨255, 0, 0⟩, ⟨0, 255, 0⟩, ⟨0, 0, 255⟩] ++ ⟨-5, 1000, 2147483647⟩ :: []) 3
          ['A', 'B', 'C', 'D', 'E']
        = some ⟨gradStream cols ['A', 'B', 'C', 'D', 'E'] ++ "\x1b[0m", ""⟩) ∧
      c_gradf ([⟨255, 0, 0⟩, ⟨0, 255, 0⟩, ⟨0, 0, 255⟩] ++ ⟨-5, 1000, 2147483647⟩ :: []) 3 ['A']
        = none := by
  obtain ⟨cols, hl, -, hs⟩ :=
    (c_gradf_stream [⟨255, 0, 0⟩, ⟨0, 255, 0⟩, ⟨0, 0, 255⟩] ⟨-5, 1000, 2147483647⟩ [] 3
      ['A', 'B', 'C', 'D', 'E'] (by decide) (by decide) (by decide) (by decide) (by decide)
      (by decide)).2.2 (by decide)
  exact ⟨⟨cols, hl, hs⟩,
    (c_gradf_stream [⟨255, 0, 0⟩, ⟨0, 255, 0⟩, ⟨0, 0, 255⟩] ⟨-5, 1000, 2147483647⟩ [] 3
      ['A'] (by decide) (by decide) (by decide) (by decide) (by decide)
      (by decide)).2.1 (by decide)⟩

/-- Where the array holds one more readable element after the three stops, the
call of the example is defined and prints five coloured characters and one
reset, the last character in the colour of the last stop. -/
theorem c_gradf_example_with_readable_tail :
    c_gradf [⟨255, 0, 0⟩, ⟨0, 255, 0⟩, ⟨0, 0, 255⟩, ⟨0, 0, 0⟩] 3 ['A', 'B', 'C', 'D', 'E']
      = some ⟨"\x1b[38;2;255;0;0mA\x1b[38;2;127;127;0mB\x1b[38;2;0;255;0mC\x1b[38;2;0;127;127mD\x1b[38;2;0;0;255mE\x1b[0m", ""⟩ := by
  decide!

/-! ### The ranges of `rgb_to_hsl` -/

/-- The exact hue position of a colour that is not a gray stays `1 / 255` below
six: in the sixth sector the numerator `g - b` is at most `-1`. -/
theorem huePos_le (r g b M m : ℤ) (hr0 : 0 ≤ r) (hg0 : 0 ≤ g) (hb0 : 0 ≤ b)
    (hM : M = max (max r g) b) (hm : m = min (min r g) b) (hM1 : M ≤ 255) (hne : m < M) :
    huePos r g b ≤ 6 - 1 / 255 := by
  have hD : (0 : ℚ) < (M : ℚ) - m := by
    have : (m : ℚ) < M := by exact_mod_cast hne
    linarith
  have hD1 : (M : ℚ) - m ≤ 255 := by
    have h1 : (M : ℚ) ≤ 255 := by exact_mod_cast hM1
    have h2 : (0 : ℚ) ≤ m := by exact_mod_cast (by omega : (0 : ℤ) ≤ m)
    linarith
  have hpos : huePos r g b
      = if M = r then ((g : ℚ) - b) / ((M : ℚ) - m) + (if g < b then 6 else 0)
        else if M = g then ((b : ℚ) - r) / ((M : ℚ) - m) + 2
        else ((r : ℚ) - g) / ((M : ℚ) - m) + 4 := by
    unfold huePos
    simp only [← hM, ← hm]
  have cast_le : ∀ x y : ℤ, x ≤ y → (x : ℚ) ≤ y := fun x y h => by exact_mod_cast h
  have hrM := cast_le r M (by omega)
  have hgM := cast_le g M (by omega)
  have hbM := cast_le b M (by omega)
  have hmr := cast_le m r (by omega)
  have hmg := cast_le m g (by omega)
  have hmb := cast_le m b (by omega)
  have one : ∀ x y : ℚ, x ≤ M → (m : ℚ) ≤ y → (x - y) / ((M : ℚ) - m) ≤ 1 := by
    intro x y hx hy
    rw [div_le_one hD]
    linarith
  rw [hpos]
  split_ifs with c1 c2 c3
  · have hgb : (g : ℚ) + 1 ≤ b := by exact_mod_cast c2
    have : ((g : ℚ) - b) / ((M : ℚ) - m) ≤ -(1 / 255) := by
      rw [div_le_iff₀ hD]
      linarith
    linarith
  · have := one g b hgM hmb
    linarith
  · have := one b r hbM hmr
    linarith
  · have := one r g hrM hmg
    linarith

/-- The conversion `rgb_to_hsl` of a valid colour: finite hue in `[0, 360)`,
saturation and lightness in `[0, 1]`, lightness close to `(max + min) / 510`. -/
theorem rgb_to_hsl_range (r g b : ℤ) (hr0 : 0 ≤ r) (hr1 : r ≤ 255) (hg0 : 0 ≤ g)
    (hg1 : g ≤ 255) (hb0 : 0 ≤ b) (hb1 : b ≤ 255) :
    ∃ hue s l : ℚ, rgb_to_hsl ⟨r, g, b⟩ = ⟨Fp.fin hue, Fp.fin s, Fp.fin l⟩ ∧
      0 ≤ hue ∧ hue < 360 ∧ 0 ≤ s ∧ s ≤ 1 ∧ 0 ≤ l ∧ l ≤ 1 ∧
      |l - (((max (max r g) b : ℤ) : ℚ) + ((min (min r g) b : ℤ) : ℚ)) / 510| ≤ 3 / 2 ^ 24 := by
  by_cases hne : min (min r g) b < max (max r g) b
  · obtain ⟨hue, s, l, h, h0, -, s0, s1, l0, l1, eh, -, el⟩ :=
      rgb_to_hsl_chromatic r g b _ _ hr0 hr1 hg0 hg1 hb0 hb1 rfl rfl hne
    have hp := huePos_le r g b _ _ hr0 hg0 hb0 rfl rfl (by omega) hne
    obtain ⟨-, e2⟩ := abs_le.mp eh
    refine ⟨hue, s, l, h, h0, ?_, s0, s1, l0, l1, el⟩
    norm_num at e2 hp
    linarith
  · have hrg : g = r := by omega
    have hrb : b = r := by omega
    rw [hrg, hrb]
    obtain ⟨-, e, q0, q1⟩ := channel_quot r hr0 hr1
    refine ⟨0, 0, binary32.rnd ((r : ℚ) / 255), rgb_to_hsl_gray_eq r hr0 hr1, le_refl _,
      by norm_num, le_refl _, by norm_num, q0, q1, ?_⟩
    simp only [max_self, min_self]
    rw [show ((r : ℚ) + r) / 510 = (r : ℚ) / 255 by ring]
    exact e.trans (by norm_num)

/-- The lightness `rgb_to_hsl` returns is the `float` half-sum of the `float`
quotients by `255` of the largest and the smallest channel. -/
theorem rgb_to_hsl_l (r g b : ℤ) (hr0 : 0 ≤ r) (hr1 : r ≤ 255) (hg0 : 0 ≤ g)
    (hg1 : g ≤ 255) (hb0 : 0 ≤ b) (hb1 : b ≤ 255) :
    (rgb_to_hsl ⟨r, g, b⟩).l
      = fdiv (fadd (fdiv (i2f (max (max r g) b)) (flt 255))
          (fdiv (i2f (min (min r g) b)) (flt 255))) (flt 2) := by
  obtain ⟨qr, -, -, -⟩ := channel_quot r hr0 hr1
  obtain ⟨qg, -, -, -⟩ := channel_quot g hg0 hg1
  obtain ⟨qb, -, -, -⟩ := channel_quot b hb0 hb1
  obtain ⟨qM, -, -, -⟩ := channel_quot (max (max r g) b) (by omega) (by omega)
  obtain ⟨qm, -, -, -⟩ := channel_quot (min (min r g) b) (by omega) (by omega)
  have h : (rgb_to_hsl ⟨r, g, b⟩).l
      = fdiv (fadd (_fmax (_fmax (fdiv (i2f r) (flt 255)) (fdiv (i2f g) (flt 255)))
            (fdiv (i2f b) (flt 255)))
          (_fmin (_fmin (fdiv (i2f r) (flt 255)) (fdiv (i2f g) (flt 255)))
            (fdiv (i2f b) (flt 255)))) (flt 2) := by
    unfold rgb_to_hsl
    simp only []
    split_ifs <;> rfl
  rw [h, qr, qg, qb, qM, qm, fmax_fin, fmax_fin, fmin_fin, fmin_fin, chan_max, chan_min]

/-- C17: for every valid RGB, `rgb_to_hsl` returns a finite hue `h` with
`0 <= h < 360`, a saturation and a lightness in `[0, 1]`; the lightness is
`(max + min) / 2.0f` computed in `float` from the channels divided by `255.0f`,
within `3 / 2 ^ 24` of the exact `(max + min) / 510`. -/
theorem rgb_to_hsl_ranges (c : RGB) (hc : c.valid) :
    ∃ h s l : ℚ, rgb_to_hsl c = ⟨Fp.fin h, Fp.fin s, Fp.fin l⟩ ∧
      0 ≤ h ∧ h < 360 ∧ 0 ≤ s ∧ s ≤ 1 ∧ 0 ≤ l ∧ l ≤ 1 ∧
      (rgb_to_hsl c).l
        = fdiv (fadd (fdiv (i2f (max (max c.r c.g) c.b)) (flt 255))
            (fdiv (i2f (min (min c.r c.g) c.b)) (flt 255))) (flt 2) ∧
      |l - (((max (max c.r c.g) c.b : ℤ) : ℚ) + ((min (min c.r c.g) c.b : ℤ) : ℚ)) / 510|
        ≤ 3 / 2 ^ 24 := by
  obtain ⟨r, g, b⟩ := c
  obtain ⟨hr0, hr1, hg0, hg1, hb0, hb1⟩ := hc
  obtain ⟨h, s, l, e, h0, h1, s0, s1, l0, l1, el⟩ := rgb_to_hsl_range r g b hr0 hr1 hg0 hg1 hb0 hb1
  exact ⟨h, s, l, e, h0, h1, s0, s1, l0, l1, rgb_to_hsl_l r g b hr0 hr1 hg0 hg1 hb0 hb1, el⟩

theorem rgb_to_hsl_ranges_witness :
    ∃ h s l : ℚ, rgb_to_hsl ⟨10, 20, 30⟩ = ⟨Fp.fin h, Fp.fin s, Fp.fin l⟩ ∧
      0 ≤ h ∧ h < 360 ∧ 0 ≤ s ∧ s ≤ 1 ∧ 0 ≤ l ∧ l ≤ 1 ∧
      (rgb_to_hsl ⟨10, 20, 30⟩).l
        = fdiv (fadd (fdiv (i2f (max (max (10 : ℤ) 20) 30)) (flt 255))
            (fdiv (i2f (min (min (10 : ℤ) 20) 30)) (flt 255))) (flt 2) ∧
      |l - (((max (max (10 : ℤ) 20) 30 : ℤ) : ℚ) + ((min (min (10 : ℤ) 20) 30 : ℤ) : ℚ)) / 510|
        ≤ 3 / 2 ^ 24 :=
  rgb_to_hsl_ranges ⟨10, 20, 30⟩ (by decide)

/-! ### Lightness at the extremes -/

/-- Where the factor `1 - |2 * l - 1|` of the chroma is zero, the three channels
of `hsl_to_rgb` are the same value, computed from the lightness alone. -/
theorem hsl_to_rgb_flat (h s l : ℚ) (h0 : 0 ≤ h) (h1 : h ≤ 360) (hs : |0 * s| ≤ 2 ^ 64)
    (hcz : fsub (flt 1) (_fabs (fsub (fmul (flt 2) (Fp.fin l)) (flt 1))) = Fp.fin 0) :
    hsl_to_rgb ⟨Fp.fin h, Fp.fin s, Fp.fin l⟩
      = (Fp.toInt (fmul (fadd (flt 0) (fsub (Fp.fin l) (fdiv (flt 0) (flt 2)))) (flt 255))).bind
          fun v => some ⟨_clamp v 0 255, _clamp v 0 255, _clamp v 0 255⟩ := by
  have hq0 : 0 ≤ h / 60 := by positivity
  have hq6 : h / 60 ≤ 6 := by linarith
  have hh : fdiv (Fp.fin h) (flt 60) = Fp.fin (binary32.rnd (h / 60)) :=
    fdiv_fin (by norm_num) (by rw [abs_of_nonneg hq0]; linarith)
  have r0 : 0 ≤ binary32.rnd (h / 60) := binary32.rnd_nonneg hq0
  have r6 : binary32.rnd (h / 60) ≤ 6 := binary32.rnd_le_of_le (by decide) rnd32_six hq6
  obtain ⟨hm, hfm, ehm⟩ := fmod_two (h / 60) r0 r6
  have hc : fmul (Fp.fin 0) (Fp.fin s) = Fp.fin 0 := by
    rw [fmul_fin hs, zero_mul, Fmt.rnd_zero]
  have w0 := Int.floor_le (binary32.rnd (h / 60) / 2)
  have w1 := Int.lt_floor_add_one (binary32.rnd (h / 60) / 2)
  obtain ⟨hx, -, -⟩ := hsl_x_err 0 hm _ (le_refl _) (by norm_num) (by linarith)
    (by linarith) ehm
  rw [zero_mul, Fmt.rnd_zero] at hx
  unfold hsl_to_rgb
  simp only [hh, hcz, hc, hfm, Option.some_bind, hx, flt, ite_self]
  cases Fp.toInt (fmul (fadd (Fp.fin 0) (fsub (Fp.fin l) (fdiv (Fp.fin 0) (Fp.fin 2))))
    (Fp.fin 255)) <;> rfl

theorem hsl_to_rgb_white (h s : ℚ) (h0 : 0 ≤ h) (h1 : h ≤ 360) :
    hsl_to_rgb ⟨Fp.fin h, Fp.fin s, Fp.fin 1⟩ = some ⟨255, 255, 255⟩ := by
  rw [hsl_to_rgb_flat h s 1 h0 h1 (by rw [zero_mul]; norm_num) (by decide!)]
  decide!

theorem hsl_to_rgb_black (h s : ℚ) (h0 : 0 ≤ h) (h1 : h ≤ 360) :
    hsl_to_rgb ⟨Fp.fin h, Fp.fin s, Fp.fin 0⟩ = some ⟨0, 0, 0⟩ := by
  rw [hsl_to_rgb_flat h s 0 h0 h1 (by rw [zero_mul]; norm_num) (by decide!)]
  decide!

/-- The sum of a lightness in `[0, 1]` and an amount of at least `1` is clamped
to `1`. -/
theorem clamp_float_add_geOne (l : ℚ) (hl0 : 0 ≤ l) (amount : Fp) (ha : amount.geOne) :
    _clamp_float (fadd (Fp.fin l) amount) (flt 0) (flt 1) = Fp.fin 1 := by
  cases amount with
  | nan => exact absurd ha (by simp [Fp.geOne])
  | inf s =>
    have : s = false := ha
    subst this
    rfl
  | fin a =>
    have ha1 : (1 : ℚ) ≤ a := ha
    have hr : 1 ≤ binary32.rnd (l + a) :=
      binary32.le_rnd_of_le (by decide) rnd32_one (by linarith)
    simp only [fadd, Fp.add, Fmt.round]
    split_ifs with hov
    · have : ¬ binary32.rnd (l + a) < 0 := by linarith
      simp [_clamp_float, Fp.lt, Fp.gt, this]
    · have h1 : ¬ binary32.rnd (l + a) < 0 := by linarith
      by_cases h2 : 1 < binary32.rnd (l + a)
      · simp [_clamp_float, Fp.lt, Fp.gt, h1, h2]
      · have : binary32.rnd (l + a) = 1 := le_antisymm (not_lt.mp h2) hr
        simp [_clamp_float, Fp.lt, Fp.gt, this]

/-- The sum of a lightness in `[0, 1]` and an amount of at most `-1` is clamped
to `0`. -/
theorem clamp_float_add_leNegOne (l : ℚ) (hl1 : l ≤ 1) (amount : Fp) (ha : amount.leNegOne) :
    _clamp_float (fadd (Fp.fin l) amount) (flt 0) (flt 1) = Fp.fin 0 := by
  cases amount with
  | nan => exact absurd ha (by simp [Fp.leNegOne])
  | inf s =>
    have : s = true := ha
    subst this
    rfl
  | fin a =>
    have ha1 : a ≤ -1 := ha
    have hr : binary32.rnd (l + a) ≤ 0 := binary32.rnd_nonpos (by linarith)
    simp only [fadd, Fp.add, Fmt.round]
    split_ifs with hov
    · have hne : binary32.rnd (l + a) ≠ 0 := by
        intro h0
        rw [h0, abs_zero] at hov
        exact absurd hov (not_le.mpr (pow2_pos _))
      have : binary32.rnd (l + a) < 0 := lt_of_le_of_ne hr hne
      simp [_clamp_float, Fp.lt, this]
    · by_cases h2 : binary32.rnd (l + a) < 0
      · simp [_clamp_float, Fp.lt, h2]
      · have h3 : binary32.rnd (l + a) = 0 := le_antisymm hr (not_lt.mp h2)
        simp [_clamp_float, Fp.lt, Fp.gt, h3]

theorem geOne_neg (amount : Fp) (ha : amount.geOne) : (Fp.neg amount).leNegOne := by
  cases amount with
  | nan => exact ha
  | inf s =>
    have : s = false := ha
    subst this
    rfl
  | fin a =>
    have ha1 : (1 : ℚ) ≤ a := ha
    show -a ≤ -1
    linarith

/-- C20: for every valid RGB, `lighten_color` returns white for every amount of
at least `1` (the infinity included) and black for every amount of at most
`-1`, and `darken_color` returns black for every amount of at least `1`. -/
theorem lighten_color_saturates (c : RGB) (amount : Fp) (hc : c.valid) :
    (amount.geOne → lighten_color c amount = some ⟨255, 255, 255⟩ ∧
        darken_color c amount = some ⟨0, 0, 0⟩) ∧
      (amount.leNegOne → lighten_color c amount = some ⟨0, 0, 0⟩) := by
  obtain ⟨r, g, b⟩ := c
  obtain ⟨hr0, hr1, hg0, hg1, hb0, hb1⟩ := hc
  obtain ⟨h, s, l, e, h0, h1, -, -, l0, l1, -⟩ := rgb_to_hsl_range r g b hr0 hr1 hg0 hg1 hb0 hb1
  have hlo : ∀ a : Fp, a.leNegOne → lighten_color ⟨r, g, b⟩ a = some ⟨0, 0, 0⟩ := by
    intro a ha
    simp only [lighten_color, e]
    rw [clamp_float_add_leNegOne l l1 a ha]
    exact hsl_to_rgb_black h s h0 h1.le
  refine ⟨fun ha => ⟨?_, hlo _ (geOne_neg amount ha)⟩, hlo amount⟩
  simp only [lighten_color, e]
  rw [clamp_float_add_geOne l l0 amount ha]
  exact hsl_to_rgb_white h s h0 h1.le

theorem lighten_color_saturates_witness :
    lighten_color ⟨10, 20, 30⟩ (flt 1) = some ⟨255, 255, 255⟩ ∧
      darken_color ⟨10, 20, 30⟩ (flt 1) = some ⟨0, 0, 0⟩ ∧
      lighten_color ⟨10, 20, 30⟩ (flt (-1)) = some ⟨0, 0, 0⟩ :=
  ⟨((lighten_color_saturates ⟨10, 20, 30⟩ (flt 1) (by decide)).1 (le_refl (1 : ℚ))).1,
    ((lighten_color_saturates ⟨10, 20, 30⟩ (flt 1) (by decide)).1 (le_refl (1 : ℚ))).2,
    (lighten_color_saturates ⟨10, 20, 30⟩ (flt (-1)) (by decide)).2 (le_refl (-1 : ℚ))⟩

/-! ### Hues outside `[0, 360)` -/

/-- C18, counterexample: `hsl_to_rgb` does not wrap the hue. Hue `420` gives
magenta where hue `60` gives yellow, and hue `-60` gives red where hue `300`
gives magenta. -/
theorem hsl_to_rgb_no_wrap :
    hsl_to_rgb ⟨flt 420, flt 1, flt (1 / 2)⟩ = some ⟨255, 0, 255⟩ ∧
      hsl_to_rgb ⟨flt 60, flt 1, flt (1 / 2)⟩ = some ⟨255, 255, 0⟩ ∧
      hsl_to_rgb ⟨flt (-60), flt 1, flt (1 / 2)⟩ = some ⟨255, 0, 0⟩ ∧
      hsl_to_rgb ⟨flt 300, flt 1, flt (1 / 2)⟩ = some ⟨255, 0, 255⟩ := by
  decide!

/-- C18, amended: `hsl_to_rgb` does not reduce the hue modulo `360`. For every
saturation and lightness in `[0, 1]`, hue `360` gives the same colour as hue `0`
(both have `_fmod(h, 2) = 0`, hence `x = 0`, and the first and the last sector
then select the same three values); but the colour of `h + 360` is not always
the colour of `h`: at saturation `1` and lightness `0.5` hue `420` differs from
hue `60` and hue `300` differs from hue `-60`. -/
theorem hsl_to_rgb_hue_360 (s l : ℚ) (hs0 : 0 ≤ s) (hs1 : s ≤ 1) (hl0 : 0 ≤ l) (hl1 : l ≤ 1) :
    hsl_to_rgb ⟨flt 360, flt s, flt l⟩ = hsl_to_rgb ⟨flt 0, flt s, flt l⟩ ∧
      hsl_to_rgb ⟨flt 420, flt 1, flt (1 / 2)⟩ ≠ hsl_to_rgb ⟨flt 60, flt 1, flt (1 / 2)⟩ ∧
      hsl_to_rgb ⟨flt 300, flt 1, flt (1 / 2)⟩ ≠ hsl_to_rgb ⟨flt (-60), flt 1, flt (1 / 2)⟩ := by
  refine ⟨?_, by decide!, by decide!⟩
  obtain ⟨c, hc, hc0, hc1, -⟩ := hsl_chroma l s hl0 hl1 hs0 hs1
  have h360 : fdiv (Fp.fin 360) (Fp.fin 60) = Fp.fin 6 := by decide!
  have h0 : fdiv (Fp.fin 0) (Fp.fin 60) = Fp.fin 0 := by decide!
  have f6 : _fmod (Fp.fin 6) (Fp.fin 2) = some (Fp.fin 0) := by decide!
  have f0 : _fmod (Fp.fin 0) (Fp.fin 2) = some (Fp.fin 0) := by decide!
  have hw : fsub (Fp.fin 1) (_fabs (fsub (Fp.fin 0) (Fp.fin 1))) = Fp.fin 0 := by decide!
  have hx : fmul (Fp.fin c) (Fp.fin 0) = Fp.fin 0 := by
    rw [fmul_fin (by rw [mul_zero]; norm_num), mul_zero, Fmt.rnd_zero]
  have a1 : Fp.lt (Fp.fin 0) (Fp.fin 1) = true := by decide
  have b1 : Fp.lt (Fp.fin 6) (Fp.fin 1) = false := by decide
  have b2 : Fp.lt (Fp.fin 6) (Fp.fin 2) = false := by decide
  have b3 : Fp.lt (Fp.fin 6) (Fp.fin 3) = false := by decide
  have b4 : Fp.lt (Fp.fin 6) (Fp.fin 4) = false := by decide
  have b5 : Fp.lt (Fp.fin 6) (Fp.fin 5) = false := by decide
  simp only [flt] at hc
  unfold hsl_to_rgb
  simp only [flt, h360, h0, f6, f0, Option.some_bind, hc, hw, hx, a1, b1, b2, b3, b4, b5,
    if_true, if_false, Bool.false_eq_true]

theorem hsl_to_rgb_hue_360_witness :
    hsl_to_rgb ⟨flt 360, flt (1 / 4), flt (3 / 4)⟩ = hsl_to_rgb ⟨flt 0, flt (1 / 4), flt (3 / 4)⟩ ∧
      hsl_to_rgb ⟨flt 420, flt 1, flt (1 / 2)⟩ ≠ hsl_to_rgb ⟨flt 60, flt 1, flt (1 / 2)⟩ ∧
      hsl_to_rgb ⟨flt 300, flt 1, flt (1 / 2)⟩ ≠ hsl_to_rgb ⟨flt (-60), flt 1, flt (1 / 2)⟩ :=
  hsl_to_rgb_hue_360 (1 / 4) (3 / 4) (by norm_num) (by norm_num) (by norm_num) (by norm_num)

/-! ### The complement: half a turn of the hue -/

/-- A `float` in `[256, 512)` is a multiple of `2 ^ -15`: below `360` it is at most
`360 - 2 ^ -15`. -/
theorem rnd32_lt_360 (y : ℚ) (h1 : 256 ≤ y) (h2 : y < 512) (h : binary32.rnd y < 360) :
    binary32.rnd y ≤ 360 - 1 / 2 ^ 15 := by
  have hy : y ≠ 0 := by linarith
  have hlog : ilog2 y = 8 := by
    apply ilog2_eq
    · rw [abs_of_nonneg (by linarith)]; norm_num; exact h1
    · rw [abs_of_nonneg (by linarith)]; norm_num; exact h2
  obtain ⟨N, -, hN⟩ := binary32.rnd_form hy
  rw [hlog] at hN
  have he : (max (8 : ℤ) (1 - binary32.emax) - ((binary32.prec : ℤ) - 1)) = -15 := by decide
  rw [he] at hN
  have hp : (2 : ℚ) ^ (-15 : ℤ) = 1 / 2 ^ 15 := by norm_num
  rw [hp] at hN
  rw [hN] at h ⊢
  have hlt : (N : ℚ) < 11796480 := by
    by_contra hc
    have : (11796480 : ℚ) ≤ N := not_lt.mp hc
    norm_num at h
    linarith
  have hN1 : N ≤ 11796479 := by
    have : N < 11796480 := by exact_mod_cast hlt
    omega
  have : (N : ℚ) ≤ 11796479 := by exact_mod_cast hN1
  norm_num
  linarith

theorem rnd32_three_quarters : binary32.rnd (3 / 4 : ℚ) = 3 / 4 := by
  have := binary32.rnd_rep 3 (-2) (by decide) (by decide)
  norm_num at this
  exact this

theorem rnd32_256 : binary32.rnd (256 : ℚ) = 256 := by
  simpa using rnd32_natCast 256 (by norm_num)

theorem rnd32_180 : binary32.rnd (180 : ℚ) = 180 := by
  simpa using rnd32_natCast 180 (by norm_num)

theorem rnd32_540 : binary32.rnd (540 : ℚ) = 540 := by
  simpa using rnd32_natCast 540 (by norm_num)

/-- A `float` below `360` has a `float` quotient by `360` below `1`. -/
theorem quotient_360_lt_one (y : ℚ) (h : binary32.rnd y < 360) :
    binary32.rnd (binary32.rnd y / 360) < 1 := by
  rcases lt_or_le y 256 with hy | hy
  · have hx : binary32.rnd y ≤ 256 := binary32.rnd_le_of_le (by decide) rnd32_256 hy.le
    have : binary32.rnd (binary32.rnd y / 360) ≤ 3 / 4 :=
      binary32.rnd_le_of_le (by decide) rnd32_three_quarters (by linarith)
    linarith
  · have hy2 : y < 512 := by
      by_contra hc
      have : (512 : ℚ) ≤ binary32.rnd y :=
        binary32.le_rnd_of_le (by decide) (by simpa using rnd32_natCast 512 (by norm_num))
          (not_lt.mp hc)
      linarith
    have hx := rnd32_lt_360 y hy hy2 h
    have hx0 : 256 ≤ binary32.rnd y := binary32.le_rnd_of_le (by decide) rnd32_256 hy
    have hq : |binary32.rnd y / 360| < (2 : ℚ) ^ ((-1 : ℤ) + 1) := by
      rw [abs_of_nonneg (by linarith)]
      norm_num
      linarith
    have e := binary32.rnd_err_pow (binary32.rnd y / 360) (-1) (by decide) hq
    have hp : (2 : ℚ) ^ ((-1 : ℤ) - (binary32.prec : ℤ)) = 1 / 2 ^ 25 := by
      rw [show ((-1 : ℤ) - (binary32.prec : ℤ)) = -25 by decide]
      norm_num
    rw [hp] at e
    obtain ⟨-, e2⟩ := abs_le.mp e
    norm_num at hx e2 ⊢
    linarith

theorem rnd32_three_halves : binary32.rnd (3 / 2 : ℚ) = 3 / 2 := by
  have := binary32.rnd_rep 3 (-1) (by decide) (by decide)
  norm_num at this
  exact this

/-- The call `_fmod(hue + 180.0f, 360.0f)` of `complementary_color` for a hue in
`[0, 360]`: the result lies in `[0, 360]` and is the hue plus or minus `180`, up
to two roundings. -/
theorem fmod_half_turn (hue : ℚ) (h0 : 0 ≤ hue) (h1 : hue ≤ 360) :
    ∃ t : ℚ, _fmod (fadd (Fp.fin hue) (flt 180)) (flt 360) = some (Fp.fin t) ∧
      0 ≤ t ∧ t ≤ 360 ∧
      (|t - (hue + 180)| ≤ 1 / 2 ^ 14 ∨ |t - (hue - 180)| ≤ 1 / 2 ^ 14) := by
  have e1 := rnd32_err_of_lt (hue + 180) 9 (by
    rw [abs_of_nonneg (by linarith)]; norm_num; linarith)
  have x0 : 180 ≤ binary32.rnd (hue + 180) :=
    binary32.le_rnd_of_le (by decide) rnd32_180 (by linarith)
  have x1 : binary32.rnd (hue + 180) ≤ 540 :=
    binary32.rnd_le_of_le (by decide) rnd32_540 (by linarith)
  have hidem : binary32.rnd (binary32.rnd (hue + 180)) = binary32.rnd (hue + 180) :=
    binary32.rnd_idem (by decide) _
  have hquot := quotient_360_lt_one (hue + 180)
  have hsum : fadd (Fp.fin hue) (flt 180) = Fp.fin (binary32.rnd (hue + 180)) :=
    fadd_fin (by rw [abs_of_nonneg (by linarith)]; linarith)
  rw [hsum]
  generalize binary32.rnd (hue + 180) = x at e1 x0 x1 hidem hquot
  obtain ⟨e1a, e1b⟩ := abs_le.mp e1
  have hdiv : fdiv (Fp.fin x) (flt 360) = Fp.fin (binary32.rnd (x / 360)) :=
    fdiv_fin (by norm_num) (by rw [abs_of_nonneg (by positivity)]; linarith)
  have q0 : 0 ≤ binary32.rnd (x / 360) := binary32.rnd_nonneg (by positivity)
  unfold _fmod
  rw [hdiv]
  by_cases hx : x < 360
  · have q1 := hquot hx
    have hfl : ⌊binary32.rnd (x / 360)⌋ = 0 := by
      rw [Int.floor_eq_iff]; push_cast; constructor <;> linarith
    have htr : truncQ (binary32.rnd (x / 360)) = 0 := by
      rw [truncQ_of_nonneg q0, hfl]
    refine ⟨x, ?_, by linarith, hx.le, Or.inl ?_⟩
    · rw [toInt_fin (by rw [htr]; decide) (by rw [htr]; decide), htr]
      simp only [Option.map_some']
      rw [i2f_zero, fmul_fin (by rw [mul_zero]; norm_num), mul_zero, Fmt.rnd_zero,
        fsub_fin (by rw [sub_zero, abs_of_nonneg (by linarith)]; linarith), sub_zero, hidem]
    · rw [abs_le]; norm_num at e1a e1b ⊢; constructor <;> linarith
  · have hx' : 360 ≤ x := not_lt.mp hx
    have q1 : 1 ≤ binary32.rnd (x / 360) :=
      binary32.le_rnd_of_le (by decide) rnd32_one (by rw [le_div_iff₀ (by norm_num)]; linarith)
    have q2 : binary32.rnd (x / 360) ≤ 3 / 2 :=
      binary32.rnd_le_of_le (by decide) rnd32_three_halves
        (by rw [div_le_iff₀ (by norm_num)]; linarith)
    have hfl : ⌊binary32.rnd (x / 360)⌋ = 1 := by
      rw [Int.floor_eq_iff]; push_cast; constructor <;> linarith
    have htr : truncQ (binary32.rnd (x / 360)) = 1 := by
      rw [truncQ_of_nonneg q0, hfl]
    have e2 := rnd32_err_of_lt (x - 360) 7 (by
      rw [abs_of_nonneg (by linarith)]; norm_num; linarith)
    obtain ⟨e2a, e2b⟩ := abs_le.mp e2
    refine ⟨binary32.rnd (x - 360), ?_, binary32.rnd_nonneg (by linarith),
      (binary32.rnd_le_of_le (by decide) rnd32_180 (by linarith)).trans (by norm_num),
      Or.inr ?_⟩
    · rw [toInt_fin (by rw [htr]; decide) (by rw [htr]; decide), htr]
      simp only [Option.map_some']
      rw [i2f_small 1 (by norm_num), Int.cast_one,
        fmul_fin (by rw [mul_one]; norm_num), mul_one, rnd32_360,
        fsub_fin (by rw [abs_of_nonneg (by linarith)]; linarith)]
    · rw [abs_le]; norm_num at e1a e1b e2a e2b ⊢; constructor <;> linarith

theorem clamp01_one_sub (t : ℚ) : clamp01 (1 - t) = 1 - clamp01 t := by
  rw [clamp01_eq_ite, clamp01_eq_ite]
  split_ifs <;> linarith

/-- Three sextants further the red weight is one minus the red weight. -/
theorem hueRed_add_three (q : ℚ) (h0 : 0 ≤ q) (h3 : q ≤ 3) : hueRed (q + 3) = 1 - hueRed q := by
  unfold hueRed
  rw [show q + 3 - 3 = q by ring, abs_of_nonneg h0, abs_of_nonpos (by linarith : q - 3 ≤ 0),
    ← clamp01_one_sub]
  congr 1
  ring

theorem hueRed_sub_three (q : ℚ) (h3 : 3 ≤ q) (h6 : q ≤ 6) : hueRed (q - 3) = 1 - hueRed q := by
  unfold hueRed
  rw [abs_of_nonpos (by linarith : q - 3 - 3 ≤ 0), abs_of_nonneg (by linarith : 0 ≤ q - 3),
    ← clamp01_one_sub]
  congr 1
  ring

theorem hueGreen_add_three (q : ℚ) (h0 : 0 ≤ q) (h3 : q ≤ 3) :
    hueGreen (q + 3) = 1 - hueGreen q := by
  unfold hueGreen
  rw [abs_of_nonneg (by linarith : 0 ≤ q + 3 - 2), ← clamp01_one_sub]
  rcases le_or_lt q 2 with h | h
  · rw [abs_of_nonpos (by linarith : q - 2 ≤ 0)]
    congr 1
    ring
  · rw [abs_of_nonneg (by linarith : 0 ≤ q - 2), clamp01_of_nonpos (by linarith),
      clamp01_of_nonpos (by linarith)]

theorem hueGreen_sub_three (q : ℚ) (h3 : 3 ≤ q) (h6 : q ≤ 6) :
    hueGreen (q - 3) = 1 - hueGreen q := by
  unfold hueGreen
  rw [abs_of_nonneg (by linarith : 0 ≤ q - 2), ← clamp01_one_sub]
  rcases le_or_lt q 5 with h | h
  · rw [abs_of_nonpos (by linarith : q - 3 - 2 ≤ 0)]
    congr 1
    ring
  · rw [abs_of_nonneg (by linarith : 0 ≤ q - 3 - 2), clamp01_of_one_le (by linarith),
      clamp01_of_one_le (by linarith)]

theorem hueBlue_add_three (q : ℚ) (h0 : 0 ≤ q) (h3 : q ≤ 3) :
    hueBlue (q + 3) = 1 - hueBlue q := by
  unfold hueBlue
  rw [abs_of_nonpos (by linarith : q - 4 ≤ 0), ← clamp01_one_sub]
  rcases le_or_lt 1 q with h | h
  · rw [abs_of_nonneg (by linarith : 0 ≤ q + 3 - 4)]
    congr 1
    ring
  · rw [abs_of_nonpos (by linarith : q + 3 - 4 ≤ 0), clamp01_of_one_le (by linarith),
      clamp01_of_one_le (by linarith)]

theorem hueBlue_sub_three (q : ℚ) (h3 : 3 ≤ q) (h6 : q ≤ 6) :
    hueBlue (q - 3) = 1 - hueBlue q := by
  unfold hueBlue
  rw [abs_of_nonpos (by linarith : q - 3 - 4 ≤ 0), ← clamp01_one_sub]
  rcases le_or_lt 4 q with h | h
  · rw [abs_of_nonneg (by linarith : 0 ≤ q - 4)]
    congr 1
    ring
  · rw [abs_of_nonpos (by linarith : q - 4 ≤ 0), clamp01_of_nonpos (by linarith),
      clamp01_of_nonpos (by linarith)]

/-- A weight that is 1-Lipschitz and is reflected by a shift of three sextants:
at a position within `ε` of the opposite of `p` its value is within `2 ε` of one
minus its value at `p`. -/
theorem weight_opposite (F : ℚ → ℚ) (hL : ∀ x y, |F x - F y| ≤ |x - y|)
    (hadd : ∀ q, 0 ≤ q → q ≤ 3 → F (q + 3) = 1 - F q)
    (hsub : ∀ q, 3 ≤ q → q ≤ 6 → F (q - 3) = 1 - F q)
    (p y ε : ℚ) (hp0 : 0 ≤ p) (hp6 : p ≤ 6) (hy0 : 0 ≤ y) (hy6 : y ≤ 6)
    (h : |y - (p + 3)| ≤ ε ∨ |y - (p - 3)| ≤ ε) : |F y - (1 - F p)| ≤ 2 * ε := by
  have key : ∀ p0 z : ℚ, F z = 1 - F p0 → |y - z| ≤ ε → |p0 - p| ≤ ε →
      |F y - (1 - F p)| ≤ 2 * ε := by
    intro p0 z hz h1 h2
    have a := (hL y z).trans h1
    have b := (hL p0 p).trans h2
    rw [hz] at a
    obtain ⟨a1, a2⟩ := abs_le.mp a
    obtain ⟨b1, b2⟩ := abs_le.mp b
    rw [abs_le]
    constructor <;> linarith
  rcases h with h | h
  · obtain ⟨h1, h2⟩ := abs_le.mp h
    rcases le_or_lt p 3 with hp | hp
    · exact key p (p + 3) (hadd p hp0 hp) h (by rw [sub_self, abs_zero]; linarith)
    · refine key 3 (3 + 3) (hadd 3 (by norm_num) le_rfl) ?_ ?_
      · rw [abs_le]; constructor <;> linarith
      · rw [abs_le]; constructor <;> linarith
  · obtain ⟨h1, h2⟩ := abs_le.mp h
    rcases le_or_lt 3 p with hp | hp
    · exact key p (p - 3) (hsub p hp hp6) h (by rw [sub_self, abs_zero]; linarith)
    · refine key 3 (3 - 3) (hsub 3 le_rfl (by norm_num)) ?_ ?_
      · rw [abs_le]; constructor <;> linarith
      · rw [abs_le]; constructor <;> linarith

/-- The value of a channel of the complement before truncation is within less
than `1` of its exact value. -/
theorem complement_err {v T w u l Dx L n : ℚ}
    (hv : |v - 255 * (T * w + (l - T / 2))| ≤ 1 / 2 ^ 10) (hT : |T - Dx| ≤ 1 / 2 ^ 13)
    (hw : |w - u| ≤ 1 / 2 ^ 11) (hw0 : 0 ≤ w) (hw1 : w ≤ 1) (hD0 : 0 ≤ Dx) (hD1 : Dx ≤ 1)
    (hl : |l - L| ≤ 3 / 2 ^ 24) (hex : Dx * u + (L - Dx / 2) = n / 255) :
    |v - n| < 1 := by
  have p1 : |(T - Dx) * w| ≤ 1 / 2 ^ 13 := by
    rw [mul_comm]
    exact abs_mul_le_of_le_one (by rw [abs_of_nonneg hw0]; exact hw1) hT
  have p2 : |Dx * (w - u)| ≤ 1 / 2 ^ 11 :=
    abs_mul_le_of_le_one (by rw [abs_of_nonneg hD0]; exact hD1) hw
  have hn : n = 255 * (Dx * u + (L - Dx / 2)) := by rw [hex]; ring
  have key : v - n = (v - 255 * (T * w + (l - T / 2)))
      + 255 * ((T - Dx) * w + Dx * (w - u) + (l - L) - (T - Dx) / 2) := by
    rw [hn]; ring
  obtain ⟨a1, a2⟩ := abs_le.mp hv
  obtain ⟨b1, b2⟩ := abs_le.mp hT
  obtain ⟨c1, c2⟩ := abs_le.mp p1
  obtain ⟨d1, d2⟩ := abs_le.mp p2
  obtain ⟨e1, e2⟩ := abs_le.mp hl
  rw [key, abs_lt]
  norm_num at a1 a2 b1 b2 c1 c2 d1 d2 e1 e2 ⊢
  constructor <;> linarith

/-- The position of the complement hue: within `2 ^ -12` of the exact position
plus or minus three sextants. -/
theorem opposite_position {t hue p : ℚ}
    (ht : |t - (hue + 180)| ≤ 1 / 2 ^ 14 ∨ |t - (hue - 180)| ≤ 1 / 2 ^ 14)
    (hp : |hue / 60 - p| ≤ 1 / 2 ^ 13) :
    |t / 60 - (p + 3)| ≤ 1 / 2 ^ 12 ∨ |t / 60 - (p - 3)| ≤ 1 / 2 ^ 12 := by
  obtain ⟨p1, p2⟩ := abs_le.mp hp
  rcases ht with h | h
  · left
    obtain ⟨a1, a2⟩ := abs_le.mp h
    rw [abs_le]
    norm_num at a1 a2 p1 p2 ⊢
    constructor <;> linarith
  · right
    obtain ⟨a1, a2⟩ := abs_le.mp h
    rw [abs_le]
    norm_num at a1 a2 p1 p2 ⊢
    constructor <;> linarith

/-- The complement of a valid colour: each channel is within `1` of the largest
plus the smallest channel minus that channel. -/
theorem complement_channels (r g b M m : ℤ) (hr0 : 0 ≤ r) (hr1 : r ≤ 255) (hg0 : 0 ≤ g)
    (hg1 : g ≤ 255) (hb0 : 0 ≤ b) (hb1 : b ≤ 255) (hM : M = max (max r g) b)
    (hm : m = min (min r g) b) :
    ∃ c : RGB, complementary_color ⟨r, g, b⟩ = some c ∧
      |c.r - (M + m - r)| ≤ 1 ∧ |c.g - (M + m - g)| ≤ 1 ∧ |c.b - (M + m - b)| ≤ 1 := by
  by_cases hne : m < M
  · obtain ⟨hue, s, l, heq, u0, u1, s0, s1, l0, l1, eu, eT, el⟩ :=
      rgb_to_hsl_chromatic r g b M m hr0 hr1 hg0 hg1 hb0 hb1 hM hm hne
    obtain ⟨p0, p6, xr, xg, xb⟩ := hue_exact r g b M m hM hm hne
    obtain ⟨t, hfm, t0, t1, ht⟩ := fmod_half_turn hue u0 u1
    obtain ⟨vr, vg, vb, heq2, er, eg, eb⟩ := hsl_to_rgb_approx t s l t0 t1 s0 s1 l0 l1
    have hpos := opposite_position ht eu
    have y0 : 0 ≤ t / 60 := by positivity
    have y6 : t / 60 ≤ 6 := by linarith
    have two : (2 : ℚ) * (1 / 2 ^ 12) = 1 / 2 ^ 11 := by norm_num
    have wr := weight_opposite hueRed hueRed_lipschitz hueRed_add_three hueRed_sub_three
      _ _ _ p0 p6 y0 y6 hpos
    have wg := weight_opposite hueGreen hueGreen_lipschitz hueGreen_add_three hueGreen_sub_three
      _ _ _ p0 p6 y0 y6 hpos
    have wb := weight_opposite hueBlue hueBlue_lipschitz hueBlue_add_three hueBlue_sub_three
      _ _ _ p0 p6 y0 y6 hpos
    rw [two] at wr wg wb
    have hD0 : (0 : ℚ) ≤ ((M : ℚ) - m) / 255 := by
      have : (m : ℚ) ≤ M := by exact_mod_cast hne.le
      apply div_nonneg _ (by norm_num)
      linarith
    have hD1 : ((M : ℚ) - m) / 255 ≤ 1 := by
      have h1 : (M : ℚ) ≤ 255 := by exact_mod_cast (by omega : M ≤ 255)
      have h2 : (0 : ℚ) ≤ m := by exact_mod_cast (by omega : (0 : ℤ) ≤ m)
      rw [div_le_one (by norm_num)]
      linarith
    have hxr : ((M : ℚ) - m) / 255 * (1 - hueRed (huePos r g b))
        + (((M : ℚ) + m) / 510 - ((M : ℚ) - m) / 255 / 2) = ((M + m - r : ℤ) : ℚ) / 255 := by
      push_cast; linear_combination (-1 : ℚ) * xr
    have hxg : ((M : ℚ) - m) / 255 * (1 - hueGreen (huePos r g b))
        + (((M : ℚ) + m) / 510 - ((M : ℚ) - m) / 255 / 2) = ((M + m - g : ℤ) : ℚ) / 255 := by
      push_cast; linear_combination (-1 : ℚ) * xg
    have hxb : ((M : ℚ) - m) / 255 * (1 - hueBlue (huePos r g b))
        + (((M : ℚ) + m) / 510 - ((M : ℚ) - m) / 255 / 2) = ((M + m - b : ℤ) : ℚ) / 255 := by
      push_cast; linear_combination (-1 : ℚ) * xb
    have nr := complement_err er eT wr (hueRed_nonneg _) (hueRed_le_one _) hD0 hD1 el hxr
    have ng := complement_err eg eT wg (hueGreen_nonneg _) (hueGreen_le_one _) hD0 hD1 el hxg
    have nb := complement_err eb eT wb (hueBlue_nonneg _) (hueBlue_le_one _) hD0 hD1 el hxb
    have hcc : complementary_color ⟨r, g, b⟩
        = some ⟨_clamp (truncQ vr) 0 255, _clamp (truncQ vg) 0 255, _clamp (truncQ vb) 0 255⟩ := by
      simp only [complementary_color, heq, hfm, Option.some_bind]
      exact heq2
    have i0 : 0 ≤ M + m - r := by omega
    have i1 : M + m - r ≤ 255 := by omega
    have j0 : 0 ≤ M + m - g := by omega
    have j1 : M + m - g ≤ 255 := by omega
    have k0 : 0 ≤ M + m - b := by omega
    have k1 : M + m - b ≤ 255 := by omega
    exact ⟨_, hcc, (clamp_trunc_near vr (M + m - r) i0 i1 nr).2,
      (clamp_trunc_near vg (M + m - g) j0 j1 ng).2,
      (clamp_trunc_near vb (M + m - b) k0 k1 nb).2⟩
  · have hg : g = r := by omega
    have hb : b = r := by omega
    have hMr : M = r := by omega
    have hmr : m = r := by omega
    rw [hg, hb, hMr, hmr]
    obtain ⟨-, ex, x0, x1⟩ := channel_quot r hr0 hr1
    obtain ⟨t, hfm, t0, t1, -⟩ := fmod_half_turn 0 le_rfl (by norm_num)
    obtain ⟨vr, vg, vb, heq2, er, eg, eb⟩ :=
      hsl_to_rgb_approx t 0 (binary32.rnd ((r : ℚ) / 255)) t0 t1 le_rfl (by norm_num) x0 x1
    have hl : |binary32.rnd ((r : ℚ) / 255) - (r : ℚ) / 255| ≤ 3 / 2 ^ 24 :=
      ex.trans (by norm_num)
    have hT : |(1 - |2 * binary32.rnd ((r : ℚ) / 255) - 1|) * 0 - 0| ≤ 1 / 2 ^ 13 := by
      norm_num
    have hex : ∀ w : ℚ, 0 * w + ((r : ℚ) / 255 - 0 / 2) = ((r + r - r : ℤ) : ℚ) / 255 :=
      fun w => by push_cast; ring
    have hself : ∀ w : ℚ, |w - w| ≤ 1 / 2 ^ 11 := fun w => by
      rw [sub_self, abs_zero]; norm_num
    have nr := complement_err (u := hueRed (t / 60)) er hT (hself _) (hueRed_nonneg _)
      (hueRed_le_one _) le_rfl (by norm_num) hl (hex _)
    have ng := complement_err (u := hueGreen (t / 60)) eg hT (hself _) (hueGreen_nonneg _)
      (hueGreen_le_one _) le_rfl (by norm_num) hl (hex _)
    have nb := complement_err (u := hueBlue (t / 60)) eb hT (hself _) (hueBlue_nonneg _)
      (hueBlue_le_one _) le_rfl (by norm_num) hl (hex _)
    have hcc : complementary_color ⟨r, r, r⟩
        = some ⟨_clamp (truncQ vr) 0 255, _clamp (truncQ vg) 0 255, _clamp (truncQ vb) 0 255⟩ := by
      simp only [complementary_color, rgb_to_hsl_gray_eq r hr0 hr1, flt] at hfm ⊢
      rw [hfm]
      exact heq2
    have i0 : 0 ≤ r + r - r := by omega
    have i1 : r + r - r ≤ 255 := by omega
    exact ⟨_, hcc, (clamp_trunc_near vr (r + r - r) i0 i1 nr).2,
      (clamp_trunc_near vg (r + r - r) i0 i1 ng).2,
      (clamp_trunc_near vb (r + r - r) i0 i1 nb).2⟩

/-- C19: for every valid RGB `(r, g, b)` with `M` the largest and `m` the
smallest channel, `complementary_color` returns a colour whose channels differ
by at most `1` from `(M + m - r, M + m - g, M + m - b)`; its largest and its
smallest channel are within `1` of `M` and `m`, and the complement of a gray is
within `1` of the same gray. -/
theorem complementary_color_reflects (c : RGB) (hc : c.valid) :
    ∃ k : RGB, complementary_color c = some k ∧
      |k.r - (max (max c.r c.g) c.b + min (min c.r c.g) c.b - c.r)| ≤ 1 ∧
      |k.g - (max (max c.r c.g) c.b + min (min c.r c.g) c.b - c.g)| ≤ 1 ∧
      |k.b - (max (max c.r c.g) c.b + min (min c.r c.g) c.b - c.b)| ≤ 1 ∧
      |max (max k.r k.g) k.b - max (max c.r c.g) c.b| ≤ 1 ∧
      |min (min k.r k.g) k.b - min (min c.r c.g) c.b| ≤ 1 ∧
      (c.r = c.g → c.g = c.b → |k.r - c.r| ≤ 1 ∧ |k.g - c.g| ≤ 1 ∧ |k.b - c.b| ≤ 1) := by
  obtain ⟨r, g, b⟩ := c
  obtain ⟨hr0, hr1, hg0, hg1, hb0, hb1⟩ := hc
  obtain ⟨k, hk, kr, kg, kb⟩ := complement_channels r g b _ _ hr0 hr1 hg0 hg1 hb0 hb1 rfl rfl
  dsimp only
  refine ⟨k, hk, kr, kg, kb, ?_, ?_, ?_⟩
  · obtain ⟨a1, a2⟩ := abs_le.mp kr
    obtain ⟨b1, b2⟩ := abs_le.mp kg
    obtain ⟨c1, c2⟩ := abs_le.mp kb
    rw [abs_le]
    constructor <;> omega
  · obtain ⟨a1, a2⟩ := abs_le.mp kr
    obtain ⟨b1, b2⟩ := abs_le.mp kg
    obtain ⟨c1, c2⟩ := abs_le.mp kb
    rw [abs_le]
    constructor <;> omega
  · intro h1 h2
    have e1 : max (max r g) b + min (min r g) b - r = r := by omega
    have e2 : max (max r g) b + min (min r g) b - g = g := by omega
    have e3 : max (max r g) b + min (min r g) b - b = b := by omega
    rw [e1] at kr
    rw [e2] at kg
    rw [e3] at kb
    exact ⟨kr, kg, kb⟩

theorem complementary_color_reflects_witness :
    ∃ k : RGB, complementary_color ⟨7, 7, 7⟩ = some k ∧
      |k.r - (max (max (7 : ℤ) 7) 7 + min (min (7 : ℤ) 7) 7 - 7)| ≤ 1 ∧
      |k.g - (max (max (7 : ℤ) 7) 7 + min (min (7 : ℤ) 7) 7 - 7)| ≤ 1 ∧
      |k.b - (max (max (7 : ℤ) 7) 7 + min (min (7 : ℤ) 7) 7 - 7)| ≤ 1 ∧
      |max (max k.r k.g) k.b - max (max (7 : ℤ) 7) 7| ≤ 1 ∧
      |min (min k.r k.g) k.b - min (min (7 : ℤ) 7) 7| ≤ 1 ∧
      |k.r - 7| ≤ 1 ∧ |k.g - 7| ≤ 1 ∧ |k.b - 7| ≤ 1 := by
  obtain ⟨k, hk, a, b, c, d, e, f⟩ := complementary_color_reflects ⟨7, 7, 7⟩ (by decide)
  exact ⟨k, hk, a, b, c, d, e, f rfl rfl⟩

/-! ### The range of the channels of every colour produced -/

theorem clamp_range (v : ℤ) : 0 ≤ _clamp v 0 255 ∧ _clamp v 0 255 ≤ 255 := by
  unfold _clamp
  split_ifs <;> constructor <;> omega

theorem newRGB_valid (r g b : ℤ) : (newRGB r g b).valid :=
  ⟨(clamp_range r).1, (clamp_range r).2, (clamp_range g).1, (clamp_range g).2,
    (clamp_range b).1, (clamp_range b).2⟩

theorem and_byte_range (n : ℕ) : (0 : ℤ) ≤ ((n &&& 0xFF : ℕ) : ℤ) ∧ ((n &&& 0xFF : ℕ) : ℤ) ≤ 255 := by
  have : n &&& 0xFF ≤ 0xFF := Nat.and_le_right
  constructor <;> omega

theorem hex_to_rgb_valid (longBits : ℕ) (hex : List Char) : (hex_to_rgb longBits hex).valid := by
  simp only [hex_to_rgb, _hex_to_rgb, RGB.valid]
  exact ⟨(and_byte_range _).1, (and_byte_range _).2, (and_byte_range _).1, (and_byte_range _).2,
    (and_byte_range _).1, (and_byte_range _).2⟩

/-- Whatever `hsl_to_rgb` returns has passed through `_clamp`. -/
theorem hsl_to_rgb_valid (hsl : HSL) (c : RGB) (h : hsl_to_rgb hsl = some c) : c.valid := by
  unfold hsl_to_rgb at h
  simp only [Option.bind_eq_some, Option.some.injEq] at h
  obtain ⟨_, -, ri, -, gi, -, bi, -, rfl⟩ := h
  exact ⟨(clamp_range ri).1, (clamp_range ri).2, (clamp_range gi).1, (clamp_range gi).2,
    (clamp_range bi).1, (clamp_range bi).2⟩

theorem complementary_color_valid (c out : RGB) (h : complementary_color c = some out) :
    out.valid := by
  unfold complementary_color at h
  simp only [Option.bind_eq_some] at h
  obtain ⟨_, -, h2⟩ := h
  exact hsl_to_rgb_valid _ _ h2

theorem lighten_color_valid (c : RGB) (amount : Fp) (out : RGB)
    (h : lighten_color c amount = some out) : out.valid :=
  hsl_to_rgb_valid _ _ h

/-- A clamped value that is not a NaN is a finite value in `[0, 1]`. -/
theorem clamp_float_unit (x : Fp) (hx : x ≠ Fp.nan) :
    ∃ q : ℚ, _clamp_float x (flt 0) (flt 1) = Fp.fin q ∧ 0 ≤ q ∧ q ≤ 1 := by
  cases x with
  | nan => exact absurd rfl hx
  | inf s =>
    cases s
    · exact ⟨1, rfl, by norm_num, le_rfl⟩
    · exact ⟨0, rfl, le_rfl, by norm_num⟩
  | fin a =>
    by_cases h0 : a < 0
    · exact ⟨0, by simp [_clamp_float, Fp.lt, h0], le_rfl, by norm_num⟩
    · by_cases h1 : 1 < a
      · exact ⟨1, by simp [_clamp_float, Fp.lt, Fp.gt, h0, h1], by norm_num, le_rfl⟩
      · exact ⟨a, by simp [_clamp_float, Fp.lt, Fp.gt, h0, h1], not_lt.mp h0, not_lt.mp h1⟩

theorem fadd_ne_nan (l : ℚ) (amount : Fp) (ha : amount ≠ Fp.nan) :
    fadd (Fp.fin l) amount ≠ Fp.nan := by
  cases amount with
  | nan => exact absurd rfl ha
  | inf s => simp [fadd, Fp.add]
  | fin a =>
    simp only [fadd, Fp.add, Fmt.round]
    split_ifs <;> simp

/-- For a valid colour and an amount that is not a NaN, `lighten_color` returns
a valid colour. -/
theorem lighten_color_defined (c : RGB) (amount : Fp) (hc : c.valid) (ha : amount ≠ Fp.nan) :
    ∃ out : RGB, lighten_color c amount = some out ∧ out.valid := by
  obtain ⟨r, g, b⟩ := c
  obtain ⟨hr0, hr1, hg0, hg1, hb0, hb1⟩ := hc
  obtain ⟨h, s, l, e, h0, h1, s0, s1, l0, l1, -⟩ := rgb_to_hsl_range r g b hr0 hr1 hg0 hg1 hb0 hb1
  obtain ⟨q, hq, q0, q1⟩ := clamp_float_unit (fadd (Fp.fin l) amount) (fadd_ne_nan l amount ha)
  obtain ⟨vr, vg, vb, heq, -, -, -⟩ := hsl_to_rgb_approx h s q h0 h1.le s0 s1 q0 q1
  have hl : lighten_color ⟨r, g, b⟩ amount
      = some ⟨_clamp (truncQ vr) 0 255, _clamp (truncQ vg) 0 255, _clamp (truncQ vb) 0 255⟩ := by
    simp only [lighten_color, e, hq]
    exact heq
  exact ⟨_, hl, lighten_color_valid _ _ _ hl⟩

theorem lerp_range (a b : ℤ) (ha0 : 0 ≤ a) (ha1 : a ≤ 255) (hb0 : 0 ≤ b) (hb1 : b ≤ 255)
    (q : ℚ) (h0 : 0 ≤ q) (h1 : q ≤ 1) : 0 ≤ lerp a b q ∧ lerp a b q ≤ 255 := by
  have hA0 : (0 : ℚ) ≤ a := by exact_mod_cast ha0
  have hA1 : (a : ℚ) ≤ 255 := by exact_mod_cast ha1
  have hB0 : (0 : ℚ) ≤ b := by exact_mod_cast hb0
  have hB1 : (b : ℚ) ≤ 255 := by exact_mod_cast hb1
  have p1 : 0 ≤ (a : ℚ) * (1 - q) := mul_nonneg hA0 (by linarith)
  have p2 : 0 ≤ (b : ℚ) * q := mul_nonneg hB0 h0
  have p3 : (a : ℚ) * (1 - q) ≤ 255 * (1 - q) := mul_le_mul_of_nonneg_right hA1 (by linarith)
  have p4 : (b : ℚ) * q ≤ 255 * q := mul_le_mul_of_nonneg_right hB1 h0
  unfold lerp
  constructor <;> linarith

/-- A blended channel lies in `[0, 255]`. -/
theorem blend_channel_range (a b : ℤ) (ha0 : 0 ≤ a) (ha1 : a ≤ 255) (hb0 : 0 ≤ b) (hb1 : b ≤ 255)
    (q : ℚ) (h0 : 0 ≤ q) (h1 : q ≤ 1) :
    0 ≤ roundHalfUp (blendValue a b q) ∧ roundHalfUp (blendValue a b q) ≤ 255 := by
  obtain ⟨e, v0, -, -, -, -⟩ := blendValue_err a b ha0 ha1 hb0 hb1 q h0 h1
  obtain ⟨-, l1⟩ := lerp_range a b ha0 ha1 hb0 hb1 q h0 h1
  obtain ⟨-, e2⟩ := abs_le.mp e
  unfold roundHalfUp
  constructor
  · exact Int.floor_nonneg.mpr (by linarith)
  · have : ⌊blendValue a b q + 1 / 2⌋ < 256 := by
      rw [Int.floor_lt]
      push_cast
      norm_num at e2 ⊢
      linarith
    omega

/-- For valid colours and a ratio that is not a NaN, `blend_colors` returns a
valid colour. -/
theorem blend_colors_defined (c1 c2 : RGB) (ratio : Fp) (h1 : c1.valid) (h2 : c2.valid)
    (hr : ratio ≠ Fp.nan) : ∃ c : RGB, blend_colors c1 c2 ratio = some c ∧ c.valid := by
  have black : (⟨0, 0, 0⟩ : RGB).valid := by decide
  cases ratio with
  | nan => exact absurd rfl hr
  | inf s => exact ⟨_, blend_colors_outside c1 c2 (Fp.inf s) trivial, black⟩
  | fin q =>
    by_cases hq : 0 ≤ q ∧ q ≤ 1
    · obtain ⟨hq0, hq1⟩ := hq
      obtain ⟨r0, r1, g0, g1, b0, b1⟩ := h1
      obtain ⟨r0', r1', g0', g1', b0', b1'⟩ := h2
      refine ⟨⟨roundHalfUp (blendValue c1.r c2.r q), roundHalfUp (blendValue c1.g c2.g q),
        roundHalfUp (blendValue c1.b c2.b q)⟩, ?_, ?_⟩
      · rw [blend_colors_inside c1 c2 (Fp.fin q) ⟨hq0, hq1⟩]
        unfold blendInterp
        simp only [blendChannel_eq _ _ r0 r1 r0' r1' q hq0 hq1,
          blendChannel_eq _ _ g0 g1 g0' g1' q hq0 hq1,
          blendChannel_eq _ _ b0 b1 b0' b1' q hq0 hq1, Option.some_bind]
      · exact ⟨(blend_channel_range _ _ r0 r1 r0' r1' q hq0 hq1).1,
          (blend_channel_range _ _ r0 r1 r0' r1' q hq0 hq1).2,
          (blend_channel_range _ _ g0 g1 g0' g1' q hq0 hq1).1,
          (blend_channel_range _ _ g0 g1 g0' g1' q hq0 hq1).2,
          (blend_channel_range _ _ b0 b1 b0' b1' q hq0 hq1).1,
          (blend_channel_range _ _ b0 b1 b0' b1' q hq0 hq1).2⟩
    · have ho : (Fp.fin q).outsideUnit := by
        show q < 0 ∨ 1 < q
        by_contra hc
        push_neg at hc
        exact hq hc
      exact ⟨_, blend_colors_outside c1 c2 (Fp.fin q) ho, black⟩

theorem fmul_nan_right (x : Fp) : fmul x Fp.nan = Fp.nan := by
  cases x <;> rfl

/-- With a NaN ratio the range check of `blend_colors` is false and the
conversion of a NaN to `int` is undefined. -/
theorem blendChannel_nan (a b : ℤ) :
    blendChannel a b (d2f (dsub (flt 1) (f2d Fp.nan))) Fp.nan = none := by
  have hm : d2f (dsub (flt 1) (f2d Fp.nan)) = Fp.nan := rfl
  rw [hm]
  simp only [blendChannel, fmul_nan_right]
  rfl

theorem blend_colors_nan (c1 c2 : RGB) : blend_colors c1 c2 Fp.nan = none := by
  have hg : (Fp.lt (f2d Fp.nan) (flt 0) || Fp.gt (f2d Fp.nan) (flt 1)) = false := rfl
  simp only [blend_colors, hg, blendInterp, blendChannel_nan]
  rfl

theorem neg_ne_nan (x : Fp) (hx : x ≠ Fp.nan) : Fp.neg x ≠ Fp.nan := by
  cases x with
  | nan => exact absurd rfl hx
  | inf s => simp [Fp.neg]
  | fin a => simp [Fp.neg]

/-- C16: `newRGB` for any integers and `hex_to_rgb` for any string return
channels in `[0, 255]`; whatever `hsl_to_rgb`, `complementary_color`,
`lighten_color` and `darken_color` return has channels in `[0, 255]`, and they
do return a colour for every HSL with hue in `[0, 360]` and saturation and
lightness in `[0, 1]`, for every valid colour, and for every valid colour and
amount that is not a NaN; `blend_colors` returns channels in `[0, 255]` for valid
colours and every ratio that is not a NaN. With a NaN ratio the check
`ratio < 0.0 || ratio > 1.0` of `blend_colors` is false and the unclamped
conversion `(int)(NaN)` of each channel is undefined. -/
theorem rgb_channels_in_range :
    (∀ r g b : ℤ, (newRGB r g b).valid) ∧
    (∀ (longBits : ℕ) (hex : List Char), (hex_to_rgb longBits hex).valid) ∧
    (∀ (hsl : HSL) (c : RGB), hsl_to_rgb hsl = some c → c.valid) ∧
    (∀ (c out : RGB) (amount : Fp), (complementary_color c = some out → out.valid) ∧
        (lighten_color c amount = some out → out.valid) ∧
        (darken_color c amount = some out → out.valid)) ∧
    (∀ h s l : ℚ, 0 ≤ h → h ≤ 360 → 0 ≤ s → s ≤ 1 → 0 ≤ l → l ≤ 1 →
        ∃ c : RGB, hsl_to_rgb ⟨flt h, flt s, flt l⟩ = some c ∧ c.valid) ∧
    (∀ c : RGB, c.valid → ∃ out : RGB, complementary_color c = some out ∧ out.valid) ∧
    (∀ (c : RGB) (amount : Fp), c.valid → amount ≠ Fp.nan →
        (∃ out : RGB, lighten_color c amount = some out ∧ out.valid) ∧
        (∃ out : RGB, darken_color c amount = some out ∧ out.valid)) ∧
    (∀ (c1 c2 : RGB) (ratio : Fp), c1.valid → c2.valid → ratio ≠ Fp.nan →
        ∃ c : RGB, blend_colors c1 c2 ratio = some c ∧ c.valid) ∧
    (∀ c1 c2 : RGB, (Fp.lt (f2d Fp.nan) (flt 0) || Fp.gt (f2d Fp.nan) (flt 1)) = false ∧
        blendChannel c1.r c2.r (d2f (dsub (flt 1) (f2d Fp.nan))) Fp.nan = none ∧
        blend_colors c1 c2 Fp.nan = none) := by
  refine ⟨newRGB_valid, hex_to_rgb_valid, hsl_to_rgb_valid, ?_, ?_, ?_, ?_, ?_, ?_⟩
  · intro c out amount
    exact ⟨complementary_color_valid c out, lighten_color_valid c amount out,
      lighten_color_valid c (Fp.neg amount) out⟩
  · intro h s l h0 h1 s0 s1 l0 l1
    obtain ⟨vr, vg, vb, heq, -, -, -⟩ := hsl_to_rgb_approx h s l h0 h1 s0 s1 l0 l1
    exact ⟨_, heq, hsl_to_rgb_valid _ _ heq⟩
  · intro c hc
    obtain ⟨r0, r1, g0, g1, b0, b1⟩ := hc
    obtain ⟨out, ho, -⟩ := complement_channels c.r c.g c.b _ _ r0 r1 g0 g1 b0 b1 rfl rfl
    exact ⟨out, ho, complementary_color_valid _ _ ho⟩
  · intro c amount hc ha
    exact ⟨lighten_color_defined c amount hc ha,
      lighten_color_defined c (Fp.neg amount) hc (neg_ne_nan amount ha)⟩
  · intro c1 c2 ratio h1 h2 hr
    exact blend_colors_defined c1 c2 ratio h1 h2 hr
  · intro c1 c2
    exact ⟨rfl, blendChannel_nan _ _, blend_colors_nan c1 c2⟩

theorem rgb_channels_in_range_witness :
    (newRGB 300 (-5) 7).valid ∧
      (∃ c : RGB, hsl_to_rgb ⟨flt 120, flt 1, flt (1 / 2)⟩ = some c ∧ c.valid) ∧
      (∃ out : RGB, complementary_color ⟨10, 20, 30⟩ = some out ∧ out.valid) ∧
      (∃ out : RGB, lighten_color ⟨10, 20, 30⟩ (flt (1 / 4)) = some out ∧ out.valid) ∧
      (∃ c : RGB, blend_colors ⟨10, 20, 30⟩ ⟨200, 100, 50⟩ (flt (1 / 2)) = some c ∧ c.valid) ∧
      blend_colors ⟨10, 20, 30⟩ ⟨200, 100, 50⟩ Fp.nan = none :=
  ⟨rgb_channels_in_range.1 300 (-5) 7,
    rgb_channels_in_range.2.2.2.2.1 120 1 (1 / 2) (by norm_num) (by norm_num) (by norm_num)
      (by norm_num) (by norm_num) (by norm_num),
    rgb_channels_in_range.2.2.2.2.2.1 ⟨10, 20, 30⟩ (by decide),
    (rgb_channels_in_range.2.2.2.2.2.2.1 ⟨10, 20, 30⟩ (flt (1 / 4)) (by decide) (by simp)).1,
    rgb_channels_in_range.2.2.2.2.2.2.2.1 ⟨10, 20, 30⟩ ⟨200, 100, 50⟩ (flt (1 / 2)) (by decide)
      (by decide) (by simp),
    (rgb_channels_in_range.2.2.2.2.2.2.2.2 ⟨10, 20, 30⟩ ⟨200, 100, 50⟩).2.2⟩

end ColorH
